import Mathlib

/-!
# Verification of the shimoku-api-python code-generation core

This file is a shallow embedding, in Lean 4, of the algorithmic core of the
`shimoku_api_python` repository: the report-tree builder and code generator
(`shimoku_api_python/code_generation.py` and
`shimoku_api_python/code_generation/code_generation.py`), the default-property
stripping helper
(`.../report_types_code_gen/code_gen_from_other.py::delete_default_properties`),
the shared-data-set bookkeeping
(`code_generation.py::check_for_shared_data_sets` and
`code_gen_shared_data_sets`), and the AI workflow template lookup
(`api/ai_api.py::AiApi._get_activity_template` against
`resources/universe.py::Universe.get_activity_template`).

Python data is modelled by the inductive type `Val` (None / bool / int / str /
list / dict as an insertion-ordered association list), Python exceptions by
`PErr` together with the `Except` monad, and Python's stable `sorted` builtin
by a stable insertion sort `pySorted`.  Async functions are embedded as pure
functions: the single-threaded cooperative scheduler of the library runs the
awaited calls of each modelled function to completion in program order, so the
sequential functional semantics is faithful.  Recursions of the source that
walk id-references through the report collection are given an explicit fuel
parameter; every theorem that needs a successful run supplies enough fuel.
-/

set_option maxHeartbeats 1000000

namespace Shimoku

/-- Python exceptions raised (or modelled) by the embedded code, plus
`fuelOut`, an artifact of the explicit fuel given to source recursions that
walk id references (never produced when enough fuel is supplied). -/
inductive PErr where
  | keyError
  | typeError
  | workflowError
  | activityError
  | runtimeError
  | attributeError
  | stopIteration
  | fuelOut
deriving DecidableEq, Repr

/-! ## Python's stable `sorted`

Python's `sorted(xs, key=k)` is a stable ascending sort: elements are compared
by `k(x) < k(y)` and elements whose keys are equal keep their relative order.
A stable sort is uniquely determined by the strict-order relation on keys, so
the insertion sort below is a faithful model of the builtin. -/

/-- Insert `x` into `l` after every element `y` with `lt y x`; on ties the
previously inserted elements (which come later in the original list) stay
behind `x`. -/
def pyInsert (lt : α → α → Bool) (x : α) : List α → List α
  | [] => [x]
  | y :: ys => if lt y x then y :: pyInsert lt x ys else x :: y :: ys

/-- Python's stable `sorted` with strict comparison `lt`. -/
def pySorted (lt : α → α → Bool) : List α → List α
  | [] => []
  | x :: xs => pyInsert lt x (pySorted lt xs)

/-! ## Python string comparison

Python compares `str` values lexicographically by Unicode code point. -/

/-- Lexicographic strict comparison of two character lists by code point. -/
def pyStrLtL : List Char → List Char → Bool
  | [], [] => false
  | [], _ :: _ => true
  | _ :: _, [] => false
  | a :: as, b :: bs =>
    if a.toNat < b.toNat then true
    else if b.toNat < a.toNat then false
    else pyStrLtL as bs

/-- Python's `<` on strings. -/
def pyStrLt (a b : String) : Bool := pyStrLtL a.data b.data

/-! ## Claim C5: the report sort in `generate_code`

`code_generation.py::generate_code` (lines 939-945) sorts the fetched reports
with
```
sorted(await self._app.get_reports(), key=lambda x:
    '0' if x['reportType'] == 'MODAL' else
    '1' if x['reportType'] == 'TABS' else
    '_' + x['properties']['hash'])
```
Only the two fields consulted by the key are needed here. -/

/-- The two report fields consulted by the sort key of `generate_code`:
`reportType` and `properties['hash']`. -/
structure GReport where
  reportType : String
  hash : String
deriving DecidableEq, Repr

/-- The sort key of `generate_code`: `'0'` for MODAL reports, `'1'` for TABS
reports, `'_' + hash` for every other report. -/
def genKey (r : GReport) : String :=
  if r.reportType = "MODAL" then "0"
  else if r.reportType = "TABS" then "1"
  else "_" ++ r.hash

/-- The sort performed by `generate_code` on the fetched report list. -/
def generateCodeSort (reports : List GReport) : List GReport :=
  pySorted (fun a b => pyStrLt (genKey a) (genKey b)) reports

/-- Rank of a report in the container-first ordering: MODAL before TABS before
everything else. -/
def genRank (r : GReport) : Nat :=
  if r.reportType = "MODAL" then 0
  else if r.reportType = "TABS" then 1
  else 2

/-! ## Python values

`Val` models the plain-data Python values handled by the code generator:
`None`, `bool`, `int`, `str`, lists, and dicts (insertion-ordered association
lists with unique keys; uniqueness is captured by `wfKeys` where a proof needs
it). -/

inductive Val where
  | vnone
  | vbool (b : Bool)
  | vint (n : Int)
  | vstr (s : String)
  | vlist (xs : List Val)
  | vdict (fs : List (String × Val))
deriving Repr

/-- First-occurrence lookup in a dict's association list (Python dicts have
unique keys, so this is dict subscript lookup). -/
def lookupF : List (String × Val) → String → Option Val
  | [], _ => none
  | (k, v) :: fs, key => if k = key then some v else lookupF fs key

/-- `del d[key]`: remove the (unique) binding of `key`. -/
def eraseF : List (String × Val) → String → List (String × Val)
  | [], _ => []
  | (k, v) :: fs, key => if k = key then fs else (k, v) :: eraseF fs key

/-- `d[key] = v`: replace the value in place (Python keeps the key's
position), or append the binding if the key is new. -/
def setF : List (String × Val) → String → Val → List (String × Val)
  | [], key, v => [(key, v)]
  | (k, w) :: fs, key, v => if k = key then (k, v) :: fs else (k, w) :: setF fs key v

mutual
/-- Python `==` on `Val`: numeric equality identifies `True`/`1` and
`False`/`0` (Python's `bool` is a subtype of `int`), lists compare pointwise,
and dicts compare as key-value sets (insertion order is irrelevant: equal
length plus every binding of the left dict present in the right one, which for
unique keys is Python's dict equality). -/
def pyEq : Val → Val → Bool
  | .vnone, .vnone => true
  | .vbool a, .vbool b => a == b
  | .vbool a, .vint n => (if a then (1 : Int) else 0) == n
  | .vint n, .vbool b => n == (if b then (1 : Int) else 0)
  | .vint a, .vint b => a == b
  | .vstr a, .vstr b => a == b
  | .vlist a, .vlist b => pyEqList a b
  | .vdict a, .vdict b => a.length == b.length && pyEqFields a b
  | _, _ => false
termination_by a b => sizeOf a + sizeOf b
decreasing_by all_goals (simp_wf; try omega)

def pyEqList : List Val → List Val → Bool
  | [], [] => true
  | a :: as, b :: bs => pyEq a b && pyEqList as bs
  | _, _ => false
termination_by as bs => sizeOf as + sizeOf bs
decreasing_by all_goals (simp_wf; try omega)

def pyEqFields : List (String × Val) → List (String × Val) → Bool
  | [], _ => true
  | (k, v) :: fs, ys => pyLookupEq k v ys && pyEqFields fs ys
termination_by fs ys => sizeOf fs + sizeOf ys
decreasing_by all_goals (simp_wf; try omega)

def pyLookupEq : String → Val → List (String × Val) → Bool
  | _, _, [] => false
  | key, v, (k, w) :: ys => if k = key then pyEq v w else pyLookupEq key v ys
termination_by key v ys => sizeOf v + sizeOf ys
decreasing_by all_goals (simp_wf; try omega)
end

/-- Python `len()`: defined for `str`, `list` and `dict`, a `TypeError` for
`None`, `bool` and `int`. -/
def pyLen : Val → Except PErr Nat
  | .vstr s => .ok s.length
  | .vlist xs => .ok xs.length
  | .vdict fs => .ok fs.length
  | _ => .error .typeError

/-- Python subscript `props[key]` with a string key: `KeyError` when the key
is missing from a dict, `TypeError` when `props` is not a dict. -/
def dictIndex (props : Val) (key : String) : Except PErr Val :=
  match props with
  | .vdict fs =>
    match lookupF fs key with
    | some w => .ok w
    | none => .error .keyError
  | _ => .error .typeError

/-- `del props[key]` on a dict value (only reached on dicts). -/
def dictErase (props : Val) (key : String) : Val :=
  match props with
  | .vdict fs => .vdict (eraseF fs key)
  | v => v

/-- `props[key] = v` on a dict value (only reached on dicts). -/
def dictSet (props : Val) (key : String) (v : Val) : Val :=
  match props with
  | .vdict fs => .vdict (setF fs key v)
  | w => w

/-- `key in props` / `props.get(key)` on a dict value. -/
def dictGet? (props : Val) (key : String) : Option Val :=
  match props with
  | .vdict fs => lookupF fs key
  | _ => none

/-- `delete_default_properties(properties, default_properties)`
(`code_gen_from_other.py` lines 18-34, identical to
`AppCodeGen._delete_default_properties`, `code_generation/code_generation.py`
lines 97-113).  The `default_properties` argument is always a Python dict, so
it is taken here as an association list; `properties` can be any value (the
recursive call passes `properties[key]` unchecked).  Following the source:
```
properties = copy(properties)
for key, value in default_properties.items():
    if properties[key] == value:
        del properties[key]
    if isinstance(value, dict):
        if key not in properties:
            continue
        properties[key] = delete_default_properties(properties[key], value)
        if len(properties[key]) == 0:
            del properties[key]
return properties
```
-/
def delete_default_properties (props : Val) : List (String × Val) → Except PErr Val
  | [] => .ok props
  | (key, value) :: rest =>
    match dictIndex props key with
    | .error e => .error e
    | .ok w =>
      let props1 := if pyEq w value then dictErase props key else props
      match value with
      | .vdict d =>
        match dictGet? props1 key with
        | none => delete_default_properties props1 rest
        | some w2 =>
          match delete_default_properties w2 d with
          | .error e => .error e
          | .ok r =>
            let props2 := dictSet props1 key r
            match pyLen r with
            | .error e => .error e
            | .ok n =>
              let props3 := if n = 0 then dictErase props2 key else props2
              delete_default_properties props3 rest
      | _ => delete_default_properties props1 rest
termination_by l => sizeOf l
decreasing_by all_goals (simp_wf; try omega)

/-- The output of `delete_default_properties` as the spec describes it, used
as the claim-side definition for C6: every key whose value equals the
corresponding default is removed, nested dicts are stripped recursively,
nested dicts left empty by the stripping are removed entirely, and every other
key is kept with its value unchanged. -/
def strip_defaults_spec : List (String × Val) → List (String × Val) → List (String × Val)
  | [], _ => []
  | (k, w) :: fs, defaults =>
    match lookupF defaults k with
    | none => (k, w) :: strip_defaults_spec fs defaults
    | some v =>
      if pyEq w v then strip_defaults_spec fs defaults
      else
        match v, w with
        | .vdict d, .vdict pd =>
          let r := strip_defaults_spec pd d
          if r.isEmpty then strip_defaults_spec fs defaults
          else (k, .vdict r) :: strip_defaults_spec fs defaults
        | _, _ => (k, w) :: strip_defaults_spec fs defaults
termination_by fs _ => sizeOf fs
decreasing_by all_goals (simp_wf; try omega)

/-- Proof device: the effect of one iteration of the
`delete_default_properties` loop (for the default entry `(k, v)`) on a
well-formed properties dict. -/
def stripStep (fs : List (String × Val)) (k : String) (v : Val) :
    List (String × Val) :=
  match lookupF fs k with
  | none => fs
  | some w =>
    if pyEq w v then eraseF fs k
    else
      match v, w with
      | .vdict d, .vdict pd =>
        let r := strip_defaults_spec pd d
        if r.isEmpty then eraseF fs k else setF fs k (.vdict r)
      | _, _ => fs

/-- Precondition of C6: the properties value contains every key of the
defaults dict and, wherever a default value is itself a dict, the properties
value at that key is a dict recursively containing every key of that nested
default dict. -/
def containsDefaultsB : Val → List (String × Val) → Bool
  | _, [] => true
  | props, (k, v) :: rest =>
    (match props with
     | .vdict fs =>
       match lookupF fs k with
       | none => false
       | some w =>
         match v with
         | .vdict d =>
           match w with
           | .vdict _ => containsDefaultsB w d
           | _ => false
         | _ => true
     | _ => false) && containsDefaultsB props rest
termination_by props l => sizeOf l
decreasing_by all_goals (simp_wf; try omega)

/-- Precondition of C10 (presence only): every default key is present in the
properties dict, recursively wherever the default value is a dict and the key
survives the top-level equality comparison.  When a differing non-dict value
meets a dict default, the recursive presence requirement is that the nested
default dict has no keys at all (a non-dict contains no keys). -/
def presentDefaultsB : Val → List (String × Val) → Bool
  | _, [] => true
  | props, (k, v) :: rest =>
    (match props with
     | .vdict fs =>
       match lookupF fs k with
       | none => false
       | some w =>
         match v with
         | .vdict d =>
           if pyEq w v then true
           else
             match w with
             | .vdict _ => presentDefaultsB w d
             | _ => d.isEmpty
         | _ => true
     | _ => false) && presentDefaultsB props rest
termination_by props l => sizeOf l
decreasing_by all_goals (simp_wf; try omega)

/-- No duplicate keys in an association list (every Python dict satisfies
this). -/
def nodupKeysB : List (String × Val) → Bool
  | [] => true
  | (k, _) :: fs => (lookupF fs k).isNone && nodupKeysB fs

mutual
/-- Well-formedness of a value as a Python value: every dict occurring in it
has unique keys. -/
def wfKeys : Val → Bool
  | .vlist xs => wfKeysList xs
  | .vdict fs => nodupKeysB fs && wfKeysFields fs
  | _ => true

def wfKeysList : List Val → Bool
  | [] => true
  | x :: xs => wfKeys x && wfKeysList xs

def wfKeysFields : List (String × Val) → Bool
  | [] => true
  | (_, v) :: fs => wfKeys v && wfKeysFields fs
end

/-! ### AI API (`api/ai_api.py`) and `Universe.get_activity_template`
(`resources/universe.py`, lines 76-80) -/

/-- An activity template resource, reduced to the fields the AI API reads:
its uuid, its `name` and its `version`. -/
structure ActivityTemplateM where
  tid : String
  name : String
  version : String
deriving Repr, DecidableEq

/-- A universe resource as the AI API sees it: the ids of its universe API
keys (`get_universe_api_keys`) and its activity-template children. -/
structure UniverseM where
  apiKeys : List String
  activityTemplates : List ActivityTemplateM
deriving Repr

/-- A Python value passed as a keyword argument to
`Universe.get_activity_template`: `None`, a string, or a pair of strings
(the `(name, version)` tuple built by `AiApi._get_activity_template`). -/
inductive PyArg where
  | anone
  | astr : String → PyArg
  | apair : String → String → PyArg
deriving Repr, DecidableEq

/-- Modelled from the spec: `get_child(kind, uuid|alias) -> Resource|None`
looks a child up by uuid when one is given and otherwise by its alias
(`name` for activity templates), returning `None` when nothing matches. -/
def universe_get_child (env : UniverseM) (uuid : Option String)
    (aliasName : Option String) : Option ActivityTemplateM :=
  match uuid with
  | some u => env.activityTemplates.find? (fun t => t.tid == u)
  | none =>
    match aliasName with
    | some a => env.activityTemplates.find? (fun t => t.name == a)
    | none => none

/-- `Universe.get_activity_template` (`resources/universe.py`, lines 76-80),
called with keyword arguments, with Python's keyword-binding rule made
explicit: its signature is `(self, uuid=None, name=None)`, so a keyword that
is neither `uuid` nor `name` raises `TypeError` before the body runs;
otherwise the body delegates to `get_child`. A non-string value bound to
`uuid` or `name` matches no template id or alias, so it is looked up as
`None`. -/
def universe_get_activity_template (env : UniverseM)
    (kwargs : List (String × PyArg)) : Except PErr (Option ActivityTemplateM) :=
  if kwargs.all (fun kv => kv.1 == "uuid" || kv.1 == "name") then
    let toStr? : Option PyArg → Option String := fun a =>
      match a with
      | some (.astr s) => some s
      | _ => none
    let uuid := toStr? ((kwargs.find? (fun kv => kv.1 == "uuid")).map Prod.snd)
    let nm := toStr? ((kwargs.find? (fun kv => kv.1 == "name")).map Prod.snd)
    .ok (universe_get_child env uuid nm)
  else .error .typeError

/-- `AiApi._get_activity_template` (`api/ai_api.py`, lines 238-257): with a
non-`None` version it calls `Universe.get_activity_template` with the single
keyword argument `name_version=(name, version)`; with `version=None` it takes
the last fetched template of that name; a missing template raises
`WorkflowError` via `log_error`. -/
def ai_get_activity_template (env : UniverseM) (name : String)
    (version : Option String) : Except PErr ActivityTemplateM :=
  match version with
  | some v =>
    match universe_get_activity_template env [("name_version", .apair name v)] with
    | .error e => .error e
    | .ok (some t) => .ok t
    | .ok none => .error .workflowError
  | none =>
    match (env.activityTemplates.filter (fun t => t.name == name)).getLast? with
    | some t => .ok t
    | none => .error .workflowError

/-- `PrivateWorkflowCredentials` (`api/ai_api.py`, lines 200-204): workflow
name, workflow version and run id; the version field is a plain `str`. -/
structure PrivateWorkflowCredentialsM where
  workflowName : String
  workflowVersion : String
  runId : String
deriving Repr, DecidableEq

/-- The state of an `AiApi` object read by the methods under study: the
access token, the universe, and the optional private workflow credentials. -/
structure AiEnv where
  accessToken : String
  univ : UniverseM
  privateWorkflowCredentials : Option PrivateWorkflowCredentialsM
deriving Repr

/-- `AiApi.generic_execute` (`api/ai_api.py`, lines 624-638): its first await
is `_get_activity_template(name, version)`; the remainder of the method
(activity lookup, parameter checking, run creation, webhook trigger) depends
on remote services and is abstracted as `rest`, run only when the template
lookup succeeds. -/
def generic_execute (env : AiEnv) (name : String) (version : Option String)
    (rest : ActivityTemplateM → Except PErr Unit) : Except PErr Unit :=
  match ai_get_activity_template env.univ name version with
  | .error e => .error e
  | .ok t => rest t

/-- `AiApi.show_last_execution_logs` (`api/ai_api.py`, lines 444-474): its
first await is `_get_activity_template(name, version)`; the remainder
(activity and run retrieval, log printing) is abstracted as `rest`. -/
def show_last_execution_logs (env : AiEnv) (name : String)
    (version : Option String) (howMany : Nat)
    (rest : ActivityTemplateM → Nat → Except PErr Unit) : Except PErr Unit :=
  match ai_get_activity_template env.univ name version with
  | .error e => .error e
  | .ok t => rest t howMany

/-- `AiApi.check_for_private_access` (`api/ai_api.py`, lines 315-336):
missing credentials raise `WorkflowError`; an access token that is not one
of the universe API key ids raises `WorkflowError`; then the template is
looked up with the credentials' name and version — a plain string, so the
versioned branch of `_get_activity_template` is taken. The remainder
(`check_app_is_set`, `_check_run_id_exists`, storing the pair) is
abstracted as `rest`. -/
def check_for_private_access (env : AiEnv)
    (rest : ActivityTemplateM → Except PErr Unit) : Except PErr Unit :=
  match env.privateWorkflowCredentials with
  | none => .error .workflowError
  | some pwc =>
    if env.univ.apiKeys.contains env.accessToken then
      match ai_get_activity_template env.univ pwc.workflowName
          (some pwc.workflowVersion) with
      | .error e => .error e
      | .ok t => rest t
    else .error .workflowError

/-- A concrete `AiApi` state with credentials set and an access token that is
one of the universe API keys. -/
def aiEnvC : AiEnv :=
  { accessToken := "k1",
    univ := { apiKeys := ["k1"], activityTemplates := [] },
    privateWorkflowCredentials :=
      some { workflowName := "w", workflowVersion := "2", runId := "r" } }

/-! ## The report tree builder (`code_generation.py`, lines 57-146)

`generate_tree` walks the fetched report list of a menu path and groups the
reports into a per-path tree: top-level leaves (`other`), tabs groups
(`tab_groups`, recursively holding tabs that hold leaves and nested tabs
groups) and modals (`modals`).  Container reports reference their children by
id (`properties['tabs'][tab]['reportIds']` for a tabs group,
`properties['reportIds']` for a modal) and the children are fetched with
`self._app.get_report(child_id)`.  The recursion through id references is
given an explicit fuel parameter; every theorem about a successful run is
conditioned on (or supplies) enough fuel. -/

/-- Python's `<` on ints, as a Bool. -/
def iLt (a b : Int) : Bool := decide (a < b)

/-- The `bentobox` dict of a report, when non-empty: its id and its sizes
(`bentoboxId`, `bentoboxSizeColumns`, `bentoboxSizeRows`). -/
structure BentoboxM where
  bentoboxId : String
  bentoboxSizeColumns : Int
  bentoboxSizeRows : Int
deriving Repr, DecidableEq

/-- A report as consulted by the tree builder and the emission pass: its id,
menu path, type and layout fields, its `bentobox` dict (`none` for the empty
dict), its `properties` dict, and typed projections of the two container
fields — `tabs` models `properties['tabs']` as a list of
`(tab name, tab order, reportIds)` triples in dict insertion order, and
`reportIds` models `properties['reportIds']`.  `hash` is the typed projection
of `properties['hash']`. -/
structure TReport where
  rid : String
  path : String
  reportType : String
  order : Int
  title : Option String
  sizeColumns : Int
  sizeRows : Int
  sizePadding : String
  bentobox : Option BentoboxM
  properties : List (String × Val)
  hash : String
  tabs : List (String × Int × List String)
  reportIds : List String
deriving Repr

mutual
/-- The `tabs_group_dict` built by `tree_from_tabs_group`: the tabs-group
report, the `tabs` dict (tab name to tab dict, in insertion = sorted-by-order
order), the `order` key and the `parent_tabs_index` key. -/
inductive TabsGroupNode where
  | mk : TReport → List (String × TabNode) → Int → Option (String × String) →
      TabsGroupNode

/-- The `tab_dict` built per tab: its `tab_groups` and `other` lists. -/
inductive TabNode where
  | mk : List TabsGroupNode → List TReport → TabNode
end

/-- The `tabs_group` entry of a `tabs_group_dict`. -/
def TabsGroupNode.tabsGroup : TabsGroupNode → TReport
  | .mk t _ _ _ => t

/-- The `tabs` entry of a `tabs_group_dict`. -/
def TabsGroupNode.tabsD : TabsGroupNode → List (String × TabNode)
  | .mk _ ts _ _ => ts

/-- The `order` entry of a `tabs_group_dict`. -/
def TabsGroupNode.order : TabsGroupNode → Int
  | .mk _ _ o _ => o

/-- The `parent_tabs_index` entry of a `tabs_group_dict`. -/
def TabsGroupNode.parentTabsIndex : TabsGroupNode → Option (String × String)
  | .mk _ _ _ p => p

/-- The `tab_groups` entry of a `tab_dict`. -/
def TabNode.tabGroups : TabNode → List TabsGroupNode
  | .mk tgs _ => tgs

/-- The `other` entry of a `tab_dict`. -/
def TabNode.other : TabNode → List TReport
  | .mk _ os => os

/-- The `modal_dict` built by `tree_from_modal`: the modal report, its
`tab_groups` and its `other` list. -/
structure ModalNode where
  modal : TReport
  tabGroups : List TabsGroupNode
  other : List TReport

/-- The per-path entry of `reports_tree`: `modals`, `tab_groups`, `other`. -/
structure PathTree where
  modals : List ModalNode
  tabGroups : List TabsGroupNode
  other : List TReport

/-- `self._app.get_report(child_id)`: fetch a report by id from the app's
report collection; a missing id yields `None`, whose following
`['reportType']` subscript raises `TypeError`. -/
def get_report (env : List TReport) (rid : String) : Except PErr TReport :=
  match env.find? (fun r => r.rid == rid) with
  | some r => .ok r
  | none => .error .typeError

/-- `seen_reports.add(child_id)` on an insertion-ordered model of the set. -/
def seenAdd (seen : List String) (x : String) : List String :=
  if seen.contains x then seen else seen ++ [x]

mutual
/-- `tree_from_tabs_group` (`code_generation.py`, lines 57-91): build the
`tabs_group_dict` of a tabs group.  The tabs are visited sorted by their
`order` (`sorted(tabs_group['properties']['tabs'].items(), key=lambda x:
x[1]['order'])`); the global `all_tab_groups` bookkeeping is not modelled
(no claim consults it).  Fuel decreases exactly when descending through an
id reference into a nested tabs group, so that the mutual recursion is
total; `fuelOut` never occurs with enough fuel. -/
def tree_from_tabs_group (env : List TReport) (fuel : Nat)
    (tabsGroup : TReport) (seen : List String)
    (parentTabsIndex : Option (String × String)) :
    Except PErr (TabsGroupNode × List String) :=
  let tabs := pySorted (fun a b => iLt a.2.1 b.2.1) tabsGroup.tabs
  match processTabs env fuel tabsGroup tabs seen with
  | .error e => .error e
  | .ok (tabNodes, seen1) =>
    .ok (.mk tabsGroup tabNodes tabsGroup.order parentTabsIndex, seen1)
termination_by (fuel, 2, 0)

/-- The `for tab, tab_data in tabs` loop of `tree_from_tabs_group`: build the
`tab_dict` of every tab, sorting its `tab_groups` by
`x['tabs_group']['order']` and its `other` by `x['order']` at the end of each
iteration. -/
def processTabs (env : List TReport) (fuel : Nat) (tabsGroup : TReport) :
    List (String × Int × List String) → List String →
    Except PErr (List (String × TabNode) × List String)
  | [], seen => .ok ([], seen)
  | (tab, _, reportIds) :: rest, seen =>
    match processChildren env fuel tabsGroup tab reportIds seen with
    | .error e => .error e
    | .ok (tgs, others, seen1) =>
      let node : TabNode := .mk
        (pySorted (fun a b => iLt a.tabsGroup.order b.tabsGroup.order) tgs)
        (pySorted (fun a b => iLt a.order b.order) others)
      match processTabs env fuel tabsGroup rest seen1 with
      | .error e => .error e
      | .ok (nodes, seen2) => .ok ((tab, node) :: nodes, seen2)
termination_by l _ => (fuel, 1, l.length)

/-- The `for child_id in report_ids` loop of `tree_from_tabs_group`: add the
child id to `seen_reports`, fetch it, recurse on TABS children (with parent
index `(tabs_group hash, tab)`) and append every other child to `other`. -/
def processChildren (env : List TReport) (fuel : Nat) (tabsGroup : TReport)
    (tab : String) :
    List String → List String →
    Except PErr (List TabsGroupNode × List TReport × List String)
  | [], seen => .ok ([], [], seen)
  | childId :: rest, seen =>
    let seen0 := seenAdd seen childId
    match get_report env childId with
    | .error e => .error e
    | .ok child =>
      if child.reportType == "TABS" then
        match fuel with
        | 0 => .error .fuelOut
        | fuel2 + 1 =>
          match tree_from_tabs_group env fuel2 child seen0
              (some (tabsGroup.hash, tab)) with
          | .error e => .error e
          | .ok (node, seen1) =>
            match processChildren env (fuel2 + 1) tabsGroup tab rest seen1 with
            | .error e => .error e
            | .ok (tgs, others, seen2) => .ok (node :: tgs, others, seen2)
      else
        match processChildren env fuel tabsGroup tab rest seen0 with
        | .error e => .error e
        | .ok (tgs, others, seen2) => .ok (tgs, child :: others, seen2)
termination_by l _ => (fuel, 0, l.length)
end

/-- The `for child_id in modal['properties']['reportIds']` loop of
`tree_from_modal` (`code_generation.py`, lines 94-111): add the child id to
`seen_reports`, fetch it, recurse on TABS children (default parent index)
and append every other child to `other`. -/
def processModalChildren (env : List TReport) (fuel : Nat) :
    List String → List String →
    Except PErr (List TabsGroupNode × List TReport × List String)
  | [], seen => .ok ([], [], seen)
  | childId :: rest, seen =>
    let seen0 := seenAdd seen childId
    match get_report env childId with
    | .error e => .error e
    | .ok child =>
      if child.reportType == "TABS" then
        match fuel with
        | 0 => .error .fuelOut
        | fuel2 + 1 =>
          match tree_from_tabs_group env fuel2 child seen0 none with
          | .error e => .error e
          | .ok (node, seen1) =>
            match processModalChildren env fuel rest seen1 with
            | .error e => .error e
            | .ok (tgs, others, seen2) => .ok (node :: tgs, others, seen2)
      else
        match processModalChildren env fuel rest seen0 with
        | .error e => .error e
        | .ok (tgs, others, seen2) => .ok (tgs, child :: others, seen2)

/-- `tree_from_modal` (`code_generation.py`, lines 94-111): build the
`modal_dict` of a modal, sorting its `tab_groups` by
`x['tabs_group']['order']` and its `other` by `x['order']` at the end. -/
def tree_from_modal (env : List TReport) (fuel : Nat) (modal : TReport)
    (seen : List String) : Except PErr (ModalNode × List String) :=
  match processModalChildren env fuel modal.reportIds seen with
  | .error e => .error e
  | .ok (tgs, others, seen1) =>
    .ok (⟨modal,
          pySorted (fun a b => iLt a.tabsGroup.order b.tabsGroup.order) tgs,
          pySorted (fun a b => iLt a.order b.order) others⟩, seen1)

/-- The `reports_tree[path]` entry created when a path is first seen. -/
def emptyPathTree : PathTree := ⟨[], [], []⟩

/-- `reports_tree[path] = ...` on the insertion-ordered dict model: update
the entry of `p` in place, appending a new entry built from `emptyPathTree`
when the path is missing (the `if report['path'] not in reports_tree`
initialization). -/
def treeUpd : List (String × PathTree) → String → (PathTree → PathTree) →
    List (String × PathTree)
  | [], p, f => [(p, f emptyPathTree)]
  | (q, v) :: rest, p, f =>
    if q = p then (q, f v) :: rest else (q, v) :: treeUpd rest p f

/-- The `for report in reports` loop of `generate_tree` (`code_generation.py`,
lines 114-146): skip reports already in `seen_reports`, then dispatch on the
report type — MODAL and TABS reports are expanded into subtree dicts, every
other report is appended to the path's `other` list. -/
def generate_tree_loop (env : List TReport) (fuel : Nat) :
    List TReport → List (String × PathTree) → List String →
    Except PErr (List (String × PathTree) × List String)
  | [], t, seen => .ok (t, seen)
  | r :: rest, t, seen =>
    if seen.contains r.rid then generate_tree_loop env fuel rest t seen
    else if r.reportType == "MODAL" then
      match tree_from_modal env fuel r seen with
      | .error e => .error e
      | .ok (node, seen1) =>
        generate_tree_loop env fuel rest
          (treeUpd t r.path (fun pt => { pt with modals := pt.modals ++ [node] }))
          seen1
    else if r.reportType == "TABS" then
      match tree_from_tabs_group env fuel r seen none with
      | .error e => .error e
      | .ok (node, seen1) =>
        generate_tree_loop env fuel rest
          (treeUpd t r.path
            (fun pt => { pt with tabGroups := pt.tabGroups ++ [node] }))
          seen1
    else
      generate_tree_loop env fuel rest
        (treeUpd t r.path (fun pt => { pt with other := pt.other ++ [r] }))
        seen

/-- `generate_tree` (`code_generation.py`, lines 114-146): run the loop, then
sort each path's `other` by `x['order']` and `tab_groups` by
`x['tabs_group']['order']`. -/
def generate_tree (env : List TReport) (fuel : Nat) (reports : List TReport) :
    Except PErr (List (String × PathTree)) :=
  match generate_tree_loop env fuel reports [] [] with
  | .error e => .error e
  | .ok (t, _) =>
    .ok (t.map (fun pv =>
      (pv.1,
       ⟨pv.2.modals,
        pySorted (fun a b => iLt a.tabsGroup.order b.tabsGroup.order)
          pv.2.tabGroups,
        pySorted (fun a b => iLt a.order b.order) pv.2.other⟩)))

/-! ## The sibling merge of the emission pass
(`code_generation/code_generation.py`, lines 654-671, and
`code_generation.py`, lines 785-803) -/

/-- An element of `tree['other'] + tree['tab_groups']`: a leaf report object
or a tabs-group dict. -/
inductive Component where
  | leaf : TReport → Component
  | tabs : TabsGroupNode → Component

/-- The `x['order']` key consulted by the merge sort: the `order` field of a
leaf report, the `order` entry of a tabs-group dict. -/
def Component.order : Component → Int
  | .leaf r => r.order
  | .tabs t => t.order

/-- The id of the report behind a component (the tabs-group report's id for a
tabs-group dict). -/
def Component.rid : Component → String
  | .leaf r => r.rid
  | .tabs t => t.tabsGroup.rid

/-- `components_ordered = sorted(tree['other'] + tree['tab_groups'],
key=lambda x: x['order'])`: the single sequence the emission pass iterates
over — leaves first, then tabs groups, stably sorted by `order`. -/
def mergedComponents (other : List TReport) (tabGroups : List TabsGroupNode) :
    List Component :=
  pySorted (fun a b => iLt a.order b.order)
    ((other.map Component.leaf) ++ (tabGroups.map Component.tabs))

/-- A TABS report with order 5, fetched first on path `"p"`. -/
def rTabsC3 : TReport :=
  { rid := "t", path := "p", reportType := "TABS", order := 5,
    title := none, sizeColumns := 12, sizeRows := 3,
    sizePadding := "0,0,0,0", bentobox := none,
    properties := [("hash", .vstr "th")], hash := "th",
    tabs := [], reportIds := [] }

/-- A leaf report with the same order 5, fetched second on path `"p"`. -/
def rLeafC3 : TReport :=
  { rid := "x", path := "p", reportType := "HTML", order := 5,
    title := none, sizeColumns := 12, sizeRows := 3,
    sizePadding := "0,0,0,0", bentobox := none,
    properties := [("hash", .vstr "xh")], hash := "xh",
    tabs := [], reportIds := [] }

/-- The fetched report list of the C3 counterexample: the tabs group comes
first in fetch order, the equal-order leaf second. -/
def envC3 : List TReport := [rTabsC3, rLeafC3]

/-- The path tree `generate_tree` builds from `envC3`. -/
def ptC3 : PathTree :=
  ⟨[], [.mk rTabsC3 [] 5 none], [rLeafC3]⟩

/-! ## The per-report emission pass
(`code_generation/code_generation.py::AppCodeGen._code_gen_from_other`,
lines 516-577, and
`business_code_gen/.../code_gen_from_other.py::code_gen_from_other_reports`,
lines 37-98; both bodies are line-for-line the same algorithm) -/

/-- The environment of `_code_gen_from_other`: the per-report-class default
properties (`report.default_properties`, a class attribute resolved from the
report type; the class registry lives outside `src/`), the function-name
normalizer `create_function_name` (it calls `create_normalized_name` from
`utils.py`, which is outside `src/`), and the nine per-type serializers —
the claims under study quantify over their outputs, so they are carried as
parameters rather than re-embedded. -/
structure CodeGenEnv where
  defaultProps : String → List (String × Val)
  fnName : String → String
  genIndicator : List String → List (String × Val) → Except PErr (List String)
  genEcharts : TReport → List String → List (String × Val) →
    Except PErr (List String)
  genTable : TReport → List String → List (String × Val) →
    Except PErr (List String)
  genForm : TReport → List (String × Val) → Except PErr (List String)
  genHtml : TReport → Except PErr (List String)
  genIframe : TReport → Except PErr (List String)
  genAnnotatedEchart : TReport → List String → List (String × Val) →
    Except PErr (List String)
  genButton : TReport → Except PErr (List String)
  genFilter : TReport → Except PErr (List String)

/-- The scope-close line `'shimoku_client.plt.pop_out_of_bentobox()'`. -/
def popBentoboxLine : String := "shimoku_client.plt.pop_out_of_bentobox()"

/-- The scope-open line
`f'shimoku_client.plt.set_bentobox(cols_size={cols_size}, rows_size={rows_size})'`. -/
def setBentoboxLine (bb : BentoboxM) : String :=
  "shimoku_client.plt.set_bentobox(cols_size="
    ++ (toString bb.bentoboxSizeColumns
      ++ (", rows_size=" ++ (toString bb.bentoboxSizeRows ++ ")")))

/-- The bentobox block of `_code_gen_from_other`: with a non-empty
`report['bentobox']` whose id differs from `self._actual_bentobox` (or none
is tracked), track it and emit `['', set_bentobox line]`; with an empty
`report['bentobox']` while one is tracked, drop it and emit the pop line.
Returns the emitted lines and the new `self._actual_bentobox`. -/
def bentoboxStep (actual : Option BentoboxM) (r : TReport) :
    List String × Option BentoboxM :=
  match r.bentobox with
  | some bb =>
    match actual with
    | none => (["", setBentoboxLine bb], some bb)
    | some ab =>
      if ab.bentoboxId == bb.bentoboxId then ([], some ab)
      else (["", setBentoboxLine bb], some bb)
  | none =>
    match actual with
    | some _ => ([popBentoboxLine], none)
    | none => ([], none)

/-- `del properties['hash']`: remove the key, raising `KeyError` when it is
absent (`TypeError` when the value is not a dict). -/
def delHash (props : Val) : Except PErr (List (String × Val)) :=
  match props with
  | .vdict fs =>
    match lookupF fs "hash" with
    | some _ => .ok (eraseF fs "hash")
    | none => .error .keyError
  | _ => .error .typeError

/-- The `report_params` list of `_code_gen_from_other`: one
`f'    {mapped}='`-line per report field among `order`, `title`,
`sizeColumns`, `sizeRows`, `sizePadding`, string values quoted.  Modelled
from the spec for the field-iteration order: `for k in report` iterates the
resource's declared fields, which `Report.__init__` declares in the order
`title, ..., order, sizeColumns, sizeRows, sizePadding, ...`. -/
def reportParamLines (r : TReport) : List String :=
  [ "    title=" ++ (match r.title with
      | some s => "\"" ++ (s ++ "\",")
      | none => "None,"),
    "    order=" ++ (toString r.order ++ ","),
    "    cols_size=" ++ (toString r.sizeColumns ++ ","),
    "    rows_size=" ++ (toString r.sizeRows ++ ","),
    "    padding=\"" ++ (r.sizePadding ++ "\",") ]

/-- The generic fallback line of the final `else` branch:
`f"shimoku_client.add_report({report['reportType']}, order={report['order']}, data=dict())"`. -/
def fallbackLine (r : TReport) : String :=
  "shimoku_client.add_report("
    ++ (r.reportType ++ (", order=" ++ (toString r.order ++ ", data=dict())")))

/-- The report types with a dedicated serializer branch in
`_code_gen_from_other`. -/
def handledReportTypes : List String :=
  ["INDICATOR", "ECHARTS2", "TABLE", "FORM", "HTML", "IFRAME",
   "ANNOTATED_ECHART", "BUTTON", "FILTERDATASET"]

/-- The serializer dispatch chain of `_code_gen_from_other`: one branch per
handled report type, and the generic `add_report` fallback for every other
type. -/
def dispatchReport (env : CodeGenEnv) (r : TReport) (reportParams : List String)
    (props : List (String × Val)) : Except PErr (List String) :=
  if r.reportType == "INDICATOR" then env.genIndicator reportParams props
  else if r.reportType == "ECHARTS2" then env.genEcharts r reportParams props
  else if r.reportType == "TABLE" then env.genTable r reportParams props
  else if r.reportType == "FORM" then env.genForm r props
  else if r.reportType == "HTML" then env.genHtml r
  else if r.reportType == "IFRAME" then env.genIframe r
  else if r.reportType == "ANNOTATED_ECHART" then
    env.genAnnotatedEchart r reportParams props
  else if r.reportType == "BUTTON" then env.genButton r
  else if r.reportType == "FILTERDATASET" then env.genFilter r
  else .ok [fallbackLine r]

/-- `_code_gen_from_other`: strip the default properties and delete `hash`,
build the `report_params`, run the bentobox block, dispatch on the report
type, and — when the report is the last of its sibling list and a bentobox
is still tracked — append the pop line and drop the tracked bentobox. -/
def code_gen_from_other (env : CodeGenEnv) (actual : Option BentoboxM)
    (r : TReport) (isLast : Bool) :
    Except PErr (List String × Option BentoboxM) :=
  match delete_default_properties (.vdict r.properties)
      (env.defaultProps r.reportType) with
  | .error e => .error e
  | .ok props0 =>
    match delHash props0 with
    | .error e => .error e
    | .ok props =>
      let step := bentoboxStep actual r
      match dispatchReport env r (reportParamLines r) props with
      | .error e => .error e
      | .ok body =>
        if isLast && step.2.isSome then
          .ok (step.1 ++ body ++ [popBentoboxLine], none)
        else
          .ok (step.1 ++ body, step.2)

/-- The `for i, component in enumerate(components_ordered)` loop of
`_code_gen_tabs_and_other`: a tabs-group dict emits its
`tabs_group_..(shimoku_client)` call lines, a leaf report is emitted by
`_code_gen_from_other` with `is_last = i == len(components_ordered) - 1`,
threading `self._actual_bentobox` through the whole list. -/
def code_gen_components_loop (env : CodeGenEnv) :
    Option BentoboxM → List Component →
    Except PErr (List String × Option BentoboxM)
  | actual, [] => .ok ([], actual)
  | actual, c :: rest =>
    match c with
    | .tabs tg =>
      match code_gen_components_loop env actual rest with
      | .error e => .error e
      | .ok (lines2, actual2) =>
        .ok (["", "tabs_group_" ++ (env.fnName tg.tabsGroup.hash
              ++ "(shimoku_client)")] ++ lines2, actual2)
    | .leaf r =>
      match code_gen_from_other env actual r rest.isEmpty with
      | .error e => .error e
      | .ok (lines1, actual1) =>
        match code_gen_components_loop env actual1 rest with
        | .error e => .error e
        | .ok (lines2, actual2) => .ok (lines1 ++ lines2, actual2)

/-- `_code_gen_tabs_and_other`: merge the node's leaves and tabs groups and
emit them in merged order. -/
def code_gen_tabs_and_other (env : CodeGenEnv) (actual : Option BentoboxM)
    (other : List TReport) (tabGroups : List TabsGroupNode) :
    Except PErr (List String × Option BentoboxM) :=
  code_gen_components_loop env actual (mergedComponents other tabGroups)

/-- A concrete emission environment: base-`Report` default properties for
every type, identity function-name normalizer, empty serializer outputs. -/
def envCG : CodeGenEnv :=
  { defaultProps := fun _ => [("hash", .vnone)],
    fnName := fun s => s,
    genIndicator := fun _ _ => .ok [],
    genEcharts := fun _ _ _ => .ok [],
    genTable := fun _ _ _ => .ok [],
    genForm := fun _ _ => .ok [],
    genHtml := fun _ => .ok [],
    genIframe := fun _ => .ok [],
    genAnnotatedEchart := fun _ _ _ => .ok [],
    genButton := fun _ => .ok [],
    genFilter := fun _ => .ok [] }

/-- A first bentobox. -/
def bbA : BentoboxM :=
  { bentoboxId := "A", bentoboxSizeColumns := 4, bentoboxSizeRows := 2 }

/-- A second, different bentobox. -/
def bbB : BentoboxM :=
  { bentoboxId := "B", bentoboxSizeColumns := 6, bentoboxSizeRows := 3 }

/-- An unhandled-type report inside bentobox `bbA`. -/
def rBentoA : TReport :=
  { rid := "a", path := "p", reportType := "FOO", order := 0,
    title := none, sizeColumns := 12, sizeRows := 3,
    sizePadding := "0,0,0,0", bentobox := some bbA,
    properties := [("hash", .vstr "ha")], hash := "ha",
    tabs := [], reportIds := [] }

/-- An unhandled-type report inside the different bentobox `bbB`. -/
def rBentoB : TReport :=
  { rid := "b", path := "p", reportType := "BAR", order := 1,
    title := none, sizeColumns := 12, sizeRows := 3,
    sizePadding := "0,0,0,0", bentobox := some bbB,
    properties := [("hash", .vstr "hb")], hash := "hb",
    tabs := [], reportIds := [] }

/-! ## Shared data sets (`code_generation.py`, lines 150-169 and 888-929)

`get_data_sets` runs `check_for_shared_data_sets` for every report (via
`asyncio.gather`; each coroutine performs its set bookkeeping atomically
after its single await, so the pass is some sequential interleaving of
per-report steps — the embedding quantifies over the processing order).
The global `shared_data_sets` list and the `seen`/`individual` structures
form the state below.  Each report contributes the *set* of dataset ids of
its report-dataset links (`set([rds['dataSetId'] for rds in ...])`), so one
report's several links to one dataset count once. -/

/-- `del individual_data_sets[key]` on the assoc-list dict model. -/
def eraseS : List (String × String) → String → List (String × String)
  | [], _ => []
  | (k, v) :: rest, key => if k = key then rest else (k, v) :: eraseS rest key

/-- `individual_data_sets[key] = value` on the assoc-list dict model. -/
def setS : List (String × String) → String → String → List (String × String)
  | [], key, v => [(key, v)]
  | (k, w) :: rest, key, v =>
    if k = key then (k, v) :: rest else (k, w) :: setS rest key v

/-- The mutable state of the shared-data-set pass: the global
`shimoku_api_python.code_generation.shared_data_sets` list, the
`seen_data_sets` set (insertion-ordered model) and the
`individual_data_sets` dict (dataset id to owning report id). -/
structure SharedState where
  shared : List String
  seen : List String
  individual : List (String × String)
deriving Repr, DecidableEq

/-- `check_for_shared_data_sets` (`code_generation.py`, lines 150-169) for
one report: walk the report's deduplicated dataset ids; a dataset already
shared is skipped, one seen under an earlier report becomes shared (and
loses its individual owner), a fresh one is recorded as individual and
seen. -/
def check_for_shared_data_sets (st : SharedState) (rid : String) :
    List String → SharedState
  | [] => st
  | ds :: rest =>
    if st.shared.contains ds then check_for_shared_data_sets st rid rest
    else if st.seen.contains ds then
      check_for_shared_data_sets
        { shared := st.shared ++ [ds], seen := st.seen,
          individual := eraseS st.individual ds } rid rest
    else
      check_for_shared_data_sets
        { shared := st.shared, seen := st.seen ++ [ds],
          individual := setS st.individual ds rid } rid rest

/-- The whole pass of `get_data_sets`: one `check_for_shared_data_sets` step
per report, from the empty state.  Each report is a pair of its id and the
set (modelled as a duplicate-free list) of dataset ids its report-dataset
links reference. -/
def sharedPass (reports : List (String × List String)) : SharedState :=
  reports.foldl (fun st p => check_for_shared_data_sets st p.1 p.2) ⟨[], [], []⟩

/-! ### The literal renderer (`code_gen_value`, `code_gen_from_dict`,
`code_gen_from_list`; `code_generation.py`, lines 230-281) -/

/-- `' ' * deep`. -/
def spaces (n : Nat) : String := ⟨List.replicate n ' '⟩

/-- The character replacement table of `code_gen_value`: quote characters map
to themselves, a backslash doubles, control characters map to their
backslash escape; note `'\a'` (`\x07`) is found before `'\7'` in the
`special_chars` list, so `\x07` maps to `\a`. -/
def pyEscapeChar (c : Char) : String :=
  if c = Char.ofNat 34 then String.singleton (Char.ofNat 34)
  else if c = Char.ofNat 39 then String.singleton (Char.ofNat 39)
  else if c = '\\' then "\\\\"
  else if c = '\n' then "\\n"
  else if c = '\t' then "\\t"
  else if c = '\r' then "\\r"
  else if c = '\x08' then "\\b"
  else if c = '\x0c' then "\\f"
  else if c = '\x0b' then "\\v"
  else if c = '\x07' then "\\a"
  else if c = '\x00' then "\\0"
  else if c = '\x01' then "\\1"
  else if c = '\x02' then "\\2"
  else if c = '\x03' then "\\3"
  else if c = '\x04' then "\\4"
  else if c = '\x05' then "\\5"
  else if c = '\x06' then "\\6"
  else String.singleton c

/-- `code_gen_value` composed with the f-string interpolation of its call
sites: a string is escaped and quoted, every other scalar is rendered as
Python's `str` would.  Dicts and lists never reach this function — the
callers recurse on them first — so they render as the empty string here. -/
def code_gen_value : Val → String
  | .vstr s => "\"" ++ (String.join (s.data.map pyEscapeChar) ++ "\"")
  | .vint n => toString n
  | .vbool b => if b then "True" else "False"
  | .vnone => "None"
  | .vlist _ => ""
  | .vdict _ => ""

mutual
/-- `code_gen_from_dict` (`code_generation.py`, lines 268-281): render a dict
as indented code lines, recursing on dict and list values. -/
def code_gen_from_dict (d : List (String × Val)) (deep : Nat) : List String :=
  [spaces deep ++ "\x7b"] ++ cgdFields d (deep + 4) ++ [spaces deep ++ "\x7d,"]
termination_by (sizeOf d, 1)

/-- The `for k, v in d.items()` loop of `code_gen_from_dict`. -/
def cgdFields : List (String × Val) → Nat → List String
  | [], _ => []
  | (k, v) :: rest, deep =>
    (match v with
     | .vdict d2 =>
       [spaces deep ++ ("\"" ++ (k ++ "\":"))] ++ code_gen_from_dict d2 deep
     | .vlist l2 =>
       [spaces deep ++ ("\"" ++ (k ++ "\":"))] ++ code_gen_from_list l2 deep
     | v2 =>
       [spaces deep ++ (("\"" ++ (k ++ "\": ")) ++ (code_gen_value v2 ++ ","))])
    ++ cgdFields rest deep
termination_by l _ => (sizeOf l, 0)

/-- `code_gen_from_list` (`code_generation.py`, lines 253-265): render a list
as indented code lines, recursing on dict and list elements. -/
def code_gen_from_list (l : List Val) (deep : Nat) : List String :=
  [spaces deep ++ "["] ++ cglItems l (deep + 4) ++ [spaces deep ++ "],"]
termination_by (sizeOf l, 1)

/-- The `for element in l` loop of `code_gen_from_list`. -/
def cglItems : List Val → Nat → List String
  | [], _ => []
  | v :: rest, deep =>
    (match v with
     | .vdict d2 => code_gen_from_dict d2 deep
     | .vlist l2 => code_gen_from_list l2 deep
     | v2 => [spaces deep ++ (code_gen_value v2 ++ ",")])
    ++ cglItems rest deep
termination_by l _ => (sizeOf l, 0)
end

/-! ### `code_gen_shared_data_sets` and the echarts data-argument branch -/

/-- Python's `str` of a list of strings (single-quoted elements), the
rendering of the `fields` list in `f'    fields={fields},'`. -/
def pyStrOfStrList (l : List String) : String :=
  "[" ++ (String.intercalate ", "
    (l.map (fun s => "\x27" ++ (s ++ "\x27"))) ++ "]")

/-- `code_gen_read_csv_from_data_set` (`code_generation.py`, lines 316-327):
the `pd.read_csv` file-reference expression for a data set; the
`parse_dates` columns come from the data set's first data point and are
supplied by the environment. -/
def code_gen_read_csv_from_data_set (name : String)
    (parseDates : List String) : String :=
  "pd.read_csv(\"data/" ++ (name ++ (".csv\""
    ++ ((if parseDates.isEmpty then ""
         else ", parse_dates=" ++ pyStrOfStrList parseDates)
      ++ ").fillna(\"\")")))

/-- `change_data_set_name_with_report` (`code_generation.py`, lines 192-198):
`data_set["name"].replace(report['id'], report['properties']['hash'])`. -/
def change_data_set_name_with_report (dsName rid rhash : String) : String :=
  dsName.replace rid rhash

/-- The environment of the shared-data-set emission: the name of each data
set (`self._app.get_data_set(ds_id)["name"]`), the `parse_dates` columns of
its first data point, and the global `custom_data_sets_with_data` dict
(dataset id to the stored `customField1` value). -/
structure SharedGenEnv where
  dsName : String → String
  parseDates : String → List String
  customData : List (String × Val)

/-- The `for ds_id in shared_data_sets` split of `code_gen_shared_data_sets`:
datasets with stored custom data go to `custom`, the rest go to `dfs`, both
in `shared_data_sets` order. -/
def splitShared (env : SharedGenEnv) : List String → List String × List String
  | [] => ([], [])
  | ds :: rest =>
    let p := splitShared env rest
    if (lookupF env.customData ds).isSome then (p.1, ds :: p.2)
    else (ds :: p.1, p.2)

/-- The entry line of one `dfs` dataset inside `set_shared_data`:
`f'        "{ds["name"]}": {read_csv...},'`. -/
def dfEntryLine (env : SharedGenEnv) (ds : String) : String :=
  "        \"" ++ (env.dsName ds ++ ("\": "
    ++ (code_gen_read_csv_from_data_set (env.dsName ds) (env.parseDates ds)
      ++ ",")))

/-- The `for ds in custom` loop of `code_gen_shared_data_sets`: each custom
dataset's stored value is rendered as a literal (`code_gen_from_dict` or
`code_gen_from_list` at indent 8) and keyed by the dataset name; a stored
value that is neither a dict nor a list raises `TypeError` in the source
(iterating a scalar). -/
def customBlockLines (env : SharedGenEnv) : List String →
    Except PErr (List String)
  | [] => .ok []
  | ds :: rest =>
    match lookupF env.customData ds with
    | none => .error .keyError
    | some v =>
      match (match v with
             | .vdict d => .ok (code_gen_from_dict d 8)
             | .vlist l => .ok (code_gen_from_list l 8)
             | _ => .error (.typeError) : Except PErr (List String)) with
      | .error e => .error e
      | .ok rendered =>
        match customBlockLines env rest with
        | .error e => .error e
        | .ok more =>
          .ok (["        \"" ++ (env.dsName ds
                  ++ ("\": " ++ (rendered.headD "").drop 8))]
               ++ rendered.tail ++ more)

/-- `code_gen_shared_data_sets` (`code_generation.py`, lines 888-929): split
the shared datasets into `dfs` and `custom`, emit the `set_shared_data(`
header when any exist, one `pd.read_csv` entry per `dfs` dataset, one
literal block per `custom` dataset, the closing `)`, and a leading blank
line. -/
def code_gen_shared_data_sets (env : SharedGenEnv) (shared : List String) :
    Except PErr (List String) :=
  let p := splitShared env shared
  match customBlockLines env p.2 with
  | .error e => .error e
  | .ok cbl =>
    let header : List String :=
      if p.1.length > 0 || p.2.length > 0 then
        ["shimoku_client.plt.set_shared_data("]
      else []
    let dfsLines : List String :=
      if p.1.length > 0 then
        ["    dfs=\x7b"] ++ p.1.map (dfEntryLine env) ++ ["    \x7d,"]
      else []
    let customLines : List String :=
      if p.2.length > 0 then ["    custom_data=\x7b"] ++ cbl ++ ["    \x7d,"]
      else []
    let closing : List String :=
      if p.1.length > 0 || p.2.length > 0 then [")"] else []
    let body := header ++ dfsLines ++ customLines ++ closing
    .ok (if p.1.length > 0 || p.2.length > 0 then [""] ++ body else body)

/-- The tail of `code_gen_from_echarts`: the `free_echarts(` call lines from
the computed data argument, fields rendering and options dict. -/
def freeEchartsLines (reportParams : List String) (dataArg : List String)
    (fieldsStr : String) (options : List (String × Val)) : List String :=
  let optionsCode := code_gen_from_dict options 4
  ["shimoku_client.plt.free_echarts("] ++ reportParams
  ++ ["    data=" ++ dataArg.headD ""] ++ dataArg.tail
  ++ ["    fields=" ++ (fieldsStr ++ ",")]
  ++ ["    options=" ++ (optionsCode.headD "").drop 4] ++ optionsCode.tail
  ++ [")"]

/-- `code_gen_from_echarts` (`code_generation.py`, lines 348-394), its
data-argument branch made explicit.  The resolution of the report's linked
data set (`revert_uuids_from_dict` from `utils.py` — outside `src/` — plus
`get_linked_data_set_info`) is carried as the `dsRef` argument: the single
referenced dataset id, if any.  A dataset that is shared AND custom makes
the whole serializer return `[]` — the report emits nothing at all.  A
non-shared custom value that is neither dict nor list raises in the source;
it is modelled by the empty rendering and excluded by the theorems'
preconditions. -/
def code_gen_from_echarts (env : SharedGenEnv) (shared : List String)
    (reportParams : List String) (dsRef : Option String) (rid rhash : String)
    (fields : List String) (options : List (String × Val)) : List String :=
  match dsRef with
  | some dsId =>
    if shared.contains dsId then
      if (lookupF env.customData dsId).isSome then []
      else freeEchartsLines reportParams
        ["\"" ++ (env.dsName dsId ++ "\",")] (pyStrOfStrList fields) options
    else
      match lookupF env.customData dsId with
      | some v =>
        let rendered := (match v with
          | .vdict d => code_gen_from_dict d 4
          | .vlist l => code_gen_from_list l 4
          | _ => [])
        freeEchartsLines reportParams
          (((rendered.headD "").drop 4 :: rendered.tail)
            ++ ["    data_is_not_df=True,"])
          "[\"data\"]" options
      | none =>
        freeEchartsLines reportParams
          [code_gen_read_csv_from_data_set
              (change_data_set_name_with_report (env.dsName dsId) rid rhash)
              (env.parseDates dsId) ++ ","]
          (pyStrOfStrList fields) options
  | none =>
    freeEchartsLines reportParams ["[\x7b\x7d],"] (pyStrOfStrList fields)
      options

/-- A concrete shared-generation environment with one custom dataset `d1`
named `DS1` holding the single-row list `[1]`. -/
def envC4 : SharedGenEnv :=
  { dsName := fun _ => "DS1",
    parseDates := fun _ => [],
    customData := [("d1", .vlist [.vint 1])] }

/-- The closed per-dataset form of one custom entry block, for the statement
of the emission theorem. -/
def customEntryLines (env : SharedGenEnv) (ds : String) : List String :=
  match lookupF env.customData ds with
  | some (.vdict d) =>
    ["        \"" ++ (env.dsName ds
        ++ ("\": " ++ ((code_gen_from_dict d 8).headD "").drop 8))]
    ++ (code_gen_from_dict d 8).tail
  | some (.vlist l) =>
    ["        \"" ++ (env.dsName ds
        ++ ("\": " ++ ((code_gen_from_list l 8).headD "").drop 8))]
    ++ (code_gen_from_list l 8).tail
  | _ => []

/-! ### Position counting over the built tree (for the exactly-once claim)

A report occupies a position in the tree as a top-level leaf, as a leaf
inside a tab or a modal, as a tabs-group dict, or as a modal dict.  The
functions below count the positions holding a given report id. -/

mutual
/-- Positions of id `x` inside a tabs-group dict (the dict itself included). -/
def countTG (x : String) : TabsGroupNode → Nat
  | .mk r tabs _ _ => (if r.rid = x then 1 else 0) + countTabs x tabs

/-- Positions of id `x` inside a tabs dict. -/
def countTabs (x : String) : List (String × TabNode) → Nat
  | [] => 0
  | (_, tn) :: rest => countTab x tn + countTabs x rest

/-- Positions of id `x` inside a tab dict. -/
def countTab (x : String) : TabNode → Nat
  | .mk tgs others =>
    countTGL x tgs + others.countP (fun r => r.rid == x)

/-- Positions of id `x` inside a list of tabs-group dicts. -/
def countTGL (x : String) : List TabsGroupNode → Nat
  | [] => 0
  | tg :: rest => countTG x tg + countTGL x rest
end

/-- Positions of id `x` inside a modal dict (the dict itself included). -/
def countModal (x : String) (m : ModalNode) : Nat :=
  (if m.modal.rid = x then 1 else 0) + countTGL x m.tabGroups
    + m.other.countP (fun r => r.rid == x)

/-- Positions of id `x` inside one path's tree. -/
def countPath (x : String) (pt : PathTree) : Nat :=
  (pt.modals.map (countModal x)).sum + countTGL x pt.tabGroups
    + pt.other.countP (fun r => r.rid == x)

/-- Positions of id `x` in the whole `reports_tree`. -/
def countTree (x : String) (t : List (String × PathTree)) : Nat :=
  (t.map (fun pv => countPath x pv.2)).sum

/-! ### The fetch trace of an expansion

`specFTG env fuel r` is the list of child ids fetched (in order, with
multiplicity) while `tree_from_tabs_group` expands `r`; `specFModal` is the
same for a modal's child list.  They mirror the builder's recursion exactly
and let the seen-set and position counts of a successful run be stated in
closed form. -/

mutual
/-- Ids fetched while expanding a tabs group. -/
def specFTG (env : List TReport) (fuel : Nat) (r : TReport) : List String :=
  specFTabs env fuel (pySorted (fun a b => iLt a.2.1 b.2.1) r.tabs)
termination_by (fuel, 2, 0)

/-- Ids fetched while processing a tabs dict. -/
def specFTabs (env : List TReport) (fuel : Nat) :
    List (String × Int × List String) → List String
  | [] => []
  | (_, _, reportIds) :: rest =>
    specFChildren env fuel reportIds ++ specFTabs env fuel rest
termination_by l => (fuel, 1, l.length)

/-- Ids fetched while processing one tab's child list. -/
def specFChildren (env : List TReport) (fuel : Nat) :
    List String → List String
  | [] => []
  | childId :: rest =>
    childId :: ((match get_report env childId with
        | .ok child =>
          if child.reportType == "TABS" then
            match fuel with
            | 0 => []
            | fuel2 + 1 => specFTG env fuel2 child
          else []
        | .error _ => []) ++ specFChildren env fuel rest)
termination_by l => (fuel, 0, l.length)
end

/-- The nested fetches triggered by fetching one child id: the expansion of
the fetched report when it is a TABS group, nothing otherwise. -/
def nestF (env : List TReport) (fuel : Nat) (y : String) : List String :=
  match get_report env y with
  | .ok child =>
    if child.reportType == "TABS" then
      match fuel with
      | 0 => []
      | fuel2 + 1 => specFTG env fuel2 child
    else []
  | .error _ => []

/-- Ids fetched while the loop expands a top-level report: a modal's child
list, a tabs group's expansion, nothing for a leaf (a modal's child loop
and a tab's child loop fetch identically). -/
def specFRoot (env : List TReport) (fuel : Nat) (r : TReport) : List String :=
  if r.reportType == "MODAL" then specFChildren env fuel r.reportIds
  else if r.reportType == "TABS" then specFTG env fuel r
  else []


/-- The child ids a report declares: `properties['reportIds']` for a MODAL,
the joined per-tab `reportIds` for a TABS report, nothing otherwise. -/
def childIdsU (r : TReport) : List String :=
  if r.reportType == "MODAL" then r.reportIds
  else if r.reportType == "TABS" then (r.tabs.map (fun t => t.2.2)).flatten
  else []

/-- The report ids of a fetched list, in fetch order. -/
def ridsOf (reports : List TReport) : List String :=
  reports.map TReport.rid
/-- The forward-reference discipline: every child id a report declares
occurs among the ids fetched strictly after it. -/
def refsForward (reports : List TReport) : Prop :=
  ∀ pre r post, reports = pre ++ r :: post →
    ∀ y ∈ childIdsU r, y ∈ ridsOf post

/-- Leaf report `x` fetched first on path `"p"`. -/
def rLeafC2 : TReport :=
  { rid := "x", path := "p", reportType := "HTML", order := 0,
    title := none, sizeColumns := 12, sizeRows := 3,
    sizePadding := "0,0,0,0", bentobox := none,
    properties := [("hash", .vstr "xh")], hash := "xh",
    tabs := [], reportIds := [] }

/-- A modal fetched second on the same path, referencing the already-emitted
leaf `x`. -/
def rModalC2 : TReport :=
  { rid := "m", path := "p", reportType := "MODAL", order := 1,
    title := none, sizeColumns := 12, sizeRows := 3,
    sizePadding := "0,0,0,0", bentobox := none,
    properties := [("hash", .vstr "mh")], hash := "mh",
    tabs := [], reportIds := ["x"] }

/-- The fetched list of the C2 counterexample: the leaf precedes the modal
that references it. -/
def envC2 : List TReport := [rLeafC2, rModalC2]

/-- Decision procedure for the forward-reference discipline: every child id
a report declares occurs among the ids of the reports after it. -/
def refsForwardB : List TReport → Bool
  | [] => true
  | r :: rest =>
    (childIdsU r).all (fun y => (ridsOf rest).contains y) && refsForwardB rest

/-- A modal fetched first on path `"p"`, referencing the leaf fetched after
it: the well-ordered counterpart of the C2 counterexample. -/
def rModalC2W : TReport :=
  { rid := "m", path := "p", reportType := "MODAL", order := 1,
    title := none, sizeColumns := 12, sizeRows := 3,
    sizePadding := "0,0,0,0", bentobox := none,
    properties := [("hash", .vstr "mh")], hash := "mh",
    tabs := [], reportIds := ["x"] }

/-- The leaf the well-ordered modal references, fetched after it. -/
def rLeafC2W : TReport :=
  { rid := "x", path := "p", reportType := "HTML", order := 0,
    title := none, sizeColumns := 12, sizeRows := 3,
    sizePadding := "0,0,0,0", bentobox := none,
    properties := [("hash", .vstr "xh")], hash := "xh",
    tabs := [], reportIds := [] }

/-- A fetched list obeying the forward-reference discipline: the modal
precedes the leaf it references. -/
def envC2W : List TReport := [rModalC2W, rLeafC2W]

/-- Modelled from the spec: executing a generated program against an empty
workspace creates one component per nonempty per-component block of emitted
creation calls, and a component whose serializer emitted no code at all is
absent from the rebuilt workspace.  The number of components the program can
rebuild is thus the number of nonempty blocks. -/
def specRebuiltComponents (blocks : List (List String)) : Nat :=
  (blocks.filter (fun b => !b.isEmpty)).length

/-- The C1 workspace fragment: one menu path with two echarts components
`r1` and `r2`, both linked through report-dataset links to the single
dataset `d1`. -/
def linksC1 : List (String × List String) := [("r1", ["d1"]), ("r2", ["d1"])]

/-- The shared-generation environment of the C1 fragment: the dataset `d1`
is named `DS1` and carries stored custom single-row data `[1]`. -/
def envC1 : SharedGenEnv :=
  { dsName := fun _ => "DS1",
    parseDates := fun _ => [],
    customData := [("d1", .vlist [.vint 1])] }

/-- The per-component emitted creation blocks of the C1 fragment, under the
shared classification the generation pass computes for its links. -/
def blocksC1 : List (List String) :=
  [code_gen_from_echarts envC1 (sharedPass linksC1).shared
      ["    order=0,"] (some "d1") "r1" "h1" [] [],
   code_gen_from_echarts envC1 (sharedPass linksC1).shared
      ["    order=1,"] (some "d1") "r2" "h2" [] []]

/-! ## Lemmas about the stable sort -/

theorem pyInsert_perm (lt : α → α → Bool) (x : α) :
    ∀ l : List α, List.Perm (pyInsert lt x l) (x :: l) := by
  intro l
  induction l with
  | nil => simp [pyInsert]
  | cons y ys ih =>
    by_cases h : lt y x = true
    · simp only [pyInsert, h, if_true]
      exact (List.Perm.cons y ih).trans (List.Perm.swap x y ys)
    · simp only [pyInsert, h]
      simp

theorem pySorted_perm (lt : α → α → Bool) :
    ∀ l : List α, List.Perm (pySorted lt l) l := by
  intro l
  induction l with
  | nil => simp [pySorted]
  | cons x xs ih =>
    exact (pyInsert_perm lt x (pySorted lt xs)).trans (List.Perm.cons x ih)

theorem pyInsert_pairwise (lt : α → α → Bool)
    (hasym : ∀ a b, lt a b = true → lt b a = false)
    (hneg : ∀ a b c, lt b a = false → lt c b = false → lt c a = false)
    (x : α) :
    ∀ l : List α, l.Pairwise (fun a b => lt b a = false) →
      (pyInsert lt x l).Pairwise (fun a b => lt b a = false) := by
  intro l
  induction l with
  | nil => intro _; simp [pyInsert]
  | cons y ys ih =>
    intro hl
    rw [List.pairwise_cons] at hl
    obtain ⟨hy, hys⟩ := hl
    by_cases h : lt y x = true
    · simp only [pyInsert, h, if_true]
      rw [List.pairwise_cons]
      refine ⟨?_, ih hys⟩
      intro z hz
      have hz' := List.mem_cons.mp ((pyInsert_perm lt x ys).mem_iff.mp hz)
      rcases hz' with rfl | hz'
      · exact hasym y z h
      · exact hy z hz'
    · have h' : lt y x = false := by simpa using h
      simp only [pyInsert, h', Bool.false_eq_true, if_false]
      rw [List.pairwise_cons]
      refine ⟨?_, List.pairwise_cons.mpr ⟨hy, hys⟩⟩
      intro z hz
      rcases List.mem_cons.mp hz with rfl | hz
      · exact h'
      · exact hneg x y z h' (hy z hz)

theorem pySorted_pairwise (lt : α → α → Bool)
    (hasym : ∀ a b, lt a b = true → lt b a = false)
    (hneg : ∀ a b c, lt b a = false → lt c b = false → lt c a = false) :
    ∀ l : List α, (pySorted lt l).Pairwise (fun a b => lt b a = false) := by
  intro l
  induction l with
  | nil => simp [pySorted]
  | cons x xs ih => exact pyInsert_pairwise lt hasym hneg x _ ih

theorem pyInsert_filter_pos (lt : α → α → Bool) (p : α → Bool) (x : α)
    (hpx : p x = true) (hcomp : ∀ y, lt y x = true → p y = false) :
    ∀ l : List α, (pyInsert lt x l).filter p = x :: l.filter p := by
  intro l
  induction l with
  | nil => simp [pyInsert, List.filter_cons, hpx]
  | cons y ys ih =>
    by_cases h : lt y x = true
    · have hpy := hcomp y h
      simp only [pyInsert, h, if_true, List.filter_cons, hpy, Bool.false_eq_true,
        if_false, ih]
    · have h' : lt y x = false := by simpa using h
      simp only [pyInsert, h', Bool.false_eq_true, if_false, List.filter_cons, hpx,
        if_true]

theorem pyInsert_filter_neg (lt : α → α → Bool) (p : α → Bool) (x : α)
    (hpx : p x = false) :
    ∀ l : List α, (pyInsert lt x l).filter p = l.filter p := by
  intro l
  induction l with
  | nil => simp [pyInsert, List.filter_cons, hpx]
  | cons y ys ih =>
    by_cases h : lt y x = true
    · simp only [pyInsert, h, if_true, List.filter_cons, ih]
    · have h' : lt y x = false := by simpa using h
      simp only [pyInsert, h', Bool.false_eq_true, if_false, List.filter_cons, hpx,
        if_false]

/-- Stability of `pySorted` phrased through filters: if elements selected by
`p` never compare strictly below each other, their relative order after the
sort equals their relative order in the input. -/
theorem pySorted_filter (lt : α → α → Bool) (p : α → Bool)
    (h : ∀ a b, p a = true → p b = true → lt a b = false) :
    ∀ l : List α, (pySorted lt l).filter p = l.filter p := by
  intro l
  induction l with
  | nil => simp [pySorted]
  | cons x xs ih =>
    by_cases hpx : p x = true
    · rw [pySorted, pyInsert_filter_pos lt p x hpx, ih, List.filter_cons, if_pos hpx]
      intro y hy
      by_cases hpy : p y = true
      · exact absurd hy (by simp [h y x hpy hpx])
      · simpa using hpy
    · have hpx' : p x = false := by simpa using hpx
      rw [pySorted, pyInsert_filter_neg lt p x hpx', ih, List.filter_cons, hpx']
      simp

/-! ## Lemmas about Python string comparison -/

theorem pyStrLtL_cons_same (c : Char) (a b : List Char) :
    pyStrLtL (c :: a) (c :: b) = pyStrLtL a b := by
  simp [pyStrLtL]

theorem pyStrLtL_asym : ∀ a b : List Char,
    pyStrLtL a b = true → pyStrLtL b a = false := by
  intro a
  induction a with
  | nil => intro b h; cases b <;> simp_all [pyStrLtL]
  | cons x xs ih =>
    intro b h
    cases b with
    | nil => simp_all [pyStrLtL]
    | cons y ys =>
      simp only [pyStrLtL] at h ⊢
      by_cases h1 : x.toNat < y.toNat
      · have h2 : ¬ y.toNat < x.toNat := by omega
        simp [h1, h2]
      · by_cases h2 : y.toNat < x.toNat
        · simp [h1, h2] at h
        · simp only [h1, h2, Bool.false_eq_true, if_false] at h ⊢
          exact ih ys h

theorem pyStrLtL_negtrans : ∀ a b c : List Char,
    pyStrLtL b a = false → pyStrLtL c b = false → pyStrLtL c a = false := by
  intro a
  induction a with
  | nil =>
    intro b c hba hcb
    cases b with
    | nil => exact hcb
    | cons y ys => cases c <;> simp [pyStrLtL]
  | cons x xs ih =>
    intro b c hba hcb
    cases b with
    | nil => cases c <;> simp_all [pyStrLtL]
    | cons y ys =>
      cases c with
      | nil => simp [pyStrLtL] at hcb
      | cons z zs =>
        simp only [pyStrLtL] at hba hcb ⊢
        by_cases h1 : y.toNat < x.toNat
        · simp [h1] at hba
        · by_cases h2 : z.toNat < y.toNat
          · simp [h2] at hcb
          · by_cases h3 : x.toNat < y.toNat
            · have hlt : x.toNat < z.toNat := by omega
              have hnlt : ¬ z.toNat < x.toNat := by omega
              simp [hnlt, hlt]
            · by_cases h4 : y.toNat < z.toNat
              · have hlt : x.toNat < z.toNat := by omega
                have hnlt : ¬ z.toNat < x.toNat := by omega
                simp [hnlt, hlt]
              · have hnzx : ¬ z.toNat < x.toNat := by omega
                have hnxz : ¬ x.toNat < z.toNat := by omega
                simp only [h1, h3, Bool.false_eq_true, if_false] at hba
                simp only [h2, h4, Bool.false_eq_true, if_false] at hcb
                simp only [hnzx, hnxz, Bool.false_eq_true, if_false]
                exact ih ys zs hba hcb

theorem pyStrLtL_irrefl : ∀ a : List Char, pyStrLtL a a = false := by
  intro a
  induction a with
  | nil => rfl
  | cons x xs ih => simpa [pyStrLtL] using ih

/-! ## Claim C5 -/

theorem pyStrLtL_head_lt (c d : Char) (s t : List Char) (h : c.toNat < d.toNat) :
    pyStrLtL (c :: s) (d :: t) = true := by
  simp [pyStrLtL, h]

theorem genKey_lt_of_rank_lt (a b : GReport) (h : genRank a < genRank b) :
    pyStrLt (genKey a) (genKey b) = true := by
  unfold genRank at h
  unfold genKey pyStrLt
  split_ifs at h ⊢ <;> first
    | omega
    | decide
    | (rw [String.data_append]; exact pyStrLtL_head_lt _ _ _ _ (by decide))

theorem genRank_le_of_not_lt (a b : GReport)
    (h : pyStrLt (genKey b) (genKey a) = false) : genRank a ≤ genRank b := by
  by_contra hcon
  push_neg at hcon
  have ht := genKey_lt_of_rank_lt b a hcon
  rw [ht] at h
  exact absurd h (by simp)

theorem genKey_of_rank_two (r : GReport) (h : genRank r = 2) :
    genKey r = "_" ++ r.hash := by
  unfold genRank at h
  unfold genKey
  split_ifs at h ⊢ <;> simp_all

/-- C5.  `generate_code` (code_generation.py lines 939-945) sorts the fetched
report list so that every MODAL report precedes every TABS report, every TABS
report precedes every other report, the non-container reports are mutually
ordered by their `properties['hash']`, and the sort is stable: reports with
equal sort keys keep their fetch order (stated as: for every key value, the
sublist of reports with that key is unchanged by the sort). -/
theorem claim_C5_report_sort (reports : List GReport) :
    List.Perm (generateCodeSort reports) reports ∧
    (∀ i j : Fin (generateCodeSort reports).length, i < j →
      genRank ((generateCodeSort reports).get i) ≤
        genRank ((generateCodeSort reports).get j)) ∧
    (∀ i j : Fin (generateCodeSort reports).length, i < j →
      genRank ((generateCodeSort reports).get i) = 2 →
      genRank ((generateCodeSort reports).get j) = 2 →
      pyStrLt ((generateCodeSort reports).get j).hash
        ((generateCodeSort reports).get i).hash = false) ∧
    (∀ c : String, (generateCodeSort reports).filter (fun r => genKey r == c) =
      reports.filter (fun r => genKey r == c)) := by
  have hasym : ∀ a b : GReport, pyStrLt (genKey a) (genKey b) = true →
      pyStrLt (genKey b) (genKey a) = false := by
    intro a b h
    exact pyStrLtL_asym _ _ h
  have hneg : ∀ a b c : GReport, pyStrLt (genKey b) (genKey a) = false →
      pyStrLt (genKey c) (genKey b) = false →
      pyStrLt (genKey c) (genKey a) = false := by
    intro a b c h1 h2
    exact pyStrLtL_negtrans _ _ _ h1 h2
  have hpw : (generateCodeSort reports).Pairwise
      (fun a b => pyStrLt (genKey b) (genKey a) = false) :=
    pySorted_pairwise (fun a b => pyStrLt (genKey a) (genKey b)) hasym hneg reports
  have hget := List.pairwise_iff_get.mp hpw
  refine ⟨pySorted_perm _ reports, ?_, ?_, ?_⟩
  · intro i j hij
    exact genRank_le_of_not_lt _ _ (hget i j hij)
  · intro i j hij hri hrj
    have h := hget i j hij
    rw [genKey_of_rank_two _ hrj, genKey_of_rank_two _ hri] at h
    unfold pyStrLt at h ⊢
    rw [String.data_append, String.data_append] at h
    simpa [pyStrLtL_cons_same] using h
  · intro c
    refine pySorted_filter _ _ ?_ reports
    intro a b ha hb
    have hka : genKey a = c := by simpa using ha
    have hkb : genKey b = c := by simpa using hb
    rw [hka, hkb]
    exact pyStrLtL_irrefl _

/-- Witness for C5 at a concrete fetched list: a MODAL report is placed before
a TABS report, and the two non-container reports end up ordered by hash. -/
theorem claim_C5_report_sort_witness :
    genRank ((generateCodeSort [GReport.mk "TABLE" "zz", GReport.mk "TABS" "t",
        GReport.mk "MODAL" "m", GReport.mk "TABLE" "aa"]).get ⟨0, by decide⟩) ≤
      genRank ((generateCodeSort [GReport.mk "TABLE" "zz", GReport.mk "TABS" "t",
        GReport.mk "MODAL" "m", GReport.mk "TABLE" "aa"]).get ⟨1, by decide⟩) ∧
    pyStrLt ((generateCodeSort [GReport.mk "TABLE" "zz", GReport.mk "TABS" "t",
        GReport.mk "MODAL" "m", GReport.mk "TABLE" "aa"]).get ⟨3, by decide⟩).hash
      ((generateCodeSort [GReport.mk "TABLE" "zz", GReport.mk "TABS" "t",
        GReport.mk "MODAL" "m", GReport.mk "TABLE" "aa"]).get ⟨2, by decide⟩).hash
      = false :=
  ⟨(claim_C5_report_sort _).2.1 _ _ (by decide),
   (claim_C5_report_sort _).2.2.1 _ _ (by decide) (by decide) (by decide)⟩

/-! ## Association-list lemmas for the dict model -/

theorem lookupF_eraseF_ne (fs : List (String × Val)) (k k2 : String) (h : k2 ≠ k) :
    lookupF (eraseF fs k) k2 = lookupF fs k2 := by
  induction fs with
  | nil => rfl
  | cons e fs ih =>
    obtain ⟨k0, v0⟩ := e
    by_cases hk : k0 = k
    · subst hk
      rw [show eraseF ((k0, v0) :: fs) k0 = fs from by simp [eraseF]]
      rw [lookupF, if_neg (fun he => h (Eq.symm he))]
    · simp only [eraseF, if_neg hk, lookupF]
      by_cases hk2 : k0 = k2
      · simp [hk2]
      · simp only [if_neg hk2]
        exact ih

theorem lookupF_eraseF_none (fs : List (String × Val)) (k k2 : String)
    (h : lookupF fs k2 = none) : lookupF (eraseF fs k) k2 = none := by
  induction fs with
  | nil => rfl
  | cons e fs ih =>
    obtain ⟨k0, v0⟩ := e
    rw [lookupF] at h
    by_cases hk2 : k0 = k2
    · simp [hk2] at h
    · rw [if_neg hk2] at h
      by_cases hk : k0 = k
      · simp only [eraseF, if_pos hk]
        exact h
      · simp only [eraseF, if_neg hk, lookupF, if_neg hk2]
        exact ih h

theorem lookupF_eraseF_self (fs : List (String × Val)) (k : String)
    (h : nodupKeysB fs = true) : lookupF (eraseF fs k) k = none := by
  induction fs with
  | nil => rfl
  | cons e fs ih =>
    obtain ⟨k0, v0⟩ := e
    rw [nodupKeysB, Bool.and_eq_true] at h
    obtain ⟨h1, h2⟩ := h
    by_cases hk : k0 = k
    · subst hk
      simp only [eraseF, if_pos rfl]
      simpa [Option.isNone_iff_eq_none] using h1
    · simp only [eraseF, if_neg hk, lookupF, if_neg hk]
      exact ih h2

theorem lookupF_setF_ne (fs : List (String × Val)) (k k2 : String) (v : Val)
    (h : k2 ≠ k) : lookupF (setF fs k v) k2 = lookupF fs k2 := by
  induction fs with
  | nil =>
    simp only [setF, lookupF, if_neg (fun he => h (Eq.symm he))]
  | cons e fs ih =>
    obtain ⟨k0, v0⟩ := e
    by_cases hk : k0 = k
    · subst hk
      simp only [setF, if_pos rfl, lookupF]
      by_cases hk2 : k0 = k2
      · exact absurd hk2.symm h
      · simp [if_neg hk2]
    · simp only [setF, if_neg hk, lookupF]
      by_cases hk2 : k0 = k2
      · simp [hk2]
      · simp only [if_neg hk2]
        exact ih

theorem lookupF_setF_self (fs : List (String × Val)) (k : String) (v : Val) :
    lookupF (setF fs k v) k = some v := by
  induction fs with
  | nil => simp [setF, lookupF]
  | cons e fs ih =>
    obtain ⟨k0, v0⟩ := e
    by_cases hk : k0 = k
    · subst hk
      simp [setF, lookupF]
    · simp only [setF, if_neg hk, lookupF, if_neg hk]
      exact ih

theorem eraseF_setF (fs : List (String × Val)) (k : String) (v : Val) :
    eraseF (setF fs k v) k = eraseF fs k := by
  induction fs with
  | nil => simp [setF, eraseF]
  | cons e fs ih =>
    obtain ⟨k0, v0⟩ := e
    by_cases hk : k0 = k
    · subst hk
      simp [setF, eraseF]
    · simp only [setF, if_neg hk, eraseF, if_neg hk]
      rw [ih]

theorem lookupF_none_forall (fs : List (String × Val)) (k : String)
    (h : lookupF fs k = none) : ∀ p ∈ fs, p.1 ≠ k := by
  induction fs with
  | nil => intro p hp; cases hp
  | cons e fs ih =>
    obtain ⟨k0, v0⟩ := e
    rw [lookupF] at h
    by_cases hk : k0 = k
    · simp [hk] at h
    · rw [if_neg hk] at h
      intro p hp
      rcases List.mem_cons.mp hp with rfl | hp
      · exact hk
      · exact ih h p hp

theorem nodupKeysB_eraseF (fs : List (String × Val)) (k : String)
    (h : nodupKeysB fs = true) : nodupKeysB (eraseF fs k) = true := by
  induction fs with
  | nil => rfl
  | cons e fs ih =>
    obtain ⟨k0, v0⟩ := e
    rw [nodupKeysB, Bool.and_eq_true] at h
    obtain ⟨h1, h2⟩ := h
    by_cases hk : k0 = k
    · subst hk
      rw [show eraseF ((k0, v0) :: fs) k0 = fs from by simp [eraseF]]
      exact h2
    · simp only [eraseF, if_neg hk, nodupKeysB, Bool.and_eq_true]
      refine ⟨?_, ih h2⟩
      rw [lookupF_eraseF_none fs k k0 (by simpa [Option.isNone_iff_eq_none] using h1)]
      rfl

theorem nodupKeysB_setF (fs : List (String × Val)) (k : String) (v : Val)
    (h : nodupKeysB fs = true) : nodupKeysB (setF fs k v) = true := by
  induction fs with
  | nil => simp [setF, nodupKeysB, lookupF]
  | cons e fs ih =>
    obtain ⟨k0, v0⟩ := e
    rw [nodupKeysB, Bool.and_eq_true] at h
    obtain ⟨h1, h2⟩ := h
    by_cases hk : k0 = k
    · subst hk
      simp only [setF, if_pos rfl, nodupKeysB, Bool.and_eq_true]
      exact ⟨h1, h2⟩
    · simp only [setF, if_neg hk, nodupKeysB, Bool.and_eq_true]
      refine ⟨?_, ih h2⟩
      rw [lookupF_setF_ne fs k k0 v hk]
      exact h1

theorem wfKeysFields_lookup (fs : List (String × Val)) (k : String) (w : Val)
    (h : wfKeysFields fs = true) (hl : lookupF fs k = some w) : wfKeys w = true := by
  induction fs with
  | nil => cases hl
  | cons e fs ih =>
    obtain ⟨k0, v0⟩ := e
    rw [wfKeysFields, Bool.and_eq_true] at h
    rw [lookupF] at hl
    by_cases hk : k0 = k
    · rw [if_pos hk] at hl
      cases hl
      exact h.1
    · rw [if_neg hk] at hl
      exact ih h.2 hl

theorem wfKeysFields_eraseF (fs : List (String × Val)) (k : String)
    (h : wfKeysFields fs = true) : wfKeysFields (eraseF fs k) = true := by
  induction fs with
  | nil => rfl
  | cons e fs ih =>
    obtain ⟨k0, v0⟩ := e
    rw [wfKeysFields, Bool.and_eq_true] at h
    by_cases hk : k0 = k
    · rw [show eraseF ((k0, v0) :: fs) k = fs from by simp [eraseF, hk]]
      exact h.2
    · simp only [eraseF, if_neg hk, wfKeysFields, Bool.and_eq_true]
      exact ⟨h.1, ih h.2⟩

theorem wfKeysFields_setF (fs : List (String × Val)) (k : String) (v : Val)
    (h : wfKeysFields fs = true) (hv : wfKeys v = true) :
    wfKeysFields (setF fs k v) = true := by
  induction fs with
  | nil => simp [setF, wfKeysFields, hv]
  | cons e fs ih =>
    obtain ⟨k0, v0⟩ := e
    rw [wfKeysFields, Bool.and_eq_true] at h
    by_cases hk : k0 = k
    · simp only [setF, if_pos hk, wfKeysFields, Bool.and_eq_true]
      exact ⟨hv, h.2⟩
    · simp only [setF, if_neg hk, wfKeysFields, Bool.and_eq_true]
      exact ⟨h.1, ih h.2⟩

/-! ## Lemmas about `strip_defaults_spec` -/

theorem strip_nil_defaults (fs : List (String × Val)) :
    strip_defaults_spec fs [] = fs := by
  induction fs with
  | nil => simp [strip_defaults_spec]
  | cons e fs ih =>
    obtain ⟨k, w⟩ := e
    rw [strip_defaults_spec]
    simp only [lookupF]
    rw [ih]

/-- Shape of one step of `strip_defaults_spec`: the head entry is either
dropped, kept unchanged, or replaced by its recursively stripped dict. -/
theorem strip_cons_shape (k2 : String) (w : Val) (fs defaults : List (String × Val)) :
    strip_defaults_spec ((k2, w) :: fs) defaults = strip_defaults_spec fs defaults ∨
    strip_defaults_spec ((k2, w) :: fs) defaults =
      (k2, w) :: strip_defaults_spec fs defaults ∨
    ∃ d pd, w = .vdict pd ∧
      strip_defaults_spec ((k2, w) :: fs) defaults =
        (k2, .vdict (strip_defaults_spec pd d)) :: strip_defaults_spec fs defaults := by
  rw [strip_defaults_spec]
  cases hld : lookupF defaults k2 with
  | none => exact Or.inr (Or.inl rfl)
  | some v =>
    simp only
    by_cases hpe : pyEq w v = true
    · rw [if_pos hpe]
      exact Or.inl rfl
    · rw [if_neg hpe]
      match v, w with
      | .vdict d, .vdict pd =>
        simp only
        by_cases hemp : (strip_defaults_spec pd d).isEmpty = true
        · rw [if_pos hemp]
          exact Or.inl rfl
        · rw [if_neg hemp]
          exact Or.inr (Or.inr ⟨d, pd, rfl, rfl⟩)
      | .vdict d, .vnone => exact Or.inr (Or.inl rfl)
      | .vdict d, .vbool b => exact Or.inr (Or.inl rfl)
      | .vdict d, .vint n => exact Or.inr (Or.inl rfl)
      | .vdict d, .vstr s => exact Or.inr (Or.inl rfl)
      | .vdict d, .vlist xs => exact Or.inr (Or.inl rfl)
      | .vnone, w => exact Or.inr (Or.inl rfl)
      | .vbool b, w => exact Or.inr (Or.inl rfl)
      | .vint n, w => exact Or.inr (Or.inl rfl)
      | .vstr s, w => exact Or.inr (Or.inl rfl)
      | .vlist xs, w => exact Or.inr (Or.inl rfl)

theorem lookupF_strip_none (fs defaults : List (String × Val)) (k : String)
    (h : lookupF fs k = none) :
    lookupF (strip_defaults_spec fs defaults) k = none := by
  induction fs with
  | nil => simp [strip_defaults_spec, lookupF]
  | cons e fs ih =>
    obtain ⟨k2, w⟩ := e
    rw [lookupF] at h
    by_cases hk2 : k2 = k
    · simp [hk2] at h
    · rw [if_neg hk2] at h
      rcases strip_cons_shape k2 w fs defaults with heq | heq | ⟨d, pd, _, heq⟩ <;>
        rw [heq]
      · exact ih h
      · rw [lookupF, if_neg hk2]; exact ih h
      · rw [lookupF, if_neg hk2]; exact ih h

theorem nodupKeysB_strip (fs defaults : List (String × Val))
    (h : nodupKeysB fs = true) :
    nodupKeysB (strip_defaults_spec fs defaults) = true := by
  induction fs with
  | nil => simp [strip_defaults_spec, nodupKeysB]
  | cons e fs ih =>
    obtain ⟨k2, w⟩ := e
    rw [nodupKeysB, Bool.and_eq_true] at h
    obtain ⟨h1, h2⟩ := h
    have h1' : lookupF fs k2 = none := by
      simpa [Option.isNone_iff_eq_none] using h1
    have hnone := lookupF_strip_none fs defaults k2 h1'
    rcases strip_cons_shape k2 w fs defaults with heq | heq | ⟨d, pd, _, heq⟩ <;>
      rw [heq]
    · exact ih h2
    · rw [nodupKeysB, Bool.and_eq_true]
      exact ⟨by simp [hnone], ih h2⟩
    · rw [nodupKeysB, Bool.and_eq_true]
      exact ⟨by simp [hnone], ih h2⟩

theorem wfKeysFields_strip :
    ∀ (n : Nat) (fs defaults : List (String × Val)), sizeOf fs ≤ n →
      wfKeysFields fs = true →
      wfKeysFields (strip_defaults_spec fs defaults) = true := by
  intro n
  induction n with
  | zero =>
    intro fs defaults hle _
    cases fs with
    | nil => simp [strip_defaults_spec, wfKeysFields]
    | cons e fs => simp at hle
  | succ n ih =>
    intro fs defaults hle hwf
    cases fs with
    | nil => simp [strip_defaults_spec, wfKeysFields]
    | cons e fs =>
      obtain ⟨k2, w⟩ := e
      rw [wfKeysFields, Bool.and_eq_true] at hwf
      obtain ⟨hw, hwfs⟩ := hwf
      have hszfs : sizeOf fs ≤ n := by
        simp only [List.cons.sizeOf_spec, Prod.mk.sizeOf_spec] at hle
        omega
      rcases strip_cons_shape k2 w fs defaults with heq | heq | ⟨d, pd, hwd, heq⟩ <;>
        rw [heq]
      · exact ih fs defaults hszfs hwfs
      · rw [wfKeysFields, Bool.and_eq_true]
        exact ⟨hw, ih fs defaults hszfs hwfs⟩
      · rw [wfKeysFields, Bool.and_eq_true]
        subst hwd
        rw [wfKeys, Bool.and_eq_true] at hw
        have hszpd : sizeOf pd ≤ n := by
          simp only [List.cons.sizeOf_spec, Prod.mk.sizeOf_spec, Val.vdict.sizeOf_spec]
            at hle
          omega
        refine ⟨?_, ih fs defaults hszfs hwfs⟩
        rw [wfKeys, Bool.and_eq_true]
        exact ⟨nodupKeysB_strip pd d hw.1, ih pd d hszpd hw.2⟩

/-- A default entry whose key does not occur in the properties dict leaves the
spec-side stripping unchanged. -/
theorem strip_skip_unused (fs : List (String × Val)) (k : String) (v : Val)
    (rest : List (String × Val)) (h : lookupF fs k = none) :
    strip_defaults_spec fs ((k, v) :: rest) = strip_defaults_spec fs rest := by
  induction fs with
  | nil => simp [strip_defaults_spec]
  | cons e fs ih =>
    obtain ⟨k2, w⟩ := e
    rw [lookupF] at h
    by_cases hk2 : k2 = k
    · simp [hk2] at h
    · rw [if_neg hk2] at h
      rw [strip_defaults_spec]
      rw [strip_defaults_spec]
      rw [show lookupF ((k, v) :: rest) k2 = lookupF rest k2 from by
        rw [lookupF, if_neg (fun he => hk2 (Eq.symm he))]]
      rw [ih h]

theorem stripStep_cons_ne (k2 : String) (w2 : Val) (fs : List (String × Val))
    (k : String) (v : Val) (hk2 : k2 ≠ k) :
    stripStep ((k2, w2) :: fs) k v = (k2, w2) :: stripStep fs k v := by
  rw [stripStep, stripStep]
  rw [show lookupF ((k2, w2) :: fs) k = lookupF fs k from by
    rw [lookupF, if_neg hk2]]
  cases hl : lookupF fs k with
  | none => rfl
  | some w =>
    dsimp only
    by_cases hpe : pyEq w v = true
    · rw [if_pos hpe, if_pos hpe, eraseF, if_neg hk2]
    · rw [if_neg hpe, if_neg hpe]
      cases v with
      | vdict d =>
        cases w with
        | vdict pd =>
          dsimp only
          by_cases hemp : (strip_defaults_spec pd d).isEmpty = true
          · rw [if_pos hemp, if_pos hemp, eraseF, if_neg hk2]
          · rw [if_neg hemp, if_neg hemp, setF, if_neg hk2]
        | vnone => rfl
        | vbool b => rfl
        | vint n => rfl
        | vstr s => rfl
        | vlist xs => rfl
      | vnone => rfl
      | vbool b => rfl
      | vint n => rfl
      | vstr s => rfl
      | vlist xs => rfl

theorem stripStep_cons_self (k2 : String) (w2 : Val) (fs : List (String × Val))
    (v : Val) :
    stripStep ((k2, w2) :: fs) k2 v =
      if pyEq w2 v then fs
      else match v, w2 with
        | .vdict d, .vdict pd =>
          if (strip_defaults_spec pd d).isEmpty then fs
          else (k2, .vdict (strip_defaults_spec pd d)) :: fs
        | _, _ => (k2, w2) :: fs := by
  rw [stripStep]
  rw [show lookupF ((k2, w2) :: fs) k2 = some w2 from by rw [lookupF, if_pos rfl]]
  dsimp only
  by_cases hpe : pyEq w2 v = true
  · rw [if_pos hpe, if_pos hpe, eraseF, if_pos rfl]
  · rw [if_neg hpe, if_neg hpe]
    cases v with
    | vdict d =>
      cases w2 with
      | vdict pd =>
        dsimp only
        by_cases hemp : (strip_defaults_spec pd d).isEmpty = true
        · rw [if_pos hemp, if_pos hemp, eraseF, if_pos rfl]
        · rw [if_neg hemp, if_neg hemp, setF, if_pos rfl]
      | vnone => rfl
      | vbool b => rfl
      | vint n => rfl
      | vstr s => rfl
      | vlist xs => rfl
    | vnone => rfl
    | vbool b => rfl
    | vint n => rfl
    | vstr s => rfl
    | vlist xs => rfl

/-- Central commutation: one iteration of the `delete_default_properties` loop
corresponds, on the spec side, to discharging the head default entry. -/
theorem strip_cons_step :
    ∀ (fs : List (String × Val)) (k : String) (v : Val)
      (rest : List (String × Val)), lookupF rest k = none → nodupKeysB fs = true →
      strip_defaults_spec fs ((k, v) :: rest) =
        strip_defaults_spec (stripStep fs k v) rest := by
  intro fs
  induction fs with
  | nil =>
    intro k v rest hres hnd
    rw [show stripStep [] k v = [] from rfl]
    simp [strip_defaults_spec]
  | cons e fs' ih =>
    obtain ⟨k2, w2⟩ := e
    intro k v rest hres hnd
    rw [nodupKeysB, Bool.and_eq_true] at hnd
    obtain ⟨h1, h2⟩ := hnd
    have h1' : lookupF fs' k2 = none := by
      simpa [Option.isNone_iff_eq_none] using h1
    by_cases hk2 : k2 = k
    · subst hk2
      rw [stripStep_cons_self]
      rw [strip_defaults_spec]
      rw [show lookupF ((k2, v) :: rest) k2 = some v from by rw [lookupF, if_pos rfl]]
      dsimp only
      have hS2 : ∀ w' : Val, strip_defaults_spec ((k2, w') :: fs') rest =
          (k2, w') :: strip_defaults_spec fs' rest := by
        intro w'
        rw [strip_defaults_spec, hres]
      have hskip : strip_defaults_spec fs' ((k2, v) :: rest) =
          strip_defaults_spec fs' rest := strip_skip_unused fs' k2 v rest h1'
      by_cases hpe : pyEq w2 v = true
      · rw [if_pos hpe, if_pos hpe]
        exact hskip
      · rw [if_neg hpe, if_neg hpe]
        cases v with
        | vdict d =>
          cases w2 with
          | vdict pd =>
            dsimp only
            by_cases hemp : (strip_defaults_spec pd d).isEmpty = true
            · rw [if_pos hemp, if_pos hemp]
              exact hskip
            · rw [if_neg hemp, if_neg hemp, hS2, hskip]
          | vnone => dsimp only; rw [hS2, hskip]
          | vbool b => dsimp only; rw [hS2, hskip]
          | vint n => dsimp only; rw [hS2, hskip]
          | vstr s => dsimp only; rw [hS2, hskip]
          | vlist xs => dsimp only; rw [hS2, hskip]
        | vnone => dsimp only; rw [hS2, hskip]
        | vbool b => dsimp only; rw [hS2, hskip]
        | vint n => dsimp only; rw [hS2, hskip]
        | vstr s => dsimp only; rw [hS2, hskip]
        | vlist xs => dsimp only; rw [hS2, hskip]
    · rw [stripStep_cons_ne k2 w2 fs' k v hk2]
      rw [strip_defaults_spec]
      rw [strip_defaults_spec]
      rw [show lookupF ((k, v) :: rest) k2 = lookupF rest k2 from by
        rw [lookupF, if_neg (fun he => hk2 (Eq.symm he))]]
      rw [ih k v rest hres h2]

/-- The C6 precondition only inspects the properties dict through lookups at
the default keys, so it transfers along lookup-preserving modifications. -/
theorem containsDefaultsB_congr (rest : List (String × Val))
    (fs fs' : List (String × Val))
    (h : ∀ p ∈ rest, lookupF fs' p.1 = lookupF fs p.1) :
    containsDefaultsB (.vdict fs') rest = containsDefaultsB (.vdict fs) rest := by
  induction rest with
  | nil => simp [containsDefaultsB]
  | cons e rest ih =>
    obtain ⟨k, v⟩ := e
    rw [containsDefaultsB, containsDefaultsB]
    have hk := h (k, v) (List.mem_cons_self _ _)
    dsimp only at hk
    rw [hk, ih (fun p hp => h p (List.mem_cons_of_mem _ hp))]

theorem presentDefaultsB_congr (rest : List (String × Val))
    (fs fs' : List (String × Val))
    (h : ∀ p ∈ rest, lookupF fs' p.1 = lookupF fs p.1) :
    presentDefaultsB (.vdict fs') rest = presentDefaultsB (.vdict fs) rest := by
  induction rest with
  | nil => simp [presentDefaultsB]
  | cons e rest ih =>
    obtain ⟨k, v⟩ := e
    rw [presentDefaultsB, presentDefaultsB]
    have hk := h (k, v) (List.mem_cons_self _ _)
    dsimp only at hk
    rw [hk, ih (fun p hp => h p (List.mem_cons_of_mem _ hp))]

/-- C6, generic form (strong induction on the size of the defaults dict). -/
theorem delete_eq_strip_aux :
    ∀ (n : Nat) (defaults fs : List (String × Val)), sizeOf defaults ≤ n →
      nodupKeysB fs = true → wfKeysFields fs = true →
      nodupKeysB defaults = true → wfKeysFields defaults = true →
      containsDefaultsB (.vdict fs) defaults = true →
      delete_default_properties (.vdict fs) defaults =
        .ok (.vdict (strip_defaults_spec fs defaults)) := by
  intro n
  induction n with
  | zero =>
    intro defaults fs hle
    cases defaults with
    | nil =>
      intro _ _ _ _ _
      rw [strip_nil_defaults]
      rw [delete_default_properties]
    | cons e defaults => simp at hle
  | succ n ih =>
    intro defaults fs hle hndf hwff hndd hwfd hcont
    cases defaults with
    | nil =>
      rw [strip_nil_defaults]
      rw [delete_default_properties]
    | cons e rest =>
      obtain ⟨k, v⟩ := e
      have hszrest : sizeOf rest ≤ n := by
        simp only [List.cons.sizeOf_spec, Prod.mk.sizeOf_spec] at hle
        omega
      rw [nodupKeysB, Bool.and_eq_true] at hndd
      obtain ⟨hrk, hndr⟩ := hndd
      have hrk' : lookupF rest k = none := by
        simpa [Option.isNone_iff_eq_none] using hrk
      have hrkne := lookupF_none_forall rest k hrk'
      rw [wfKeysFields, Bool.and_eq_true] at hwfd
      obtain ⟨hwv, hwfr⟩ := hwfd
      rw [containsDefaultsB, Bool.and_eq_true] at hcont
      obtain ⟨hhead, hrest⟩ := hcont
      try dsimp only at hhead
      cases hlk : lookupF fs k with
      | none => rw [hlk] at hhead; simp at hhead
      | some w =>
        rw [hlk] at hhead
        try dsimp only at hhead
        rw [strip_cons_step fs k v rest hrk' hndf]
        rw [delete_default_properties]
        rw [show dictIndex (.vdict fs) k = .ok w from by rw [dictIndex, hlk]]
        dsimp only
        by_cases hpe : pyEq w v = true
        · -- the value equals the default: the key is deleted
          rw [if_pos hpe]
          have hstep : stripStep fs k v = eraseF fs k := by
            rw [stripStep, hlk]
            dsimp only
            rw [if_pos hpe]
          rw [hstep]
          have hget : dictGet? (dictErase (.vdict fs) k) k = none := by
            rw [show dictErase (.vdict fs) k = .vdict (eraseF fs k) from rfl]
            rw [show dictGet? (.vdict (eraseF fs k)) k = lookupF (eraseF fs k) k
              from rfl]
            exact lookupF_eraseF_self fs k hndf
          have hcont' : containsDefaultsB (.vdict (eraseF fs k)) rest = true := by
            rw [containsDefaultsB_congr rest fs (eraseF fs k)
              (fun p hp => lookupF_eraseF_ne fs k p.1 (hrkne p hp))]
            exact hrest
          have hrec := ih rest (eraseF fs k) hszrest
            (nodupKeysB_eraseF fs k hndf) (wfKeysFields_eraseF fs k hwff)
            hndr hwfr hcont'
          cases v with
          | vdict d => rw [hget]; exact hrec
          | vnone => exact hrec
          | vbool b => exact hrec
          | vint m => exact hrec
          | vstr s => exact hrec
          | vlist xs => exact hrec
        · -- differing value
          rw [if_neg hpe]
          cases v with
          | vdict d =>
            cases w with
            | vdict pd =>
              dsimp only at hhead
              -- hhead : containsDefaultsB (.vdict pd) d = true
              have hwpd : wfKeys (.vdict pd) = true :=
                wfKeysFields_lookup fs k _ hwff hlk
              rw [wfKeys, Bool.and_eq_true] at hwpd
              rw [wfKeys, Bool.and_eq_true] at hwv
              have hszd : sizeOf d ≤ n := by
                simp only [List.cons.sizeOf_spec, Prod.mk.sizeOf_spec,
                  Val.vdict.sizeOf_spec] at hle
                omega
              have hrecd := ih d pd hszd hwpd.1 hwpd.2 hwv.1 hwv.2 hhead
              rw [show dictGet? (.vdict fs) k = lookupF fs k from rfl, hlk]
              dsimp only
              rw [hrecd]
              dsimp only
              rw [show pyLen (.vdict (strip_defaults_spec pd d)) =
                .ok (strip_defaults_spec pd d).length from rfl]
              dsimp only
              have hstep0 : stripStep fs k (.vdict d) =
                  (if (strip_defaults_spec pd d).isEmpty then eraseF fs k
                   else setF fs k (.vdict (strip_defaults_spec pd d))) := by
                rw [stripStep, hlk]
                dsimp only
                rw [if_neg hpe]
              rw [hstep0]
              cases hsp : strip_defaults_spec pd d with
              | nil =>
                rw [if_pos (show List.isEmpty ([] : List (String × Val)) = true
                  from rfl)]
                rw [if_pos (show ([] : List (String × Val)).length = 0 from rfl)]
                rw [show dictErase (dictSet (.vdict fs) k (.vdict [])) k =
                    .vdict (eraseF (setF fs k (.vdict [])) k) from rfl]
                rw [eraseF_setF]
                have hcont' : containsDefaultsB (.vdict (eraseF fs k)) rest
                    = true := by
                  rw [containsDefaultsB_congr rest fs (eraseF fs k)
                    (fun p hp => lookupF_eraseF_ne fs k p.1 (hrkne p hp))]
                  exact hrest
                exact ih rest (eraseF fs k) hszrest
                  (nodupKeysB_eraseF fs k hndf) (wfKeysFields_eraseF fs k hwff)
                  hndr hwfr hcont'
              | cons q qs =>
                rw [if_neg (show ¬ (List.isEmpty (q :: qs) = true) from by simp)]
                rw [if_neg (show ¬ ((q :: qs).length = 0) from by simp)]
                rw [show dictSet (.vdict fs) k (.vdict (q :: qs)) =
                    .vdict (setF fs k (.vdict (q :: qs))) from rfl]
                have hwqs : wfKeys (.vdict (q :: qs)) = true := by
                  rw [wfKeys, Bool.and_eq_true, ← hsp]
                  exact ⟨nodupKeysB_strip pd d hwpd.1,
                    wfKeysFields_strip (sizeOf pd) pd d (Nat.le_refl _) hwpd.2⟩
                have hcont' : containsDefaultsB
                    (.vdict (setF fs k (.vdict (q :: qs)))) rest = true := by
                  rw [containsDefaultsB_congr rest fs
                    (setF fs k (.vdict (q :: qs)))
                    (fun p hp => lookupF_setF_ne fs k p.1 _ (hrkne p hp))]
                  exact hrest
                exact ih rest (setF fs k (.vdict (q :: qs))) hszrest
                  (nodupKeysB_setF fs k _ hndf)
                  (wfKeysFields_setF fs k _ hwff hwqs)
                  hndr hwfr hcont'
            | vnone => simp at hhead
            | vbool b => simp at hhead
            | vint m => simp at hhead
            | vstr s => simp at hhead
            | vlist xs => simp at hhead
          | vnone =>
            have hstep : stripStep fs k .vnone = fs := by
              rw [stripStep, hlk]
              dsimp only
              rw [if_neg hpe]
            rw [hstep]
            have hcont' : containsDefaultsB (.vdict fs) rest = true := hrest
            exact ih rest fs hszrest hndf hwff hndr hwfr hcont'
          | vbool b =>
            have hstep : stripStep fs k (.vbool b) = fs := by
              rw [stripStep, hlk]
              dsimp only
              rw [if_neg hpe]
            rw [hstep]
            exact ih rest fs hszrest hndf hwff hndr hwfr hrest
          | vint m =>
            have hstep : stripStep fs k (.vint m) = fs := by
              rw [stripStep, hlk]
              dsimp only
              rw [if_neg hpe]
            rw [hstep]
            exact ih rest fs hszrest hndf hwff hndr hwfr hrest
          | vstr s =>
            have hstep : stripStep fs k (.vstr s) = fs := by
              rw [stripStep, hlk]
              dsimp only
              rw [if_neg hpe]
            rw [hstep]
            exact ih rest fs hszrest hndf hwff hndr hwfr hrest
          | vlist xs =>
            have hstep : stripStep fs k (.vlist xs) = fs := by
              rw [stripStep, hlk]
              dsimp only
              rw [if_neg hpe]
            rw [hstep]
            exact ih rest fs hszrest hndf hwff hndr hwfr hrest

/-- One loop iteration of `delete_default_properties` either raises or
continues on the rest of the defaults with a dict whose bindings at other keys
are untouched; when it continues past a differing dict default, the nested
recursive call and the `len` call must have succeeded. -/
theorem delete_cons_cases (fs : List (String × Val)) (k0 : String) (v0 : Val)
    (rest : List (String × Val)) :
    (∃ e, delete_default_properties (.vdict fs) ((k0, v0) :: rest) = .error e) ∨
    (∃ w fs', lookupF fs k0 = some w ∧
      delete_default_properties (.vdict fs) ((k0, v0) :: rest) =
        delete_default_properties (.vdict fs') rest ∧
      (∀ k2, k2 ≠ k0 → lookupF fs' k2 = lookupF fs k2) ∧
      (∀ d, v0 = .vdict d → pyEq w v0 = false →
        ∃ r n, delete_default_properties w d = .ok r ∧ pyLen r = .ok n)) := by
  rw [delete_default_properties]
  cases hlk : lookupF fs k0 with
  | none =>
    rw [show dictIndex (.vdict fs) k0 = .error .keyError from by
      rw [dictIndex, hlk]]
    exact Or.inl ⟨.keyError, rfl⟩
  | some w =>
    rw [show dictIndex (.vdict fs) k0 = .ok w from by rw [dictIndex, hlk]]
    dsimp only
    by_cases hpe : pyEq w v0 = true
    · rw [if_pos hpe]
      cases v0 with
      | vdict d =>
        dsimp only
        cases hg : dictGet? (dictErase (.vdict fs) k0) k0 with
        | none =>
          refine Or.inr ⟨w, eraseF fs k0, rfl, rfl, ?_, ?_⟩
          · intro k2 h2
            exact lookupF_eraseF_ne fs k0 k2 h2
          · intro d' hd hp
            rw [hp] at hpe
            cases hpe
        | some w2 =>
          dsimp only
          cases hrec : delete_default_properties w2 d with
          | error e => exact Or.inl ⟨e, rfl⟩
          | ok r =>
            dsimp only
            cases hlen : pyLen r with
            | error e => exact Or.inl ⟨e, rfl⟩
            | ok n =>
              dsimp only
              by_cases hn : n = 0
              · rw [if_pos hn]
                refine Or.inr ⟨w, eraseF (setF (eraseF fs k0) k0 r) k0,
                  rfl, rfl, ?_, ?_⟩
                · intro k2 h2
                  rw [lookupF_eraseF_ne _ _ _ h2, lookupF_setF_ne _ _ _ _ h2,
                    lookupF_eraseF_ne _ _ _ h2]
                · intro d' hd hp
                  rw [hp] at hpe
                  cases hpe
              · rw [if_neg hn]
                refine Or.inr ⟨w, setF (eraseF fs k0) k0 r, rfl, rfl, ?_, ?_⟩
                · intro k2 h2
                  rw [lookupF_setF_ne _ _ _ _ h2, lookupF_eraseF_ne _ _ _ h2]
                · intro d' hd hp
                  rw [hp] at hpe
                  cases hpe
      | vnone =>
        refine Or.inr ⟨w, eraseF fs k0, rfl, rfl, ?_, fun d hd hp => nomatch hd⟩
        intro k2 h2
        exact lookupF_eraseF_ne fs k0 k2 h2
      | vbool b =>
        refine Or.inr ⟨w, eraseF fs k0, rfl, rfl, ?_, fun d hd hp => nomatch hd⟩
        intro k2 h2
        exact lookupF_eraseF_ne fs k0 k2 h2
      | vint m =>
        refine Or.inr ⟨w, eraseF fs k0, rfl, rfl, ?_, fun d hd hp => nomatch hd⟩
        intro k2 h2
        exact lookupF_eraseF_ne fs k0 k2 h2
      | vstr s =>
        refine Or.inr ⟨w, eraseF fs k0, rfl, rfl, ?_, fun d hd hp => nomatch hd⟩
        intro k2 h2
        exact lookupF_eraseF_ne fs k0 k2 h2
      | vlist xs =>
        refine Or.inr ⟨w, eraseF fs k0, rfl, rfl, ?_, fun d hd hp => nomatch hd⟩
        intro k2 h2
        exact lookupF_eraseF_ne fs k0 k2 h2
    · rw [if_neg hpe]
      cases v0 with
      | vdict d =>
        dsimp only
        rw [show dictGet? (.vdict fs) k0 = lookupF fs k0 from rfl, hlk]
        dsimp only
        cases hrec : delete_default_properties w d with
        | error e => exact Or.inl ⟨e, rfl⟩
        | ok r =>
          dsimp only
          cases hlen : pyLen r with
          | error e => exact Or.inl ⟨e, rfl⟩
          | ok n =>
            dsimp only
            by_cases hn : n = 0
            · rw [if_pos hn]
              refine Or.inr ⟨w, eraseF (setF fs k0 r) k0, rfl, rfl, ?_, ?_⟩
              · intro k2 h2
                rw [lookupF_eraseF_ne _ _ _ h2, lookupF_setF_ne _ _ _ _ h2]
              · intro d' hd hp
                cases hd
                exact ⟨r, n, hrec, hlen⟩
            · rw [if_neg hn]
              refine Or.inr ⟨w, setF fs k0 r, rfl, rfl, ?_, ?_⟩
              · intro k2 h2
                rw [lookupF_setF_ne _ _ _ _ h2]
              · intro d' hd hp
                cases hd
                exact ⟨r, n, hrec, hlen⟩
      | vnone =>
        exact Or.inr ⟨w, fs, rfl, rfl, fun k2 _ => rfl, fun d hd hp => nomatch hd⟩
      | vbool b =>
        exact Or.inr ⟨w, fs, rfl, rfl, fun k2 _ => rfl, fun d hd hp => nomatch hd⟩
      | vint m =>
        exact Or.inr ⟨w, fs, rfl, rfl, fun k2 _ => rfl, fun d hd hp => nomatch hd⟩
      | vstr s =>
        exact Or.inr ⟨w, fs, rfl, rfl, fun k2 _ => rfl, fun d hd hp => nomatch hd⟩
      | vlist xs =>
        exact Or.inr ⟨w, fs, rfl, rfl, fun k2 _ => rfl, fun d hd hp => nomatch hd⟩

theorem delete_missing_key_error :
    ∀ (defaults fs : List (String × Val)) (k : String) (v : Val),
      (k, v) ∈ defaults → lookupF fs k = none →
      ∃ e, delete_default_properties (.vdict fs) defaults = .error e := by
  intro defaults
  induction defaults with
  | nil =>
    intro fs k v hmem _
    cases hmem
  | cons e0 rest ih =>
    obtain ⟨k0, v0⟩ := e0
    intro fs k v hmem hnone
    rcases delete_cons_cases fs k0 v0 rest with ⟨e, he⟩ |
      ⟨w, fs', hlk, heq, hpres, _⟩
    · exact ⟨e, he⟩
    · have hkk0 : k ≠ k0 := by
        intro he0
        rw [he0] at hnone
        rw [hlk] at hnone
        cases hnone
      have hmem' : (k, v) ∈ rest := by
        rcases List.mem_cons.mp hmem with he0 | h'
        · exact absurd (congrArg Prod.fst he0) hkk0
        · exact h'
      have hnone' : lookupF fs' k = none := by
        rw [hpres k hkk0]
        exact hnone
      obtain ⟨e, he⟩ := ih fs' k v hmem' hnone'
      exact ⟨e, heq.trans he⟩

theorem delete_ok_present_aux :
    ∀ (n : Nat) (defaults : List (String × Val)) (props out : Val),
      sizeOf defaults ≤ n →
      nodupKeysB defaults = true → wfKeysFields defaults = true →
      delete_default_properties props defaults = .ok out →
      presentDefaultsB props defaults = true := by
  intro n
  induction n with
  | zero =>
    intro defaults props out hle
    cases defaults with
    | nil => intro _ _ _; simp [presentDefaultsB]
    | cons e rest => simp at hle
  | succ n ih =>
    intro defaults props out hle hnd hwf hdel
    cases defaults with
    | nil => simp [presentDefaultsB]
    | cons e0 rest =>
      obtain ⟨k0, v0⟩ := e0
      have hszrest : sizeOf rest ≤ n := by
        simp only [List.cons.sizeOf_spec, Prod.mk.sizeOf_spec] at hle
        omega
      rw [nodupKeysB, Bool.and_eq_true] at hnd
      obtain ⟨hr0, hndr⟩ := hnd
      have hr0' : lookupF rest k0 = none := by
        simpa [Option.isNone_iff_eq_none] using hr0
      have hr0ne := lookupF_none_forall rest k0 hr0'
      rw [wfKeysFields, Bool.and_eq_true] at hwf
      obtain ⟨hwv0, hwfr⟩ := hwf
      cases props with
      | vdict fs =>
        rcases delete_cons_cases fs k0 v0 rest with ⟨e, he⟩ |
          ⟨w, fs', hlk, heq, hpres, hnest⟩
        · rw [he] at hdel; cases hdel
        · rw [heq] at hdel
          have hpr : presentDefaultsB (.vdict fs) rest = true := by
            rw [← presentDefaultsB_congr rest fs fs'
              (fun p hp => hpres p.1 (hr0ne p hp))]
            exact ih rest (.vdict fs') out hszrest hndr hwfr hdel
          rw [presentDefaultsB, Bool.and_eq_true]
          refine ⟨?_, hpr⟩
          dsimp only
          rw [hlk]
          dsimp only
          cases v0 with
          | vdict d =>
            dsimp only
            by_cases hpe : pyEq w (.vdict d) = true
            · rw [if_pos hpe]
            · rw [if_neg hpe]
              obtain ⟨r, m, hrecd, hlen⟩ := hnest d rfl (by simpa using hpe)
              rw [wfKeys, Bool.and_eq_true] at hwv0
              have hszd : sizeOf d ≤ n := by
                simp only [List.cons.sizeOf_spec, Prod.mk.sizeOf_spec,
                  Val.vdict.sizeOf_spec] at hle
                omega
              cases w with
              | vdict pdw => exact ih d (.vdict pdw) r hszd hwv0.1 hwv0.2 hrecd
              | vnone =>
                cases d with
                | nil => rfl
                | cons e1 d' =>
                  obtain ⟨k1, v1⟩ := e1
                  rw [delete_default_properties] at hrecd
                  rw [show dictIndex Val.vnone k1 = .error .typeError
                    from rfl] at hrecd
                  cases hrecd
              | vbool b =>
                cases d with
                | nil => rfl
                | cons e1 d' =>
                  obtain ⟨k1, v1⟩ := e1
                  rw [delete_default_properties] at hrecd
                  rw [show dictIndex (Val.vbool b) k1 = .error .typeError
                    from rfl] at hrecd
                  cases hrecd
              | vint mi =>
                cases d with
                | nil => rfl
                | cons e1 d' =>
                  obtain ⟨k1, v1⟩ := e1
                  rw [delete_default_properties] at hrecd
                  rw [show dictIndex (Val.vint mi) k1 = .error .typeError
                    from rfl] at hrecd
                  cases hrecd
              | vstr st =>
                cases d with
                | nil => rfl
                | cons e1 d' =>
                  obtain ⟨k1, v1⟩ := e1
                  rw [delete_default_properties] at hrecd
                  rw [show dictIndex (Val.vstr st) k1 = .error .typeError
                    from rfl] at hrecd
                  cases hrecd
              | vlist xs =>
                cases d with
                | nil => rfl
                | cons e1 d' =>
                  obtain ⟨k1, v1⟩ := e1
                  rw [delete_default_properties] at hrecd
                  rw [show dictIndex (Val.vlist xs) k1 = .error .typeError
                    from rfl] at hrecd
                  cases hrecd
          | vnone => rfl
          | vbool b => rfl
          | vint m => rfl
          | vstr s => rfl
          | vlist xs => rfl
      | vnone =>
        rw [delete_default_properties] at hdel
        rw [show dictIndex Val.vnone k0 = .error .typeError from rfl] at hdel
        cases hdel
      | vbool b =>
        rw [delete_default_properties] at hdel
        rw [show dictIndex (Val.vbool b) k0 = .error .typeError from rfl] at hdel
        cases hdel
      | vint m =>
        rw [delete_default_properties] at hdel
        rw [show dictIndex (Val.vint m) k0 = .error .typeError from rfl] at hdel
        cases hdel
      | vstr s =>
        rw [delete_default_properties] at hdel
        rw [show dictIndex (Val.vstr s) k0 = .error .typeError from rfl] at hdel
        cases hdel
      | vlist xs =>
        rw [delete_default_properties] at hdel
        rw [show dictIndex (Val.vlist xs) k0 = .error .typeError from rfl] at hdel
        cases hdel


/-! ## Claims C6 and C10 -/

/-- C6.  For every report-properties dict that contains — recursively,
wherever a default value is a dict — every key of the report type's
default-properties dict (with a dict value wherever the default value is a
dict, which is what containment of the nested keys requires),
`delete_default_properties` returns exactly the dict described by the spec
(`strip_defaults_spec`): every key whose value equals the corresponding
default is removed, nested dicts are stripped recursively, nested dicts left
empty by the stripping are removed entirely, and every key whose value differs
from the default is kept (with nested-dict defaults stripped inside it,
otherwise unchanged).  Both dicts are well-formed Python dicts (unique keys at
every level). -/
theorem claim_C6_delete_default_properties (fs defaults : List (String × Val))
    (hwf1 : wfKeys (.vdict fs) = true) (hwf2 : wfKeys (.vdict defaults) = true)
    (hcont : containsDefaultsB (.vdict fs) defaults = true) :
    delete_default_properties (.vdict fs) defaults =
      .ok (.vdict (strip_defaults_spec fs defaults)) := by
  rw [wfKeys, Bool.and_eq_true] at hwf1 hwf2
  exact delete_eq_strip_aux (sizeOf defaults) defaults fs (Nat.le_refl _)
    hwf1.1 hwf1.2 hwf2.1 hwf2.2 hcont

/-- Witness for C6 on a concrete report-properties dict: the key equal to its
default disappears, the nested dict is stripped recursively (keeping only the
differing nested key), and differing values survive unchanged. -/
theorem claim_C6_delete_default_properties_witness :
    delete_default_properties
      (.vdict [("hash", .vstr "h"), ("a", .vint 1),
        ("b", .vdict [("x", .vint 1), ("y", .vint 2)]), ("c", .vstr "keep")])
      [("a", .vint 1), ("b", .vdict [("x", .vint 1), ("y", .vint 0)]),
        ("c", .vstr "default")] =
    .ok (.vdict [("hash", .vstr "h"), ("b", .vdict [("y", .vint 2)]),
      ("c", .vstr "keep")]) := by
  rw [claim_C6_delete_default_properties _ _
    (by simp [wfKeys, wfKeysFields, wfKeysList, nodupKeysB, lookupF])
    (by simp [wfKeys, wfKeysFields, wfKeysList, nodupKeysB, lookupF])
    (by simp [containsDefaultsB, lookupF])]
  simp [strip_defaults_spec, lookupF, pyEq, pyEqList, pyEqFields, pyLookupEq]

/-- C10 counterexample to the claim as stated: the defaults dict has the
top-level key `"b"` absent from the properties dict, yet the call raises
`TypeError`, not `KeyError` — the earlier key `"a"` carries a dict default and
meets a differing non-dict value, so the recursive call indexes into an `int`
first. -/
theorem claim_C10_counterexample :
    delete_default_properties (.vdict [("a", .vint 5)])
        [("a", .vdict [("x", .vint 1)]), ("b", .vint 2)] =
      .error .typeError ∧
    PErr.typeError ≠ PErr.keyError := by
  constructor
  · simp [delete_default_properties, dictIndex, lookupF, dictGet?, dictErase,
      dictSet, eraseF, setF, pyLen, pyEq]
  · decide

/-- C10 (amended).  `delete_default_properties` is partial: (1) whenever some
top-level default key is absent from the properties dict the call raises an
exception (`KeyError` when that key's comparison is reached first, though an
earlier dict-valued default meeting a differing non-dict value raises
`TypeError` before it, as the counterexample shows); and (2) the call returns
normally only under the precondition that every default key is present in the
properties dict, recursively wherever the default value is a dict and the key
survives the top-level comparison (`presentDefaultsB`). -/
theorem claim_C10_delete_partiality :
    (∀ (fs defaults : List (String × Val)) (k : String) (v : Val),
      (k, v) ∈ defaults → lookupF fs k = none →
      ∃ e, delete_default_properties (.vdict fs) defaults = .error e) ∧
    (∀ (fs defaults : List (String × Val)) (out : Val),
      wfKeys (.vdict defaults) = true →
      delete_default_properties (.vdict fs) defaults = .ok out →
      presentDefaultsB (.vdict fs) defaults = true) := by
  constructor
  · intro fs defaults k v hmem hnone
    exact delete_missing_key_error defaults fs k v hmem hnone
  · intro fs defaults out hwf hdel
    rw [wfKeys, Bool.and_eq_true] at hwf
    exact delete_ok_present_aux (sizeOf defaults) defaults (.vdict fs) out
      (Nat.le_refl _) hwf.1 hwf.2 hdel

/-- Witness for C10 at concrete inputs: a missing top-level key makes the call
raise, and a normally returning call satisfies the presence precondition. -/
theorem claim_C10_delete_partiality_witness :
    (∃ e, delete_default_properties (.vdict [("a", .vint 1)])
      [("a", .vint 1), ("b", .vint 2)] = .error e) ∧
    presentDefaultsB (.vdict [("a", .vint 1)]) [("a", .vint 2)] = true :=
  ⟨claim_C10_delete_partiality.1 [("a", .vint 1)]
      [("a", .vint 1), ("b", .vint 2)] "b" (.vint 2)
      (by simp) (by simp [lookupF]),
   claim_C10_delete_partiality.2 [("a", .vint 1)] [("a", .vint 2)]
      (.vdict [("a", .vint 1)])
      (by simp [wfKeys, wfKeysFields, wfKeysList, nodupKeysB, lookupF])
      (by simp [delete_default_properties, dictIndex, lookupF, pyEq])⟩

/-- C9: for every workflow name and every non-`None` version,
`AiApi._get_activity_template` raises `TypeError`, because it calls
`Universe.get_activity_template` with the keyword argument `name_version`,
which that method's signature `(uuid, name)` does not accept; hence
`generic_execute` and `show_last_execution_logs` invoked with an explicit
version raise `TypeError` whatever the rest of the method would do, and so
does `check_for_private_access` whenever the credentials are set and the
access token is a universe API key; version-specific template lookup can
never succeed. -/
theorem claim_C9_name_version_type_error :
    (∀ (env : UniverseM) (name : String) (v : String),
      ai_get_activity_template env name (some v) = .error .typeError) ∧
    (∀ (env : AiEnv) (name : String) (v : String)
      (rest : ActivityTemplateM → Except PErr Unit),
      generic_execute env name (some v) rest = .error .typeError) ∧
    (∀ (env : AiEnv) (name : String) (v : String) (howMany : Nat)
      (rest : ActivityTemplateM → Nat → Except PErr Unit),
      show_last_execution_logs env name (some v) howMany rest
        = .error .typeError) ∧
    (∀ (env : AiEnv) (pwc : PrivateWorkflowCredentialsM)
      (rest : ActivityTemplateM → Except PErr Unit),
      env.privateWorkflowCredentials = some pwc →
      env.univ.apiKeys.contains env.accessToken = true →
      check_for_private_access env rest = .error .typeError) := by
  have base : ∀ (env : UniverseM) (name : String) (v : String),
      ai_get_activity_template env name (some v) = .error .typeError := by
    intro env name v
    simp [ai_get_activity_template, universe_get_activity_template]
  refine ⟨base, ?_, ?_, ?_⟩
  · intro env name v rest
    simp [generic_execute, base]
  · intro env name v howMany rest
    simp [show_last_execution_logs, base]
  · intro env pwc rest hcred hkey
    simp [check_for_private_access, hcred, base]
    simpa using hkey

/-- Witness for C9 at a concrete state: the versioned lookup and the private
access check both yield `TypeError` on `aiEnvC`. -/
theorem claim_C9_name_version_type_error_witness :
    ai_get_activity_template aiEnvC.univ "w" (some "2") = .error .typeError ∧
    check_for_private_access aiEnvC (fun _ => .ok ()) = .error .typeError := by
  refine ⟨claim_C9_name_version_type_error.1 aiEnvC.univ "w" "2", ?_⟩
  exact claim_C9_name_version_type_error.2.2.2 aiEnvC
    { workflowName := "w", workflowVersion := "2", runId := "r" }
    (fun _ => .ok ()) rfl rfl

/-! ## Claim C3: the sibling merge of the emission pass -/

theorem iLt_asym (a b : Int) : iLt a b = true → iLt b a = false := by
  simp [iLt]; omega

theorem iLt_negtrans (a b c : Int) :
    iLt b a = false → iLt c b = false → iLt c a = false := by
  simp [iLt]; omega

/-- C3 counterexample: on path `"p"` the fetch order is the TABS report
`"t"` then the equal-order leaf `"x"`, but the merged sibling sequence
visits the leaf `"x"` first — ties are broken leaves-before-tab-groups by
the `tree['other'] + tree['tab_groups']` concatenation, not by the original
fetch order as the claim states. -/
theorem claim_C3_counterexample :
    envC3.map TReport.rid = ["t", "x"] ∧
    rTabsC3.order = rLeafC3.order ∧
    generate_tree envC3 3 envC3 = .ok [("p", ptC3)] ∧
    (mergedComponents ptC3.other ptC3.tabGroups).map Component.rid
      = ["x", "t"] := by
  refine ⟨by simp [envC3, rTabsC3, rLeafC3], by simp [rTabsC3, rLeafC3],
    ?_, ?_⟩
  · simp [generate_tree, generate_tree_loop, envC3, rTabsC3, rLeafC3,
      tree_from_tabs_group, processTabs, treeUpd, emptyPathTree,
      pySorted, pyInsert, iLt, ptC3]
  · simp [mergedComponents, ptC3, rTabsC3, rLeafC3, pySorted, pyInsert,
      iLt, Component.order, Component.rid, TabsGroupNode.tabsGroup,
      TabsGroupNode.order]

/-- C3 (amended): for every tree node, the emission pass merges the leaf
reports and the tabs-group children into one sequence
`sorted(tree['other'] + tree['tab_groups'], key=lambda x: x['order'])`: a
permutation of the two sibling lists, ascending in `order`, and stable with
respect to the concatenation — so among siblings of equal `order` every leaf
(in `other` order) precedes every tabs group (in `tab_groups` order),
rather than the interleaved fetch order claimed. -/
theorem claim_C3_sibling_merge (other : List TReport)
    (tabGroups : List TabsGroupNode) :
    List.Perm (mergedComponents other tabGroups)
      ((other.map Component.leaf) ++ (tabGroups.map Component.tabs)) ∧
    (mergedComponents other tabGroups).Pairwise
      (fun a b => iLt b.order a.order = false) ∧
    (∀ k : Int,
      (mergedComponents other tabGroups).filter (fun c => c.order == k)
        = ((other.filter (fun r => r.order == k)).map Component.leaf)
          ++ ((tabGroups.filter (fun t => t.order == k)).map
                Component.tabs)) := by
  refine ⟨pySorted_perm _ _, ?_, ?_⟩
  · exact pySorted_pairwise _
      (fun a b => iLt_asym a.order b.order)
      (fun a b c => iLt_negtrans a.order b.order c.order) _
  · intro k
    rw [mergedComponents, pySorted_filter]
    · simp only [List.filter_append, List.filter_map]
      have h1 : other.filter ((fun c : Component => c.order == k)
            ∘ Component.leaf) = other.filter (fun r => r.order == k) :=
        List.filter_congr
          (fun r _ => by simp [Function.comp, Component.order])
      have h2 : tabGroups.filter ((fun c : Component => c.order == k)
            ∘ Component.tabs) = tabGroups.filter (fun t => t.order == k) :=
        List.filter_congr
          (fun t _ => by simp [Function.comp, Component.order])
      rw [h1, h2]
    · intro a b ha hb
      have ha' : a.order = k := by simpa using ha
      have hb' : b.order = k := by simpa using hb
      simp [iLt, ha', hb']

/-! ## Claims C7 and C8: bentobox scopes and the serializer fallback -/

theorem take_append_ne {α : Type} (l1 r1 l2 : List α) (n : Nat)
    (h1 : n ≤ l1.length) (hne : l1.take n ≠ l2.take n) : l1 ++ r1 ≠ l2 := by
  intro he
  apply hne
  rw [← he, List.take_append_of_le_length h1]

theorem setBentoboxLine_ne_pop (bb : BentoboxM) :
    setBentoboxLine bb ≠ popBentoboxLine := by
  intro h
  have hd : ("shimoku_client.plt.set_bentobox(cols_size=").data
      ++ (toString bb.bentoboxSizeColumns
        ++ (", rows_size=" ++ (toString bb.bentoboxSizeRows ++ ")"))).data
      = popBentoboxLine.data := by
    rw [← String.data_append]
    exact congrArg String.data h
  exact absurd hd (take_append_ne _ _ _ 20 (by decide) (by decide))

theorem pop_not_mem_openLines (bb : BentoboxM) :
    popBentoboxLine ∉ ["", setBentoboxLine bb] := by
  intro h
  rcases List.mem_cons.mp h with h1 | h2
  · exact absurd h1 (by decide)
  · rcases List.mem_cons.mp h2 with h3 | h4
    · exact setBentoboxLine_ne_pop bb h3.symm
    · simp at h4

/-- C7 (amended): the bentobox block emits the scope-open pair
`['', set_bentobox(...)]` exactly when the report carries a bentobox whose id
differs from the tracked one (tracking it afterwards); for a report without
a bentobox it emits the pop line exactly when one is tracked; with
`is_last`, `_code_gen_from_other` leaves no tracked bentobox and ends on the
pop line whenever one survives the step; but — contrary to the claim — when
the report switches directly from one tracked bentobox to a different one,
no pop line at all is emitted: the open scope is never closed before the
different one is opened. -/
theorem claim_C7_bentobox_scope :
    (∀ (actual : Option BentoboxM) (r : TReport) (bb : BentoboxM),
      r.bentobox = some bb →
      (((bentoboxStep actual r).1 = ["", setBentoboxLine bb]
          ∧ (bentoboxStep actual r).2 = some bb)
        ↔ (∀ ab, actual = some ab → ab.bentoboxId ≠ bb.bentoboxId))) ∧
    (∀ (actual : Option BentoboxM) (r : TReport),
      r.bentobox = none →
      (((bentoboxStep actual r).1 = [popBentoboxLine]
          ∧ (bentoboxStep actual r).2 = none) ↔ actual ≠ none)
      ∧ ((bentoboxStep actual r).1 = [] ↔ actual = none)) ∧
    (∀ (env : CodeGenEnv) (actual : Option BentoboxM) (r : TReport)
        (lines : List String) (a2 : Option BentoboxM),
      code_gen_from_other env actual r true = .ok (lines, a2) →
      a2 = none ∧
      ((bentoboxStep actual r).2.isSome = true →
        lines.getLast? = some popBentoboxLine)) ∧
    (∀ (actual : Option BentoboxM) (r : TReport) (bb ab : BentoboxM),
      r.bentobox = some bb → actual = some ab →
      ab.bentoboxId ≠ bb.bentoboxId →
      popBentoboxLine ∉ (bentoboxStep actual r).1) := by
  refine ⟨?_, ?_, ?_, ?_⟩
  · intro actual r bb hbb
    cases actual with
    | none => simp [bentoboxStep, hbb]
    | some ab =>
      by_cases hid : ab.bentoboxId = bb.bentoboxId
      · simp [bentoboxStep, hbb, hid]
      · simp [bentoboxStep, hbb, hid]
  · intro actual r hbb
    cases actual with
    | none => simp [bentoboxStep, hbb]
    | some ab =>
      constructor
      · simp [bentoboxStep, hbb]
      · simp [bentoboxStep, hbb]
  · intro env actual r lines a2 h
    simp only [code_gen_from_other] at h
    split at h
    · exact absurd h (by simp)
    · split at h
      · exact absurd h (by simp)
      · split at h
        · exact absurd h (by simp)
        · rename_i body hbody
          by_cases hs : (bentoboxStep actual r).2.isSome = true
          · rw [if_pos (by simp [hs])] at h
            obtain ⟨h1, h2⟩ := Prod.mk.injEq .. ▸ (Except.ok.injEq .. ▸ h)
            refine ⟨h2.symm, fun _ => ?_⟩
            rw [← h1, List.getLast?_concat]
          · have hs' : (bentoboxStep actual r).2 = none := by
              cases hsv : (bentoboxStep actual r).2
              · rfl
              · exact absurd (by simp [hsv]) hs
            rw [if_neg (by simp [hs'])] at h
            obtain ⟨h1, h2⟩ := Prod.mk.injEq .. ▸ (Except.ok.injEq .. ▸ h)
            exact ⟨by rw [← h2, hs'], fun hc => absurd hc (by simp [hs'])⟩
  · intro actual r bb ab hbb hac hne
    rw [hac]
    simp only [bentoboxStep, hbb]
    rw [if_neg (by simpa using hne)]
    exact pop_not_mem_openLines bb

/-- Witness for C7 at concrete inputs: switching from bentobox `A` directly
to the different bentobox `B` emits the scope-open pair for `B` and no pop
line anywhere in the step. -/
theorem claim_C7_bentobox_scope_witness :
    popBentoboxLine ∉ (bentoboxStep (some bbA) rBentoB).1 ∧
    ((bentoboxStep (some bbA) rBentoB).1 = ["", setBentoboxLine bbB]
      ∧ (bentoboxStep (some bbA) rBentoB).2 = some bbB) := by
  constructor
  · exact claim_C7_bentobox_scope.2.2.2 (some bbA) rBentoB bbB bbA rfl rfl
      (by decide)
  · exact (claim_C7_bentobox_scope.1 (some bbA) rBentoB bbB rfl).mpr
      (by intro ab hab; injection hab with h2; subst h2; decide)

/-- C7 counterexample: two sibling reports in two different bentoboxes.  The
emitted sequence opens bentobox `A`, then opens bentobox `B`, and the only
pop line of the whole sequence comes at the very end — the first scope is
never closed before the different one is opened, refuting the claim's
closing invariant. -/
theorem claim_C7_counterexample :
    code_gen_tabs_and_other envCG none [rBentoA, rBentoB] [] =
      .ok (["",
            "shimoku_client.plt.set_bentobox(cols_size=4, rows_size=2)",
            "shimoku_client.add_report(FOO, order=0, data=dict())",
            "",
            "shimoku_client.plt.set_bentobox(cols_size=6, rows_size=3)",
            "shimoku_client.add_report(BAR, order=1, data=dict())",
            "shimoku_client.plt.pop_out_of_bentobox()"], none) ∧
    (["",
      "shimoku_client.plt.set_bentobox(cols_size=4, rows_size=2)",
      "shimoku_client.add_report(FOO, order=0, data=dict())",
      "",
      "shimoku_client.plt.set_bentobox(cols_size=6, rows_size=3)",
      "shimoku_client.add_report(BAR, order=1, data=dict())"].contains
        popBentoboxLine) = false := by
  constructor
  · simp [code_gen_tabs_and_other, mergedComponents, pySorted, pyInsert, iLt,
      code_gen_components_loop, code_gen_from_other,
      delete_default_properties, dictIndex, lookupF, pyEq, delHash, eraseF,
      bentoboxStep, dispatchReport, fallbackLine, setBentoboxLine,
      popBentoboxLine, reportParamLines, envCG, rBentoA, rBentoB, bbA, bbB,
      Component.order]
    exact ⟨rfl, rfl, rfl, rfl⟩
  · decide

/-- C8: a report whose type has no serializer branch is emitted as the single
generic `add_report` fallback line carrying its type and order — not an
error — and the sibling loop then continues into the remaining components
from the updated bentobox state, so the unhandled report does not abort
generation for the rest of the node. -/
theorem claim_C8_fallback :
    (∀ (env : CodeGenEnv) (r : TReport) (params : List String)
        (props : List (String × Val)),
      handledReportTypes.contains r.reportType = false →
      dispatchReport env r params props = .ok [fallbackLine r]) ∧
    (∀ (env : CodeGenEnv) (actual : Option BentoboxM) (r : TReport)
        (rest : List Component) (props0 : Val),
      handledReportTypes.contains r.reportType = false →
      delete_default_properties (.vdict r.properties)
          (env.defaultProps r.reportType) = .ok props0 →
      (∃ props, delHash props0 = .ok props) →
      ∃ lines1 actual1,
        code_gen_from_other env actual r rest.isEmpty = .ok (lines1, actual1)
        ∧ fallbackLine r ∈ lines1
        ∧ code_gen_components_loop env actual (.leaf r :: rest)
            = (match code_gen_components_loop env actual1 rest with
               | .error e => .error e
               | .ok (lines2, actual2) => .ok (lines1 ++ lines2, actual2))) := by
  have hdisp : ∀ (env : CodeGenEnv) (r : TReport) (params : List String)
      (props : List (String × Val)),
      handledReportTypes.contains r.reportType = false →
      dispatchReport env r params props = .ok [fallbackLine r] := by
    intro env r params props h
    simp only [handledReportTypes, List.contains_cons, Bool.or_eq_false_iff,
      List.contains_nil] at h
    obtain ⟨h1, h2, h3, h4, h5, h6, h7, h8, h9, _⟩ := h
    simp only [dispatchReport, BEq.comm (a := r.reportType)] at *
    rw [h1, h2, h3, h4, h5, h6, h7, h8, h9]
    rfl
  refine ⟨hdisp, ?_⟩
  intro env actual r rest props0 hu hdel hdh
  obtain ⟨props, hdh⟩ := hdh
  have hco : code_gen_from_other env actual r rest.isEmpty
      = (if rest.isEmpty && (bentoboxStep actual r).2.isSome then
          .ok ((bentoboxStep actual r).1 ++ [fallbackLine r]
                ++ [popBentoboxLine], none)
         else .ok ((bentoboxStep actual r).1 ++ [fallbackLine r],
                (bentoboxStep actual r).2)) := by
    simp only [code_gen_from_other, hdel, hdh, hdisp env r _ props hu]
  by_cases hb : (rest.isEmpty && (bentoboxStep actual r).2.isSome) = true
  · rw [if_pos hb] at hco
    refine ⟨_, _, hco, by simp, ?_⟩
    simp only [code_gen_components_loop, hco]
  · rw [if_neg hb] at hco
    refine ⟨_, _, hco, by simp, ?_⟩
    simp only [code_gen_components_loop, hco]

/-- Witness for C8 at concrete inputs: the unhandled-type report `rBentoA`
is emitted (its fallback line included) and the loop continues into the
remaining sibling. -/
theorem claim_C8_fallback_witness :
    ∃ lines1 actual1,
      code_gen_from_other envCG none rBentoA
          ([Component.leaf rBentoB] : List Component).isEmpty
        = .ok (lines1, actual1)
      ∧ fallbackLine rBentoA ∈ lines1
      ∧ code_gen_components_loop envCG none
            (.leaf rBentoA :: [Component.leaf rBentoB])
          = (match code_gen_components_loop envCG actual1
                [Component.leaf rBentoB] with
             | .error e => .error e
             | .ok (lines2, actual2) => .ok (lines1 ++ lines2, actual2)) :=
  claim_C8_fallback.2 envCG none rBentoA [Component.leaf rBentoB]
    (.vdict [("hash", .vstr "ha")])
    (by decide)
    (by simp [delete_default_properties, dictIndex, lookupF, pyEq, envCG,
          rBentoA])
    ⟨[], by simp [delHash, lookupF, eraseF]⟩

/-! ## Claim C4: shared-data-set classification and emission -/

theorem check_shared_step (rid : String) :
    ∀ (dss : List String) (st : SharedState), dss.Nodup →
      (∀ y, y ∈ st.shared → y ∈ st.seen) →
      ∀ x, (x ∈ (check_for_shared_data_sets st rid dss).shared
              ↔ x ∈ st.shared ∨ (x ∈ st.seen ∧ x ∈ dss))
        ∧ (x ∈ (check_for_shared_data_sets st rid dss).seen
              ↔ x ∈ st.seen ∨ x ∈ dss) := by
  intro dss
  induction dss with
  | nil =>
    intro st _ _ x
    simp [check_for_shared_data_sets]
  | cons ds rest ih =>
    intro st hnd hsub x
    obtain ⟨hds, hnd2⟩ := List.nodup_cons.mp hnd
    by_cases h1 : ds ∈ st.shared
    · have hstep : check_for_shared_data_sets st rid (ds :: rest)
          = check_for_shared_data_sets st rid rest := by
        simp [check_for_shared_data_sets, h1]
      have hIH := ih st hnd2 hsub x
      have hdss : ds ∈ st.seen := hsub ds h1
      rw [hstep]
      refine ⟨hIH.1.trans ?_, hIH.2.trans ?_⟩
      · by_cases hx : x = ds
        · subst hx; simp [h1]
        · simp [hx]
      · by_cases hx : x = ds
        · subst hx; simp [hdss]
        · simp [hx]
    · by_cases h2 : ds ∈ st.seen
      · have hstep : check_for_shared_data_sets st rid (ds :: rest)
            = check_for_shared_data_sets
                { shared := st.shared ++ [ds], seen := st.seen,
                  individual := eraseS st.individual ds } rid rest := by
          simp [check_for_shared_data_sets, h1, h2]
        have hIH := ih ⟨st.shared ++ [ds], st.seen, eraseS st.individual ds⟩
          hnd2 (by
            intro y hy
            rcases List.mem_append.mp hy with hy1 | hy2
            · exact hsub y hy1
            · simp at hy2; subst hy2; exact h2) x
        rw [hstep]
        refine ⟨hIH.1.trans ?_, hIH.2.trans ?_⟩
        · by_cases hx : x = ds
          · subst hx; simp [h2]
          · simp [hx]
        · by_cases hx : x = ds
          · subst hx; simp [h2]
          · simp [hx]
      · have hstep : check_for_shared_data_sets st rid (ds :: rest)
            = check_for_shared_data_sets
                { shared := st.shared, seen := st.seen ++ [ds],
                  individual := setS st.individual ds rid } rid rest := by
          simp [check_for_shared_data_sets, h1, h2]
        have hIH := ih ⟨st.shared, st.seen ++ [ds], setS st.individual ds rid⟩
          hnd2 (by
            intro y hy
            exact List.mem_append.mpr (Or.inl (hsub y hy))) x
        rw [hstep]
        refine ⟨hIH.1.trans ?_, hIH.2.trans ?_⟩
        · by_cases hx : x = ds
          · subst hx; simp [h1, h2, hds]
          · simp [hx]
        · by_cases hx : x = ds
          · subst hx; simp
          · simp [hx]

theorem check_shared_step_nodup (rid : String) :
    ∀ (dss : List String) (st : SharedState), st.shared.Nodup →
      (check_for_shared_data_sets st rid dss).shared.Nodup := by
  intro dss
  induction dss with
  | nil => intro st h; simpa [check_for_shared_data_sets] using h
  | cons ds rest ih =>
    intro st h
    by_cases h1 : ds ∈ st.shared
    · rw [show check_for_shared_data_sets st rid (ds :: rest)
          = check_for_shared_data_sets st rid rest from by
        simp [check_for_shared_data_sets, h1]]
      exact ih st h
    · by_cases h2 : ds ∈ st.seen
      · rw [show check_for_shared_data_sets st rid (ds :: rest)
            = check_for_shared_data_sets
                { shared := st.shared ++ [ds], seen := st.seen,
                  individual := eraseS st.individual ds } rid rest from by
          simp [check_for_shared_data_sets, h1, h2]]
        exact ih _ (by simp [List.nodup_append, h, h1])
      · rw [show check_for_shared_data_sets st rid (ds :: rest)
            = check_for_shared_data_sets
                { shared := st.shared, seen := st.seen ++ [ds],
                  individual := setS st.individual ds rid } rid rest from by
          simp [check_for_shared_data_sets, h1, h2]]
        exact ih _ h

theorem sharedPass_fold_spec :
    ∀ (reports : List (String × List String)) (st : SharedState),
      (∀ p ∈ reports, (p.2 : List String).Nodup) →
      (∀ y, y ∈ st.shared → y ∈ st.seen) →
      ∀ x,
        ((x ∈ (reports.foldl
            (fun st p => check_for_shared_data_sets st p.1 p.2) st).shared
          ↔ x ∈ st.shared
            ∨ (x ∈ st.seen
                ∧ 1 ≤ reports.countP (fun p => p.2.contains x))
            ∨ 2 ≤ reports.countP (fun p => p.2.contains x))
        ∧ (x ∈ (reports.foldl
            (fun st p => check_for_shared_data_sets st p.1 p.2) st).seen
          ↔ x ∈ st.seen
            ∨ 1 ≤ reports.countP (fun p => p.2.contains x))) := by
  intro reports
  induction reports with
  | nil =>
    intro st _ _ x
    simp
  | cons p rest ih =>
    intro st hnd hsub x
    have hp : (p.2 : List String).Nodup := hnd p (by simp)
    have hrest : ∀ q ∈ rest, (q.2 : List String).Nodup := by
      intro q hq; exact hnd q (by simp [hq])
    have hstep := check_shared_step p.1 p.2 st hp hsub
    have hsub2 : ∀ y, y ∈ (check_for_shared_data_sets st p.1 p.2).shared →
        y ∈ (check_for_shared_data_sets st p.1 p.2).seen := by
      intro y hy
      have h1 := (hstep y).1.mp hy
      apply (hstep y).2.mpr
      rcases h1 with h | ⟨h, hm⟩
      · exact Or.inl (hsub y h)
      · exact Or.inl h
    have hIH := ih _ hrest hsub2 x
    have hx1 := (hstep x).1
    have hx2 := (hstep x).2
    rw [List.foldl_cons]
    by_cases hb : p.2.contains x = true
    · have hbm : x ∈ (p.2 : List String) := by simpa using hb
      have hcc : List.countP (fun q => q.2.contains x) (p :: rest)
          = List.countP (fun q => q.2.contains x) rest + 1 := by
        rw [List.countP_cons]; simp only [hb]; rfl
      constructor
      · rw [hIH.1, hx1, hx2, hcc]
        constructor
        · rintro ((h | ⟨h1, h2⟩) | ⟨(h | h), hc⟩ | hc)
          · exact Or.inl h
          · exact Or.inr (Or.inl ⟨h1, by omega⟩)
          · exact Or.inr (Or.inl ⟨h, by omega⟩)
          · exact Or.inr (Or.inr (by omega))
          · exact Or.inr (Or.inr (by omega))
        · rintro (h | ⟨h1, h2⟩ | hc)
          · exact Or.inl (Or.inl h)
          · exact Or.inl (Or.inr ⟨h1, hbm⟩)
          · by_cases hcr : 2 ≤ List.countP (fun q => q.2.contains x) rest
            · exact Or.inr (Or.inr hcr)
            · exact Or.inr (Or.inl ⟨Or.inr hbm, by omega⟩)
      · rw [hIH.2, hx2, hcc]
        constructor
        · rintro ((h | h) | hc)
          · exact Or.inl h
          · exact Or.inr (by omega)
          · exact Or.inr (by omega)
        · rintro (h | hc)
          · exact Or.inl (Or.inl h)
          · by_cases hcr : 1 ≤ List.countP (fun q => q.2.contains x) rest
            · exact Or.inr hcr
            · exact Or.inl (Or.inr hbm)
    · have hbm : x ∉ (p.2 : List String) := by
        intro hc
        exact hb (by simpa using hc)
      have hcc : List.countP (fun q => q.2.contains x) (p :: rest)
          = List.countP (fun q => q.2.contains x) rest := by
        rw [List.countP_cons]; simp only [hb]; rfl
      constructor
      · rw [hIH.1, hx1, hx2, hcc]
        constructor
        · rintro ((h | ⟨h1, h2⟩) | ⟨(h | h), hc⟩ | hc)
          · exact Or.inl h
          · exact absurd h2 hbm
          · exact Or.inr (Or.inl ⟨h, hc⟩)
          · exact absurd h hbm
          · exact Or.inr (Or.inr hc)
        · rintro (h | ⟨h1, h2⟩ | hc)
          · exact Or.inl (Or.inl h)
          · exact Or.inr (Or.inl ⟨Or.inl h1, h2⟩)
          · exact Or.inr (Or.inr hc)
      · rw [hIH.2, hx2, hcc]
        constructor
        · rintro ((h | h) | hc)
          · exact Or.inl h
          · exact absurd h hbm
          · exact Or.inr hc
        · rintro (h | hc)
          · exact Or.inl (Or.inl h)
          · exact Or.inr hc

theorem sharedPass_fold_nodup :
    ∀ (reports : List (String × List String)) (st : SharedState),
      st.shared.Nodup →
      (reports.foldl
        (fun st p => check_for_shared_data_sets st p.1 p.2) st).shared.Nodup := by
  intro reports
  induction reports with
  | nil => intro st h; simpa using h
  | cons p rest ih =>
    intro st h
    rw [List.foldl_cons]
    exact ih _ (check_shared_step_nodup p.1 p.2 st h)

theorem splitShared_eq (env : SharedGenEnv) : ∀ l : List String,
    splitShared env l
      = (l.filter (fun ds => (lookupF env.customData ds).isNone),
         l.filter (fun ds => (lookupF env.customData ds).isSome)) := by
  intro l
  induction l with
  | nil => simp [splitShared]
  | cons ds rest ih =>
    cases hl : lookupF env.customData ds with
    | none => simp [splitShared, ih, hl, List.filter_cons]
    | some v => simp [splitShared, ih, hl, List.filter_cons]

theorem customBlockLines_eq (env : SharedGenEnv) : ∀ l : List String,
    (∀ ds ∈ l, ∃ v, lookupF env.customData ds = some v ∧
        ((∃ d, v = Val.vdict d) ∨ (∃ xs, v = Val.vlist xs))) →
    customBlockLines env l = .ok ((l.map (customEntryLines env)).flatten) := by
  intro l
  induction l with
  | nil => intro _; simp [customBlockLines]
  | cons ds rest ih =>
    intro h
    obtain ⟨v, hv, hdl⟩ := h ds (by simp)
    have hrest := ih (fun q hq => h q (by simp [hq]))
    rcases hdl with ⟨d, rfl⟩ | ⟨xs, rfl⟩
    · simp only [customBlockLines, hv, hrest, customEntryLines,
        List.map_cons, List.flatten]
    · simp only [customBlockLines, hv, hrest, customEntryLines,
        List.map_cons, List.flatten]

/-- C4 (amended): a dataset is classified as shared iff more than one distinct
report references it through report-dataset links (several links from one
report count once, whatever the processing order of the reports), the shared
list holds each shared dataset exactly once, and `set_shared_data` emits —
whenever every stored custom value is a dict or a list — exactly one
`pd.read_csv` entry per non-custom shared dataset and exactly one literal
block per custom shared dataset; but a shared dataset with stored custom
data makes every echarts report referencing it emit nothing at all (see the
counterexample), so shared datasets are not always referenced by name by
their referencing reports. -/
theorem claim_C4_shared_data_sets :
    (∀ (reports : List (String × List String)),
      (∀ p ∈ reports, (p.2 : List String).Nodup) →
      (∀ x, x ∈ (sharedPass reports).shared
          ↔ 2 ≤ reports.countP (fun p => p.2.contains x))
      ∧ (sharedPass reports).shared.Nodup) ∧
    (∀ (env : SharedGenEnv) (shared : List String),
      (∀ ds ∈ shared, ∀ v, lookupF env.customData ds = some v →
        (∃ d, v = Val.vdict d) ∨ (∃ xs, v = Val.vlist xs)) →
      (shared.Nodup →
        (shared.filter (fun ds => (lookupF env.customData ds).isNone)).Nodup
        ∧ (shared.filter
            (fun ds => (lookupF env.customData ds).isSome)).Nodup) ∧
      code_gen_shared_data_sets env shared = .ok (
        (fun dfs custom =>
          if dfs.length > 0 || custom.length > 0 then
            [""] ++ ["shimoku_client.plt.set_shared_data("]
            ++ (if dfs.length > 0 then
                  ["    dfs=\x7b"] ++ dfs.map (dfEntryLine env)
                    ++ ["    \x7d,"]
                else [])
            ++ (if custom.length > 0 then
                  ["    custom_data=\x7b"]
                    ++ (custom.map (customEntryLines env)).flatten
                    ++ ["    \x7d,"]
                else [])
            ++ [")"]
          else [])
        (shared.filter (fun ds => (lookupF env.customData ds).isNone))
        (shared.filter (fun ds => (lookupF env.customData ds).isSome)))) := by
  constructor
  · intro reports hnd
    constructor
    · intro x
      have h := (sharedPass_fold_spec reports ⟨[], [], []⟩ hnd
        (by intro y hy; simp at hy) x).1
      rw [sharedPass, h]
      simp
    · exact sharedPass_fold_nodup reports ⟨[], [], []⟩ (by simp)
  · intro env shared hcv
    constructor
    · intro hnd
      exact ⟨hnd.filter _, hnd.filter _⟩
    · have hsplit := splitShared_eq env shared
      have hcb : customBlockLines env
          (shared.filter (fun ds => (lookupF env.customData ds).isSome))
          = .ok (((shared.filter
              (fun ds => (lookupF env.customData ds).isSome)).map
                (customEntryLines env)).flatten) := by
        apply customBlockLines_eq
        intro ds hds
        have hm := List.mem_filter.mp hds
        obtain ⟨v, hv⟩ := Option.isSome_iff_exists.mp (by simpa using hm.2)
        exact ⟨v, hv, hcv ds hm.1 v hv⟩
      simp only [code_gen_shared_data_sets, hsplit, hcb]
      by_cases h1 : (shared.filter
          (fun ds => (lookupF env.customData ds).isNone)).length > 0 <;>
        by_cases h2 : (shared.filter
          (fun ds => (lookupF env.customData ds).isSome)).length > 0 <;>
        simp [h1, h2]

/-- C4 counterexample: dataset `d1` is referenced by the two distinct reports
`r1` and `r2`, so it is classified as shared; it carries stored custom data,
so `set_shared_data` emits it once as a literal block — but
`code_gen_from_echarts` returns `[]` for a referencing report: the shared
dataset is NOT referenced by name by its referencing reports, refuting the
claim's `referenced by name by each of the N referencing reports`. -/
theorem claim_C4_counterexample :
    (sharedPass [("r1", ["d1"]), ("r2", ["d1"])]).shared = ["d1"] ∧
    (lookupF envC4.customData "d1").isSome = true ∧
    code_gen_from_echarts envC4 ["d1"] [] (some "d1") "r" "h" [] [] = [] ∧
    code_gen_shared_data_sets envC4 ["d1"] =
      .ok ["", "shimoku_client.plt.set_shared_data(",
           "    custom_data=\x7b",
           "        \"DS1\": [",
           "            1,",
           "        ],",
           "    \x7d,", ")"] := by
  refine ⟨by decide, by decide, by rfl, ?_⟩
  simp [code_gen_shared_data_sets, splitShared, customBlockLines, envC4,
    lookupF, code_gen_from_list, cglItems, code_gen_value, spaces,
    dfEntryLine]
  exact ⟨rfl, rfl⟩

/-- Witness for C4 at concrete inputs: the classification iff at `d1` and the
emission closed form at the one-dataset shared list. -/
theorem claim_C4_shared_data_sets_witness :
    (("d1" ∈ (sharedPass [("r1", ["d1"]), ("r2", ["d1"])]).shared)
      ↔ 2 ≤ List.countP (fun p => p.2.contains "d1")
          [("r1", ["d1"]), ("r2", ["d1"])]) ∧
    code_gen_shared_data_sets envC4 ["d1"] = .ok (
      (fun dfs custom =>
        if dfs.length > 0 || custom.length > 0 then
          [""] ++ ["shimoku_client.plt.set_shared_data("]
          ++ (if dfs.length > 0 then
                ["    dfs=\x7b"] ++ dfs.map (dfEntryLine envC4)
                  ++ ["    \x7d,"]
              else [])
          ++ (if custom.length > 0 then
                ["    custom_data=\x7b"]
                  ++ (custom.map (customEntryLines envC4)).flatten
                  ++ ["    \x7d,"]
              else [])
          ++ [")"]
        else [])
      (["d1"].filter (fun ds => (lookupF envC4.customData ds).isNone))
      (["d1"].filter (fun ds => (lookupF envC4.customData ds).isSome))) := by
  constructor
  · exact (claim_C4_shared_data_sets.1 [("r1", ["d1"]), ("r2", ["d1"])]
      (by decide)).1 "d1"
  · refine (claim_C4_shared_data_sets.2 envC4 ["d1"] ?_).2
    intro ds hds v hv
    simp at hds
    subst hds
    have hv2 : some (Val.vlist [Val.vint 1]) = some v := hv
    injection hv2 with h
    exact Or.inr ⟨[Val.vint 1], h.symm⟩

/-! ## Claim C2: every report in exactly one tree position -/

/-- C2 counterexample: the leaf `x` is fetched before the modal `m` that
references it (all referenced child ids exist), and the built tree holds the
id `x` in TWO positions — as a top-level leaf of path `"p"` and as a leaf
inside the modal: the `seen` set cannot retract the already-emitted
top-level copy. -/
theorem claim_C2_counterexample :
    generate_tree envC2 3 envC2
      = .ok [("p", ⟨[⟨rModalC2, [], [rLeafC2]⟩], [], [rLeafC2]⟩)] ∧
    (∀ r ∈ envC2, ∀ y ∈ childIdsU r, y ∈ ridsOf envC2) ∧
    countTree "x"
      [("p", ⟨[⟨rModalC2, [], [rLeafC2]⟩], [], [rLeafC2]⟩)] = 2 := by
  refine ⟨?_, ?_, ?_⟩
  · simp [generate_tree, generate_tree_loop, envC2, rLeafC2, rModalC2,
      tree_from_modal, processModalChildren, get_report, seenAdd, treeUpd,
      emptyPathTree, pySorted, pyInsert, iLt]
  · intro r hr y hy
    simp [envC2, rLeafC2, rModalC2, childIdsU, ridsOf] at hr hy ⊢
    rcases hr with rfl | rfl <;> simp_all
  · simp [countTree, countPath, countModal, countTGL, rModalC2, rLeafC2]

theorem seenAdd_mem (s : List String) (c y : String) :
    y ∈ seenAdd s c ↔ y ∈ s ∨ y = c := by
  by_cases h : c ∈ s
  · simp only [seenAdd]
    rw [if_pos (by simpa using h)]
    constructor
    · exact fun hy => Or.inl hy
    · rintro (hy | rfl)
      · exact hy
      · exact h
  · simp only [seenAdd]
    rw [if_neg (by simpa using h)]
    simp [or_comm]

theorem countTGL_eq_sum (x : String) : ∀ l : List TabsGroupNode,
    countTGL x l = (l.map (countTG x)).sum := by
  intro l
  induction l with
  | nil => simp [countTGL]
  | cons tg rest ih => simp [countTGL, ih]

theorem countTGL_perm (x : String) {l1 l2 : List TabsGroupNode}
    (h : List.Perm l1 l2) : countTGL x l1 = countTGL x l2 := by
  rw [countTGL_eq_sum, countTGL_eq_sum]
  exact (h.map (countTG x)).sum_eq

theorem countTabs_append (x : String) (a b : List (String × TabNode)) :
    countTabs x (a ++ b) = countTabs x a + countTabs x b := by
  induction a with
  | nil => simp [countTabs]
  | cons p rest ih => simp [countTabs, ih]; omega

theorem get_report_rid (env : List TReport) (c : String) (r : TReport)
    (h : get_report env c = .ok r) : r.rid = c ∧ r ∈ env := by
  unfold get_report at h
  cases hf : env.find? (fun q => q.rid == c) with
  | none => rw [hf] at h; simp at h
  | some r2 =>
    rw [hf] at h
    have hr2 : r2 = r := by injection h
    subst hr2
    exact ⟨by simpa using List.find?_some hf, List.mem_of_find?_eq_some hf⟩

/-- The builder agrees with its fetch trace: on success, the new seen set is
the old one extended by the fetched ids, and the positions of an id in the
built node are one for the root plus one per fetch of that id. -/
theorem builder_spec (env : List TReport) :
    ∀ fuel : Nat,
      ∀ (r : TReport) (seen : List String) (p : Option (String × String))
        (node : TabsGroupNode) (seen1 : List String),
        tree_from_tabs_group env fuel r seen p = .ok (node, seen1) →
        (∀ y, y ∈ seen1 ↔ y ∈ seen ∨ y ∈ specFTG env fuel r) ∧
        (∀ x, countTG x node
          = (if r.rid = x then 1 else 0) + (specFTG env fuel r).count x) := by
  intro fuel
  induction fuel using Nat.strong_induction_on with
  | _ fuel IH =>
  have hChild : ∀ (tabsGroup : TReport) (tab : String) (ids : List String)
      (seen : List String) (tgs : List TabsGroupNode) (others : List TReport)
      (seen1 : List String),
      processChildren env fuel tabsGroup tab ids seen
        = .ok (tgs, others, seen1) →
      (∀ y, y ∈ seen1 ↔ y ∈ seen ∨ y ∈ specFChildren env fuel ids) ∧
      (∀ x, countTGL x tgs + others.countP (fun q => q.rid == x)
          = (specFChildren env fuel ids).count x) := by
    intro tabsGroup tab ids
    induction ids with
    | nil =>
      intro seen tgs others seen1 h
      simp [processChildren] at h
      obtain ⟨rfl, rfl, rfl⟩ := h
      constructor
      · intro y; simp [specFChildren]
      · intro x; simp [countTGL, specFChildren]
    | cons childId rest ihL =>
      intro seen tgs others seen1 h
      cases hgr : get_report env childId with
      | error e => simp [processChildren, hgr] at h
      | ok child =>
        obtain ⟨hrid, hmem⟩ := get_report_rid env childId child hgr
        by_cases hT : (child.reportType == "TABS") = true
        · cases fuel with
          | zero => simp [processChildren, hgr, hT] at h
          | succ fuel2 =>
            cases htg : tree_from_tabs_group env fuel2 child
                (seenAdd seen childId) (some (tabsGroup.hash, tab)) with
            | error e => simp [processChildren, hgr, hT, htg] at h
            | ok pr =>
              obtain ⟨nodeC, seenC⟩ := pr
              cases hrest : processChildren env (fuel2 + 1) tabsGroup tab
                  rest seenC with
              | error e => simp [processChildren, hgr, hT, htg, hrest] at h
              | ok pr2 =>
                obtain ⟨tgsR, othersR, seen2⟩ := pr2
                have h2 : (Except.ok (nodeC :: tgsR, othersR, seen2)
                    : Except PErr (List TabsGroupNode × List TReport
                        × List String))
                    = .ok (tgs, others, seen1) := by
                  rw [← h]
                  simp [processChildren, hgr, hT, htg, hrest]
                simp only [Except.ok.injEq, Prod.mk.injEq] at h2
                obtain ⟨rfl, rfl, rfl⟩ := h2
                have hTGs := IH fuel2 (by omega) child (seenAdd seen childId)
                  (some (tabsGroup.hash, tab)) nodeC seenC htg
                have hRest := ihL seenC tgsR othersR seen2 hrest
                have hspec : specFChildren env (fuel2 + 1) (childId :: rest)
                    = childId :: (specFTG env fuel2 child
                        ++ specFChildren env (fuel2 + 1) rest) := by
                  simp [specFChildren, hgr, hT]
                constructor
                · intro y
                  rw [hRest.1 y, hTGs.1 y, seenAdd_mem, hspec]
                  simp only [List.mem_cons, List.mem_append]
                  tauto
                · intro x
                  have e1 := hTGs.2 x
                  have e2 := hRest.2 x
                  rw [hrid] at e1
                  simp only [countTGL]
                  rw [hspec, List.count_cons, List.count_append]
                  have hif : (if (childId == x) = true then 1 else 0)
                      = (if childId = x then 1 else 0) := by
                    by_cases hcx : childId = x <;> simp [hcx]
                  omega
        · cases hrest : processChildren env fuel tabsGroup tab rest
              (seenAdd seen childId) with
          | error e => simp [processChildren, hgr, hT, hrest] at h
          | ok pr2 =>
            obtain ⟨tgsR, othersR, seen2⟩ := pr2
            have h2 : (Except.ok (tgsR, child :: othersR, seen2)
                : Except PErr (List TabsGroupNode × List TReport
                    × List String))
                = .ok (tgs, others, seen1) := by
              rw [← h]
              simp [processChildren, hgr, hT, hrest]
            simp only [Except.ok.injEq, Prod.mk.injEq] at h2
            obtain ⟨rfl, rfl, rfl⟩ := h2
            have hRest := ihL (seenAdd seen childId) tgsR othersR seen2 hrest
            have hspec : specFChildren env fuel (childId :: rest)
                = childId :: specFChildren env fuel rest := by
              simp [specFChildren, hgr, hT]
            constructor
            · intro y
              rw [hRest.1 y, seenAdd_mem, hspec]
              simp only [List.mem_cons]
              tauto
            · intro x
              have e2 := hRest.2 x
              rw [hspec, List.count_cons]
              simp only [List.countP_cons]
              have hb : (child.rid == x) = (childId == x) := by
                rw [hrid]
              rw [hb]
              omega
  have hTabs : ∀ (tabsGroup : TReport)
      (tabs : List (String × Int × List String)) (seen : List String)
      (nodes : List (String × TabNode)) (seen1 : List String),
      processTabs env fuel tabsGroup tabs seen = .ok (nodes, seen1) →
      (∀ y, y ∈ seen1 ↔ y ∈ seen ∨ y ∈ specFTabs env fuel tabs) ∧
      (∀ x, countTabs x nodes = (specFTabs env fuel tabs).count x) := by
    intro tabsGroup tabs
    induction tabs with
    | nil =>
      intro seen nodes seen1 h
      simp [processTabs] at h
      obtain ⟨rfl, rfl⟩ := h
      constructor
      · intro y; simp [specFTabs]
      · intro x; simp [countTabs, specFTabs]
    | cons tabE rest ihT =>
      obtain ⟨tab, tabOrd, reportIds⟩ := tabE
      intro seen nodes seen1 h
      cases hch : processChildren env fuel tabsGroup tab reportIds seen with
      | error e => simp [processTabs, hch] at h
      | ok pr =>
        obtain ⟨tgs, others, seenA⟩ := pr
        cases hrest : processTabs env fuel tabsGroup rest seenA with
        | error e => simp [processTabs, hch, hrest] at h
        | ok pr2 =>
          obtain ⟨nodesR, seen2⟩ := pr2
          have h2 : (Except.ok ((tab, TabNode.mk
              (pySorted (fun a b => iLt a.tabsGroup.order b.tabsGroup.order)
                tgs)
              (pySorted (fun a b => iLt a.order b.order) others)) :: nodesR,
              seen2)
              : Except PErr (List (String × TabNode) × List String))
              = .ok (nodes, seen1) := by
            rw [← h]
            simp [processTabs, hch, hrest]
          simp only [Except.ok.injEq, Prod.mk.injEq] at h2
          obtain ⟨rfl, rfl⟩ := h2
          have hC := hChild tabsGroup tab reportIds seen tgs others seenA hch
          have hR := ihT seenA nodesR seen2 hrest
          constructor
          · intro y
            rw [hR.1 y, hC.1 y]
            simp only [specFTabs, List.mem_append]
            tauto
          · intro x
            simp only [countTabs, countTab, specFTabs]
            rw [List.count_append]
            have e1 := hC.2 x
            have e2 := hR.2 x
            have hp1 : countTGL x (pySorted
                (fun a b => iLt a.tabsGroup.order b.tabsGroup.order) tgs)
                = countTGL x tgs :=
              countTGL_perm x (pySorted_perm _ tgs)
            have hp2 : (pySorted (fun a b => iLt a.order b.order)
                others).countP (fun q => q.rid == x)
                = others.countP (fun q => q.rid == x) :=
              (pySorted_perm _ others).countP_eq _
            simp only [List.count] at e1 e2 ⊢
            omega
  intro r seen p node seen1 h
  cases hpt : processTabs env fuel r
      (pySorted (fun a b => iLt a.2.1 b.2.1) r.tabs) seen with
  | error e => simp [tree_from_tabs_group, hpt] at h
  | ok pr =>
    obtain ⟨tabNodes, seenA⟩ := pr
    have h2 : (Except.ok (TabsGroupNode.mk r tabNodes r.order p, seenA)
        : Except PErr (TabsGroupNode × List String))
        = .ok (node, seen1) := by
      rw [← h]
      simp [tree_from_tabs_group, hpt]
    simp only [Except.ok.injEq, Prod.mk.injEq] at h2
    obtain ⟨rfl, rfl⟩ := h2
    have hT := hTabs r _ seen tabNodes seenA hpt
    constructor
    · intro y
      rw [hT.1 y]
      simp only [specFTG]
    · intro x
      simp only [countTG, specFTG]
      rw [hT.2 x]

/-- The modal child loop agrees with its fetch trace. -/
theorem modal_children_spec (env : List TReport) (fuel : Nat) :
    ∀ (ids : List String) (seen : List String) (tgs : List TabsGroupNode)
      (others : List TReport) (seen1 : List String),
      processModalChildren env fuel ids seen = .ok (tgs, others, seen1) →
      (∀ y, y ∈ seen1 ↔ y ∈ seen ∨ y ∈ specFChildren env fuel ids) ∧
      (∀ x, countTGL x tgs + others.countP (fun q => q.rid == x)
          = (specFChildren env fuel ids).count x) := by
  intro ids
  induction ids with
  | nil =>
    intro seen tgs others seen1 h
    simp [processModalChildren] at h
    obtain ⟨rfl, rfl, rfl⟩ := h
    exact ⟨fun y => by simp [specFChildren], fun x => by
      simp [countTGL, specFChildren]⟩
  | cons childId rest ihL =>
    intro seen tgs others seen1 h
    cases hgr : get_report env childId with
    | error e => simp [processModalChildren, hgr] at h
    | ok child =>
      obtain ⟨hrid, hmem⟩ := get_report_rid env childId child hgr
      by_cases hT : (child.reportType == "TABS") = true
      · cases fuel with
        | zero => simp [processModalChildren, hgr, hT] at h
        | succ fuel2 =>
          cases htg : tree_from_tabs_group env fuel2 child
              (seenAdd seen childId) none with
          | error e => simp [processModalChildren, hgr, hT, htg] at h
          | ok pr =>
            obtain ⟨nodeC, seenC⟩ := pr
            cases hrest : processModalChildren env (fuel2 + 1) rest seenC with
            | error e =>
              simp [processModalChildren, hgr, hT, htg, hrest] at h
            | ok pr2 =>
              obtain ⟨tgsR, othersR, seen2⟩ := pr2
              have h2 : (Except.ok (nodeC :: tgsR, othersR, seen2)
                  : Except PErr (List TabsGroupNode × List TReport
                      × List String))
                  = .ok (tgs, others, seen1) := by
                rw [← h]
                simp [processModalChildren, hgr, hT, htg, hrest]
              simp only [Except.ok.injEq, Prod.mk.injEq] at h2
              obtain ⟨rfl, rfl, rfl⟩ := h2
              have hTGs := builder_spec env fuel2 child (seenAdd seen childId)
                none nodeC seenC htg
              have hRest := ihL seenC tgsR othersR seen2 hrest
              have hspec : specFChildren env (fuel2 + 1) (childId :: rest)
                  = childId :: (specFTG env fuel2 child
                      ++ specFChildren env (fuel2 + 1) rest) := by
                simp [specFChildren, hgr, hT]
              constructor
              · intro y
                rw [hRest.1 y, hTGs.1 y, seenAdd_mem, hspec]
                simp only [List.mem_cons, List.mem_append]
                tauto
              · intro x
                have e1 := hTGs.2 x
                have e2 := hRest.2 x
                rw [hrid] at e1
                simp only [countTGL]
                rw [hspec, List.count_cons, List.count_append]
                have hif : (if (childId == x) = true then 1 else 0)
                    = (if childId = x then 1 else 0) := by
                  by_cases hcx : childId = x <;> simp [hcx]
                omega
      · cases hrest : processModalChildren env fuel rest
            (seenAdd seen childId) with
        | error e => simp [processModalChildren, hgr, hT, hrest] at h
        | ok pr2 =>
          obtain ⟨tgsR, othersR, seen2⟩ := pr2
          have h2 : (Except.ok (tgsR, child :: othersR, seen2)
              : Except PErr (List TabsGroupNode × List TReport
                  × List String))
              = .ok (tgs, others, seen1) := by
            rw [← h]
            simp [processModalChildren, hgr, hT, hrest]
          simp only [Except.ok.injEq, Prod.mk.injEq] at h2
          obtain ⟨rfl, rfl, rfl⟩ := h2
          have hRest := ihL (seenAdd seen childId) tgsR othersR seen2 hrest
          have hspec : specFChildren env fuel (childId :: rest)
              = childId :: specFChildren env fuel rest := by
            simp [specFChildren, hgr, hT]
          constructor
          · intro y
            rw [hRest.1 y, seenAdd_mem, hspec]
            simp only [List.mem_cons]
            tauto
          · intro x
            have e2 := hRest.2 x
            rw [hspec, List.count_cons]
            simp only [List.countP_cons]
            have hb : (child.rid == x) = (childId == x) := by rw [hrid]
            rw [hb]
            omega

/-- `tree_from_modal` agrees with its fetch trace. -/
theorem tree_from_modal_spec (env : List TReport) (fuel : Nat)
    (modal : TReport) (seen : List String) (node : ModalNode)
    (seen1 : List String)
    (h : tree_from_modal env fuel modal seen = .ok (node, seen1)) :
    (∀ y, y ∈ seen1 ↔ y ∈ seen
        ∨ y ∈ specFChildren env fuel modal.reportIds) ∧
    (∀ x, countModal x node = (if modal.rid = x then 1 else 0)
        + (specFChildren env fuel modal.reportIds).count x) := by
  cases hch : processModalChildren env fuel modal.reportIds seen with
  | error e => simp [tree_from_modal, hch] at h
  | ok pr =>
    obtain ⟨tgs, others, seenA⟩ := pr
    have h2 : (Except.ok (⟨modal,
        pySorted (fun a b => iLt a.tabsGroup.order b.tabsGroup.order) tgs,
        pySorted (fun a b => iLt a.order b.order) others⟩, seenA)
        : Except PErr (ModalNode × List String)) = .ok (node, seen1) := by
      rw [← h]
      simp [tree_from_modal, hch]
    simp only [Except.ok.injEq, Prod.mk.injEq] at h2
    obtain ⟨rfl, rfl⟩ := h2
    have hC := modal_children_spec env fuel modal.reportIds seen tgs others
      seenA hch
    constructor
    · exact hC.1
    · intro x
      have e1 := hC.2 x
      have hp1 : countTGL x (pySorted
          (fun a b => iLt a.tabsGroup.order b.tabsGroup.order) tgs)
          = countTGL x tgs := countTGL_perm x (pySorted_perm _ tgs)
      have hp2 : (pySorted (fun a b => iLt a.order b.order)
          others).countP (fun q => q.rid == x)
          = others.countP (fun q => q.rid == x) :=
        (pySorted_perm _ others).countP_eq _
      simp only [countModal]
      omega

/-- Updating one path's entry changes the tree count by the entry delta. -/
theorem countTree_upd (x : String) (p : String) (f : PathTree → PathTree)
    (d : Nat) (hf : ∀ pt, countPath x (f pt) = countPath x pt + d) :
    ∀ t : List (String × PathTree),
      countTree x (treeUpd t p f) = countTree x t + d := by
  intro t
  induction t with
  | nil =>
    simp only [treeUpd, countTree, List.map_cons, List.map_nil,
      List.sum_cons, List.sum_nil]
    rw [hf emptyPathTree]
    simp [countPath, emptyPathTree, countTGL]
  | cons pv rest ih =>
    obtain ⟨q, v⟩ := pv
    by_cases hq : q = p
    · subst hq
      simp [treeUpd, countTree, hf v]
      omega
    · simp only [treeUpd, if_neg hq]
      simp only [countTree, List.map_cons, List.sum_cons] at ih ⊢
      omega

theorem rid_inj (reports : List TReport)
    (H1 : (ridsOf reports).Nodup) :
    ∀ a ∈ reports, ∀ b ∈ reports, a.rid = b.rid → a = b := by
  induction reports with
  | nil => intro a ha; simp at ha
  | cons r rest ih =>
    have hr : r.rid ∉ ridsOf rest := by
      simp only [ridsOf, List.map_cons] at H1
      exact (List.nodup_cons.mp H1).1
    have hnd : (ridsOf rest).Nodup := by
      simp only [ridsOf, List.map_cons] at H1
      exact (List.nodup_cons.mp H1).2
    intro a ha b hb hab
    rcases List.mem_cons.mp ha with rfl | ha2
    · rcases List.mem_cons.mp hb with rfl | hb2
      · rfl
      · exact absurd (hab ▸ List.mem_map_of_mem TReport.rid hb2) hr
    · rcases List.mem_cons.mp hb with rfl | hb2
      · exact absurd (hab ▸ List.mem_map_of_mem TReport.rid ha2) hr
      · exact ih hnd a ha2 b hb2 hab

theorem get_report_unique (env : List TReport)
    (H1 : (ridsOf env).Nodup) (z : String) (c : TReport)
    (hc : c ∈ env) (hz : c.rid = z) : get_report env z = .ok c := by
  cases hf : env.find? (fun q => q.rid == z) with
  | none =>
    exfalso
    have h2 := List.find?_eq_none.mp hf c hc
    simp [hz] at h2
  | some c2 =>
    have h1 : c2.rid = z := by simpa using List.find?_some hf
    have h2 : c2 ∈ env := List.mem_of_find?_eq_some hf
    have : c2 = c := rid_inj env H1 c2 h2 c hc (h1.trans hz.symm)
    subst this
    simp [get_report, hf]

theorem ridsOf_suffix_nodup (env rem : List TReport)
    (H1 : (ridsOf env).Nodup) (h : rem.IsSuffix env) :
    (ridsOf rem).Nodup :=
  H1.sublist (List.IsSuffix.sublist (h.map TReport.rid))

theorem ridsOf_suffix_subset (a b : List TReport) (h : a.IsSuffix b) :
    ∀ y ∈ ridsOf a, y ∈ ridsOf b := by
  intro y hy
  exact List.IsSuffix.subset (h.map TReport.rid) hy

/-- Decompose the environment at a report whose id occurs in a suffix. -/
theorem suffix_mem_decomp (env post : List TReport)
    (H1 : (ridsOf env).Nodup) (hsuf : post.IsSuffix env) (z : String)
    (hz : z ∈ ridsOf post) :
    ∃ (c : TReport) (post2 : List TReport),
      get_report env z = .ok c ∧ c.rid = z ∧
      post2.IsSuffix post ∧ (∃ pre2, env = pre2 ++ c :: post2) := by
  obtain ⟨c, hc, hcz⟩ := List.mem_map.mp hz
  obtain ⟨a, b, hab⟩ := List.append_of_mem hc
  obtain ⟨pre0, hpre0⟩ := hsuf
  have hcenv : c ∈ env := by
    rw [← hpre0, hab]; simp
  refine ⟨c, b, get_report_unique env H1 z c hcenv hcz, hcz,
    ⟨a ++ [c], by rw [hab]; simp⟩, ⟨pre0 ++ a, ?_⟩⟩
  rw [← hpre0, hab]
  simp

theorem specFChildren_cons (env : List TReport) (fuel : Nat) (z : String)
    (rest : List String) :
    specFChildren env fuel (z :: rest)
      = z :: (nestF env fuel z ++ specFChildren env fuel rest) := by
  cases hgr : get_report env z <;> simp [specFChildren, nestF, hgr]

/-- Every id fetched during an expansion occurs strictly after the expanded
report in the report list (and in particular exists). -/
theorem specF_suffix (env : List TReport) (H1 : (ridsOf env).Nodup)
    (HF : refsForward env) :
    ∀ fuel : Nat,
      (∀ (post : List TReport), post.IsSuffix env →
        ∀ (ids : List String), (∀ z ∈ ids, z ∈ ridsOf post) →
        ∀ y ∈ specFChildren env fuel ids, y ∈ ridsOf post) ∧
      (∀ (post : List TReport), post.IsSuffix env →
        ∀ (tabs : List (String × Int × List String)),
        (∀ t ∈ tabs, ∀ z ∈ t.2.2, z ∈ ridsOf post) →
        ∀ y ∈ specFTabs env fuel tabs, y ∈ ridsOf post) ∧
      (∀ (r : TReport) (pre post : List TReport), env = pre ++ r :: post →
        (r.reportType == "TABS") = true →
        ∀ y ∈ specFTG env fuel r, y ∈ ridsOf post) := by
  intro fuel
  induction fuel using Nat.strong_induction_on with
  | _ fuel IH =>
  have hA : ∀ post, post.IsSuffix env →
      ∀ ids, (∀ z ∈ ids, z ∈ ridsOf post) →
      ∀ y ∈ specFChildren env fuel ids, y ∈ ridsOf post := by
    intro post hsuf ids
    induction ids with
    | nil =>
      intro _ y hy
      simp [specFChildren] at hy
    | cons z rest ihL =>
      intro hz y hy
      rw [specFChildren_cons] at hy
      rcases List.mem_cons.mp hy with rfl | hy2
      · exact hz y (by simp)
      · rcases List.mem_append.mp hy2 with hyn | hyr
        · unfold nestF at hyn
          cases hgr : get_report env z with
          | error e => rw [hgr] at hyn; simp at hyn
          | ok child =>
            rw [hgr] at hyn
            dsimp only at hyn
            by_cases hT : (child.reportType == "TABS") = true
            · rw [if_pos hT] at hyn
              cases fuel with
              | zero => simp at hyn
              | succ fuel2 =>
                obtain ⟨c, post2, hgr2, hcz, hsuf2, pre2, hdec⟩ :=
                  suffix_mem_decomp env post H1 hsuf z (hz z (by simp))
                rw [hgr] at hgr2
                have hcc : child = c := by injection hgr2
                subst hcc
                have hy3 := (IH fuel2 (by omega)).2.2 child pre2 post2
                  hdec hT y hyn
                exact ridsOf_suffix_subset post2 post hsuf2 y hy3
            · rw [if_neg hT] at hyn
              simp at hyn
        · exact ihL (fun w hw => hz w (by simp [hw])) y hyr
  have hB : ∀ post, post.IsSuffix env →
      ∀ tabs, (∀ t ∈ tabs, ∀ z ∈ t.2.2, z ∈ ridsOf post) →
      ∀ y ∈ specFTabs env fuel tabs, y ∈ ridsOf post := by
    intro post hsuf tabs
    induction tabs with
    | nil =>
      intro _ y hy
      simp [specFTabs] at hy
    | cons tabE rest ihT =>
      obtain ⟨tab, tabOrd, reportIds⟩ := tabE
      intro hz y hy
      have hstep : specFTabs env fuel ((tab, tabOrd, reportIds) :: rest)
          = specFChildren env fuel reportIds ++ specFTabs env fuel rest := by
        simp [specFTabs]
      rw [hstep] at hy
      rcases List.mem_append.mp hy with hy1 | hy2
      · exact hA post hsuf reportIds
          (fun z hzz => hz (tab, tabOrd, reportIds) (by simp) z hzz) y hy1
      · exact ihT (fun t ht z hzz => hz t (by simp [ht]) z hzz) y hy2
  refine ⟨hA, hB, ?_⟩
  intro r pre post hdec hTT y hy
  have hsuf : post.IsSuffix env := ⟨pre ++ [r], by rw [hdec]; simp⟩
  have hchild : ∀ z ∈ childIdsU r, z ∈ ridsOf post := HF pre r post hdec
  have hy2 : y ∈ specFTabs env fuel
      (pySorted (fun a b => iLt a.2.1 b.2.1) r.tabs) := by
    simpa [specFTG] using hy
  refine hB post hsuf _ ?_ y hy2
  intro t ht z hz
  have ht2 : t ∈ r.tabs := (pySorted_perm _ r.tabs).mem_iff.mp ht
  apply hchild
  have hM : (r.reportType == "MODAL") = false := by
    have : r.reportType = "TABS" := by simpa using hTT
    simp [this]
  simp only [childIdsU, hM, hTT, if_pos, Bool.false_eq_true, if_false]
  exact List.mem_join.mpr ⟨t.2.2, List.mem_map_of_mem (fun t => t.2.2) ht2,
    hz⟩

/-- Every id fetched while the loop expands a top-level report occurs
strictly after it in the report list. -/
theorem specFRoot_suffix (env : List TReport) (H1 : (ridsOf env).Nodup)
    (HF : refsForward env) (fuel : Nat) (r : TReport)
    (pre post : List TReport) (hdec : env = pre ++ r :: post) :
    ∀ y ∈ specFRoot env fuel r, y ∈ ridsOf post := by
  intro y hy
  by_cases hM : (r.reportType == "MODAL") = true
  · have hsuf : post.IsSuffix env := ⟨pre ++ [r], by rw [hdec]; simp⟩
    refine (specF_suffix env H1 HF fuel).1 post hsuf r.reportIds ?_ y ?_
    · intro z hz
      have := HF pre r post hdec z
      simp only [childIdsU, hM, if_pos] at this
      exact this hz
    · simpa [specFRoot, hM] using hy
  · by_cases hT : (r.reportType == "TABS") = true
    · refine (specF_suffix env H1 HF fuel).2.2 r pre post hdec hT y ?_
      simpa [specFRoot, hM, hT] using hy
    · simp [specFRoot, hM, hT] at hy

theorem ifBeq (a x : String) :
    (if (a == x) = true then 1 else 0) = (if a = x then 1 else 0) := by
  by_cases h : a = x <;> simp [h]

theorem countTGL_append (x : String) (a b : List TabsGroupNode) :
    countTGL x (a ++ b) = countTGL x a + countTGL x b := by
  simp [countTGL_eq_sum]

theorem countPath_add_modal (x : String) (node : ModalNode) (pt : PathTree) :
    countPath x { pt with modals := pt.modals ++ [node] }
      = countPath x pt + countModal x node := by
  simp [countPath]
  omega

theorem countPath_add_tg (x : String) (node : TabsGroupNode)
    (pt : PathTree) :
    countPath x { pt with tabGroups := pt.tabGroups ++ [node] }
      = countPath x pt + countTG x node := by
  simp [countPath, countTGL_append, countTGL]
  omega

theorem countPath_add_leaf (x : String) (r : TReport) (pt : PathTree) :
    countPath x { pt with other := pt.other ++ [r] }
      = countPath x pt + (if r.rid = x then 1 else 0) := by
  simp only [countPath, List.countP_append]
  have : List.countP (fun q => q.rid == x) [r]
      = (if r.rid = x then 1 else 0) := by
    simp only [List.countP_cons, List.countP_nil]
    rw [← ifBeq]
    simp
  omega

/-- The accounting of the whole `generate_tree` loop: on success the final
seen set is the prior fetch list plus the new fetches, the tree count of an
id grows by its top-level emissions plus its fetches, top-level-emitted ids
and expanded roots are never fetched, every remaining id not previously
fetched ends up emitted or fetched, and all new fetches point strictly past
the first remaining report. -/
theorem loop_spec (env : List TReport) (fuel : Nat)
    (H1 : (ridsOf env).Nodup) (HF : refsForward env) :
    ∀ (rem : List TReport), rem.IsSuffix env →
      ∀ (t0 : List (String × PathTree)) (seen0 FSpr : List String),
      (∀ y, y ∈ seen0 ↔ y ∈ FSpr) →
      ∀ (t1 : List (String × PathTree)) (seen1 : List String),
      generate_tree_loop env fuel rem t0 seen0 = .ok (t1, seen1) →
      ∃ (ES : List String) (ROOTS : List TReport),
        ES.Sublist (ridsOf rem) ∧
        ROOTS.Sublist rem ∧
        (∀ y, y ∈ seen1 ↔ y ∈ FSpr
            ∨ y ∈ (ROOTS.map (specFRoot env fuel)).flatten) ∧
        (∀ x, countTree x t1 = countTree x t0 + ES.count x
            + ((ROOTS.map (specFRoot env fuel)).flatten).count x) ∧
        (∀ r ∈ ROOTS, r.rid ∉ FSpr
            ∧ r.rid ∉ (ROOTS.map (specFRoot env fuel)).flatten) ∧
        (∀ y ∈ ES, y ∉ FSpr
            ∧ y ∉ (ROOTS.map (specFRoot env fuel)).flatten) ∧
        (∀ x ∈ ridsOf rem, x ∉ FSpr → x ∈ ES
            ∨ x ∈ (ROOTS.map (specFRoot env fuel)).flatten) ∧
        (∀ y ∈ (ROOTS.map (specFRoot env fuel)).flatten,
            y ∈ ridsOf rem.tail) := by
  intro rem
  induction rem with
  | nil =>
    intro hsuf t0 seen0 FSpr hA t1 seen1 h
    simp [generate_tree_loop] at h
    obtain ⟨rfl, rfl⟩ := h
    refine ⟨[], [], by simp, by simp, ?_, ?_, by simp, by simp,
      by simp [ridsOf], by simp⟩
    · intro y; simp [hA y]
    · intro x; simp
  | cons r rest ih =>
    intro hsuf t0 seen0 FSpr hA t1 seen1 h
    have hsuf2 : rest.IsSuffix env :=
      (List.suffix_cons r rest).trans hsuf
    obtain ⟨pre, hpre⟩ := hsuf
    have hdec : env = pre ++ r :: rest := hpre.symm
    have hnodrem : (ridsOf (r :: rest)).Nodup :=
      ridsOf_suffix_nodup env _ H1 ⟨pre, hpre⟩
    have hrr : r.rid ∉ ridsOf rest := by
      have := hnodrem
      simp only [ridsOf, List.map_cons, List.nodup_cons] at this
      exact this.1
    have hresttail : ∀ y ∈ ridsOf rest.tail, y ∈ ridsOf rest :=
      ridsOf_suffix_subset rest.tail rest (List.tail_suffix rest)
    by_cases hb : r.rid ∈ seen0
    · have hbc : seen0.contains r.rid = true := by simpa using hb
      have hstep : generate_tree_loop env fuel (r :: rest) t0 seen0
          = generate_tree_loop env fuel rest t0 seen0 := by
        simp [generate_tree_loop, hb]
      rw [hstep] at h
      obtain ⟨ES, ROOTS, s1, s2, s3, s4, s5, s6, s7, s8⟩ :=
        ih hsuf2 t0 seen0 FSpr hA t1 seen1 h
      refine ⟨ES, ROOTS, ?_, s2.trans (List.sublist_cons_self r rest), s3, s4,
        s5, s6, ?_, ?_⟩
      · exact s1.trans (by simp [ridsOf])
      · intro x hx hxn
        rcases (by simpa [ridsOf] using hx :
            x = r.rid ∨ x ∈ ridsOf rest) with rfl | hx2
        · exact absurd ((hA r.rid).mp hb) hxn
        · exact s7 x hx2 hxn
      · intro y hy
        exact hresttail y (s8 y hy)
    · have hbc : seen0.contains r.rid = false := by simpa using hb
      by_cases hM : (r.reportType == "MODAL") = true
      · cases htm : tree_from_modal env fuel r seen0 with
        | error e => simp [generate_tree_loop, hb, hM, htm] at h
        | ok pr =>
          obtain ⟨node, seenA⟩ := pr
          have hstep : generate_tree_loop env fuel (r :: rest) t0 seen0
              = generate_tree_loop env fuel rest
                  (treeUpd t0 r.path
                    (fun pt => { pt with modals := pt.modals ++ [node] }))
                  seenA := by
            simp [generate_tree_loop, hb, hM, htm]
          rw [hstep] at h
          have hms := tree_from_modal_spec env fuel r seen0 node seenA htm
          have hroot : specFRoot env fuel r
              = specFChildren env fuel r.reportIds := by
            simp [specFRoot, hM]
          have hA2 : ∀ y, y ∈ seenA ↔ y ∈ FSpr
              ++ specFChildren env fuel r.reportIds := by
            intro y
            rw [hms.1 y, hA y, List.mem_append]
          obtain ⟨ES, ROOTS, s1, s2, s3, s4, s5, s6, s7, s8⟩ :=
            ih hsuf2 _ seenA _ hA2 t1 seen1 h
          have hFrSub : ∀ y ∈ specFChildren env fuel r.reportIds,
              y ∈ ridsOf rest := by
            intro y hy
            exact specFRoot_suffix env H1 HF fuel r pre rest hdec y
              (by rw [hroot]; exact hy)
          have hFS2Sub : ∀ y ∈ (ROOTS.map (specFRoot env fuel)).flatten,
              y ∈ ridsOf rest := fun y hy => hresttail y (s8 y hy)
          refine ⟨r.rid :: ES, r :: ROOTS, ?_, List.Sublist.cons₂ r s2,
            ?_, ?_, ?_, ?_, ?_, ?_⟩
          · show (r.rid :: ES).Sublist (ridsOf (r :: rest))
            simp only [ridsOf, List.map_cons]
            exact List.Sublist.cons₂ r.rid s1
          · intro y
            rw [s3 y, List.mem_append]
            simp only [List.map_cons, List.flatten_cons, List.mem_append,
              hroot]
            tauto
          · intro x
            rw [s4 x, countTree_upd x r.path _ (countModal x node)
              (fun pt => countPath_add_modal x node pt) t0, hms.2 x]
            simp only [List.map_cons, List.flatten_cons, List.count_cons,
              List.count_append, hroot, ifBeq]
            omega
          · intro r2 hr2
            rcases List.mem_cons.mp hr2 with rfl | hr3
            · refine ⟨fun hc => hb ((hA r2.rid).mpr hc), ?_⟩
              simp only [List.map_cons, List.flatten_cons, List.mem_append,
                hroot]
              rintro (hc | hc)
              · exact hrr (hFrSub r2.rid hc)
              · exact hrr (hFS2Sub r2.rid hc)
            · have := s5 r2 hr3
              refine ⟨fun hc => this.1 (List.mem_append.mpr (Or.inl hc)),
                ?_⟩
              simp only [List.map_cons, List.flatten_cons, List.mem_append,
                hroot]
              rintro (hc | hc)
              · exact this.1 (List.mem_append.mpr (Or.inr hc))
              · exact this.2 hc
          · intro y hy
            rcases List.mem_cons.mp hy with rfl | hy2
            · refine ⟨fun hc => hb ((hA r.rid).mpr hc), ?_⟩
              simp only [List.map_cons, List.flatten_cons, List.mem_append,
                hroot]
              rintro (hc | hc)
              · exact hrr (hFrSub r.rid hc)
              · exact hrr (hFS2Sub r.rid hc)
            · have := s6 y hy2
              refine ⟨fun hc => this.1 (List.mem_append.mpr (Or.inl hc)),
                ?_⟩
              simp only [List.map_cons, List.flatten_cons, List.mem_append,
                hroot]
              rintro (hc | hc)
              · exact this.1 (List.mem_append.mpr (Or.inr hc))
              · exact this.2 hc
          · intro x hx hxn
            rcases (by simpa [ridsOf] using hx :
                x = r.rid ∨ x ∈ ridsOf rest) with rfl | hx2
            · exact Or.inl (by simp)
            · by_cases hxf : x ∈ specFChildren env fuel r.reportIds
              · refine Or.inr ?_
                simp only [List.map_cons, List.flatten_cons, List.mem_append,
                  hroot]
                exact Or.inl hxf
              · have hxn2 : x ∉ FSpr ++ specFChildren env fuel r.reportIds :=
                  fun hc => (List.mem_append.mp hc).elim hxn hxf
                rcases s7 x hx2 hxn2 with hc | hc
                · exact Or.inl (by simp [hc])
                · refine Or.inr ?_
                  simp only [List.map_cons, List.flatten_cons, List.mem_append,
                    hroot]
                  exact Or.inr hc
          · intro y hy
            simp only [List.map_cons, List.flatten_cons, List.mem_append,
              hroot] at hy
            rcases hy with hc | hc
            · exact hFrSub y hc
            · exact hFS2Sub y hc
      · by_cases hT : (r.reportType == "TABS") = true
        · cases htg : tree_from_tabs_group env fuel r seen0 none with
          | error e => simp [generate_tree_loop, hb, hM, hT, htg] at h
          | ok pr =>
            obtain ⟨node, seenA⟩ := pr
            have hstep : generate_tree_loop env fuel (r :: rest) t0 seen0
                = generate_tree_loop env fuel rest
                    (treeUpd t0 r.path
                      (fun pt =>
                        { pt with tabGroups := pt.tabGroups ++ [node] }))
                    seenA := by
              simp [generate_tree_loop, hb, hM, hT, htg]
            rw [hstep] at h
            have hms := builder_spec env fuel r seen0 none node seenA htg
            have hroot : specFRoot env fuel r = specFTG env fuel r := by
              simp [specFRoot, hM, hT]
            have hA2 : ∀ y, y ∈ seenA ↔ y ∈ FSpr ++ specFTG env fuel r := by
              intro y
              rw [hms.1 y, hA y, List.mem_append]
            obtain ⟨ES, ROOTS, s1, s2, s3, s4, s5, s6, s7, s8⟩ :=
              ih hsuf2 _ seenA _ hA2 t1 seen1 h
            have hFrSub : ∀ y ∈ specFTG env fuel r, y ∈ ridsOf rest := by
              intro y hy
              exact specFRoot_suffix env H1 HF fuel r pre rest hdec y
                (by rw [hroot]; exact hy)
            have hFS2Sub : ∀ y ∈ (ROOTS.map (specFRoot env fuel)).flatten,
                y ∈ ridsOf rest := fun y hy => hresttail y (s8 y hy)
            refine ⟨r.rid :: ES, r :: ROOTS, ?_, List.Sublist.cons₂ r s2,
              ?_, ?_, ?_, ?_, ?_, ?_⟩
            · show (r.rid :: ES).Sublist (ridsOf (r :: rest))
              simp only [ridsOf, List.map_cons]
              exact List.Sublist.cons₂ r.rid s1
            · intro y
              rw [s3 y, List.mem_append]
              simp only [List.map_cons, List.flatten_cons, List.mem_append,
                hroot]
              tauto
            · intro x
              rw [s4 x, countTree_upd x r.path _ (countTG x node)
                (fun pt => countPath_add_tg x node pt) t0, hms.2 x]
              simp only [List.map_cons, List.flatten_cons, List.count_cons,
                List.count_append, hroot, ifBeq]
              omega
            · intro r2 hr2
              rcases List.mem_cons.mp hr2 with rfl | hr3
              · refine ⟨fun hc => hb ((hA r2.rid).mpr hc), ?_⟩
                simp only [List.map_cons, List.flatten_cons, List.mem_append,
                  hroot]
                rintro (hc | hc)
                · exact hrr (hFrSub r2.rid hc)
                · exact hrr (hFS2Sub r2.rid hc)
              · have := s5 r2 hr3
                refine ⟨fun hc => this.1 (List.mem_append.mpr (Or.inl hc)),
                  ?_⟩
                simp only [List.map_cons, List.flatten_cons, List.mem_append,
                  hroot]
                rintro (hc | hc)
                · exact this.1 (List.mem_append.mpr (Or.inr hc))
                · exact this.2 hc
            · intro y hy
              rcases List.mem_cons.mp hy with rfl | hy2
              · refine ⟨fun hc => hb ((hA r.rid).mpr hc), ?_⟩
                simp only [List.map_cons, List.flatten_cons, List.mem_append,
                  hroot]
                rintro (hc | hc)
                · exact hrr (hFrSub r.rid hc)
                · exact hrr (hFS2Sub r.rid hc)
              · have := s6 y hy2
                refine ⟨fun hc => this.1 (List.mem_append.mpr (Or.inl hc)),
                  ?_⟩
                simp only [List.map_cons, List.flatten_cons, List.mem_append,
                  hroot]
                rintro (hc | hc)
                · exact this.1 (List.mem_append.mpr (Or.inr hc))
                · exact this.2 hc
            · intro x hx hxn
              rcases (by simpa [ridsOf] using hx :
                  x = r.rid ∨ x ∈ ridsOf rest) with rfl | hx2
              · exact Or.inl (by simp)
              · by_cases hxf : x ∈ specFTG env fuel r
                · refine Or.inr ?_
                  simp only [List.map_cons, List.flatten_cons, List.mem_append,
                    hroot]
                  exact Or.inl hxf
                · have hxn2 : x ∉ FSpr ++ specFTG env fuel r :=
                    fun hc => (List.mem_append.mp hc).elim hxn hxf
                  rcases s7 x hx2 hxn2 with hc | hc
                  · exact Or.inl (by simp [hc])
                  · refine Or.inr ?_
                    simp only [List.map_cons, List.flatten_cons,
                      List.mem_append, hroot]
                    exact Or.inr hc
            · intro y hy
              simp only [List.map_cons, List.flatten_cons, List.mem_append,
                hroot] at hy
              rcases hy with hc | hc
              · exact hFrSub y hc
              · exact hFS2Sub y hc
        · have hstep : generate_tree_loop env fuel (r :: rest) t0 seen0
              = generate_tree_loop env fuel rest
                  (treeUpd t0 r.path
                    (fun pt => { pt with other := pt.other ++ [r] }))
                  seen0 := by
            simp [generate_tree_loop, hb, hM, hT]
          rw [hstep] at h
          obtain ⟨ES, ROOTS, s1, s2, s3, s4, s5, s6, s7, s8⟩ :=
            ih hsuf2 _ seen0 FSpr hA t1 seen1 h
          have hFS2Sub : ∀ y ∈ (ROOTS.map (specFRoot env fuel)).flatten,
              y ∈ ridsOf rest := fun y hy => hresttail y (s8 y hy)
          refine ⟨r.rid :: ES, ROOTS, ?_,
            s2.trans (List.sublist_cons_self r rest), s3, ?_, s5, ?_, ?_, ?_⟩
          · show (r.rid :: ES).Sublist (ridsOf (r :: rest))
            simp only [ridsOf, List.map_cons]
            exact List.Sublist.cons₂ r.rid s1
          · intro x
            rw [s4 x, countTree_upd x r.path _
              (if r.rid = x then 1 else 0)
              (fun pt => countPath_add_leaf x r pt) t0]
            simp only [List.count_cons, ifBeq]
            omega
          · intro y hy
            rcases List.mem_cons.mp hy with rfl | hy2
            · exact ⟨fun hc => hb ((hA r.rid).mpr hc),
                fun hc => hrr (hFS2Sub r.rid hc)⟩
            · exact s6 y hy2
          · intro x hx hxn
            rcases (by simpa [ridsOf] using hx :
                x = r.rid ∨ x ∈ ridsOf rest) with rfl | hx2
            · exact Or.inl (by simp)
            · rcases s7 x hx2 hxn with hc | hc
              · exact Or.inl (by simp [hc])
              · exact Or.inr hc
          · intro y hy
            exact hFS2Sub y hy

theorem nodup_pos_unique (x : String) :
    ∀ (a1 b1 a2 b2 l : List String), l.Nodup →
      l = a1 ++ x :: b1 → l = a2 ++ x :: b2 → a1.length = a2.length := by
  intro a1
  induction a1 with
  | nil =>
    intro b1 a2 b2 l hnd h1 h2
    subst h1
    cases a2 with
    | nil => rfl
    | cons z a2' =>
      exfalso
      simp only [List.nil_append, List.cons_append, List.cons.injEq]
        at h2 hnd
      obtain ⟨hz, hb⟩ := h2
      rw [List.nodup_cons] at hnd
      exact hnd.1 (by rw [hb]; simp)
  | cons y a1' ih =>
    intro b1 a2 b2 l hnd h1 h2
    subst h1
    cases a2 with
    | nil =>
      exfalso
      simp only [List.nil_append, List.cons_append, List.cons.injEq] at h2
      obtain ⟨hz, hb⟩ := h2
      rw [List.cons_append, List.nodup_cons] at hnd
      exact hnd.1 (by rw [hz]; simp)
    | cons z a2' =>
      simp only [List.cons_append, List.cons.injEq] at h2
      obtain ⟨hz, hb⟩ := h2
      rw [List.cons_append, List.nodup_cons] at hnd
      have := ih b1 a2' b2 (a1' ++ x :: b1) hnd.2 rfl hb
      simp [this]

/-- Each-id-referenced-at-most-once: when the concatenation of every
report's declared child ids is duplicate-free, an id occurring among `p`'s
child ids occurs in no other report's child ids, and in `p`'s only once. -/
theorem parent_unique (env : List TReport)
    (H3 : ((env.map childIdsU).flatten).Nodup) :
    ∀ p ∈ env, ∀ x ∈ childIdsU p, ∀ q ∈ env,
      (childIdsU q).count x ≤ if q.rid = p.rid then 1 else 0 := by
  induction env with
  | nil => intro p hp; simp at hp
  | cons e rest ih =>
    simp only [List.map_cons, List.flatten_cons, List.nodup_append] at H3
    obtain ⟨hndE, hndR, hdisj⟩ := H3
    intro p hp x hx q hq
    rcases List.mem_cons.mp hp with rfl | hp2
    · rcases List.mem_cons.mp hq with rfl | hq2
      · simp only [if_pos rfl]
        exact List.nodup_iff_count_le_one.mp hndE x
      · have hxq : (childIdsU q).count x = 0 :=
          List.count_eq_zero.mpr (fun hc =>
            hdisj hx (List.mem_flatten.mpr
              ⟨childIdsU q, List.mem_map_of_mem childIdsU hq2, hc⟩))
        rw [hxq]
        exact Nat.zero_le _
    · rcases List.mem_cons.mp hq with rfl | hq2
      · have hxq : (childIdsU q).count x = 0 :=
          List.count_eq_zero.mpr (fun hc =>
            hdisj hc (List.mem_flatten.mpr
              ⟨childIdsU p, List.mem_map_of_mem childIdsU hp2, hx⟩))
        rw [hxq]
        exact Nat.zero_le _
      · exact ih hndR p hp2 x hx q hq2

/-- An id referenced by no report never occurs in a fetch trace. -/
theorem specF_nopar (env : List TReport) (x : String)
    (H0 : ∀ q ∈ env, x ∉ childIdsU q) :
    ∀ fuel : Nat,
      (∀ ids : List String, x ∉ ids → x ∉ specFChildren env fuel ids) ∧
      (∀ tabs : List (String × Int × List String),
        (∀ t ∈ tabs, x ∉ t.2.2) → x ∉ specFTabs env fuel tabs) ∧
      (∀ tg : TReport, tg ∈ env → (tg.reportType == "TABS") = true →
        x ∉ specFTG env fuel tg) := by
  intro fuel
  induction fuel using Nat.strong_induction_on with
  | _ fuel IH =>
    have hch : ∀ ids : List String, x ∉ ids →
        x ∉ specFChildren env fuel ids := by
      intro ids
      induction ids with
      | nil => intro _; simp [specFChildren]
      | cons c rest ihl =>
        intro hni
        simp only [List.mem_cons, not_or] at hni
        have hnest : x ∉ nestF env fuel c := by
          cases hgr : get_report env c with
          | error e => simp [nestF, hgr]
          | ok child =>
            by_cases ht : (child.reportType == "TABS") = true
            · cases fuel with
              | zero => simp [nestF, hgr, ht]
              | succ fuel2 =>
                have hc := get_report_rid env c child hgr
                have h2 := (IH fuel2 (Nat.lt_succ_self fuel2)).2.2
                  child hc.2 ht
                simpa [nestF, hgr, ht] using h2
            · simp [nestF, hgr, ht]
        rw [specFChildren_cons]
        simp only [List.mem_cons, List.mem_append, not_or]
        exact ⟨hni.1, hnest, ihl hni.2⟩
    have htb : ∀ tabs : List (String × Int × List String),
        (∀ t ∈ tabs, x ∉ t.2.2) → x ∉ specFTabs env fuel tabs := by
      intro tabs
      induction tabs with
      | nil => intro _; simp [specFTabs]
      | cons tb rest ihl =>
        obtain ⟨tab, o, ids⟩ := tb
        intro h
        simp only [specFTabs, List.mem_append, not_or]
        exact ⟨hch ids (h (tab, o, ids) (by simp)),
          ihl (fun t ht => h t (by simp [ht]))⟩
    have htg : ∀ tg : TReport, tg ∈ env →
        (tg.reportType == "TABS") = true → x ∉ specFTG env fuel tg := by
      intro tg htgm ht
      have hMod : (tg.reportType == "MODAL") = false := by
        have h2 : tg.reportType = "TABS" := by simpa using ht
        simp [h2]
      have hx : x ∉ (tg.tabs.map (fun t => t.2.2)).flatten := by
        simpa [childIdsU, hMod, ht] using H0 tg htgm
      have hperm := pySorted_perm (fun a b => iLt a.2.1 b.2.1) tg.tabs
      simp only [specFTG]
      apply htb
      intro t htm hxt
      exact hx (List.mem_flatten.mpr
        ⟨t.2.2, List.mem_map_of_mem _ (hperm.subset htm), hxt⟩)
    exact ⟨hch, htb, htg⟩

/-- An id referenced by no report never occurs in a root expansion. -/
theorem specFRoot_nopar (env : List TReport) (x : String)
    (H0 : ∀ q ∈ env, x ∉ childIdsU q) (fuel : Nat) (r : TReport)
    (hr : r ∈ env) : x ∉ specFRoot env fuel r := by
  by_cases hM : (r.reportType == "MODAL") = true
  · have hids : x ∉ r.reportIds := by
      simpa [childIdsU, hM] using H0 r hr
    simpa [specFRoot, hM] using (specF_nopar env x H0 fuel).1 r.reportIds hids
  · by_cases hT : (r.reportType == "TABS") = true
    · simpa [specFRoot, hM, hT] using (specF_nopar env x H0 fuel).2.2 r hr hT
    · simp [specFRoot, hM, hT]

/-- Key counting bound: when the id `x` is referenced at most once, and only
by a report whose id is `prid`, each occurrence of `x` in a fetch trace
follows an expansion of that parent, so the trace holds `x` at most once
more than it holds `prid`. -/
theorem specF_key (env : List TReport) (x prid : String)
    (Hpar : ∀ q ∈ env, (childIdsU q).count x
      ≤ if q.rid = prid then 1 else 0) :
    ∀ fuel : Nat,
      (∀ ids : List String,
        (specFChildren env fuel ids).count x
          ≤ ids.count x + (specFChildren env fuel ids).count prid) ∧
      (∀ tabs : List (String × Int × List String),
        (specFTabs env fuel tabs).count x
          ≤ ((tabs.map (fun t => t.2.2)).flatten).count x
            + (specFTabs env fuel tabs).count prid) ∧
      (∀ tg : TReport, tg ∈ env → (tg.reportType == "TABS") = true →
        (specFTG env fuel tg).count x
          ≤ (if tg.rid = prid then 1 else 0)
            + (specFTG env fuel tg).count prid) := by
  intro fuel
  induction fuel using Nat.strong_induction_on with
  | _ fuel IH =>
    have hch : ∀ ids : List String,
        (specFChildren env fuel ids).count x
          ≤ ids.count x + (specFChildren env fuel ids).count prid := by
      intro ids
      induction ids with
      | nil => simp [specFChildren]
      | cons c rest ihl =>
        have hnest : (nestF env fuel c).count x
            ≤ (if c = prid then 1 else 0)
              + (nestF env fuel c).count prid := by
          cases hgr : get_report env c with
          | error e => simp [nestF, hgr]
          | ok child =>
            by_cases ht : (child.reportType == "TABS") = true
            · cases fuel with
              | zero => simp [nestF, hgr, ht]
              | succ fuel2 =>
                have hc := get_report_rid env c child hgr
                have hb := (IH fuel2 (Nat.lt_succ_self fuel2)).2.2
                  child hc.2 ht
                rw [hc.1] at hb
                simpa [nestF, hgr, ht] using hb
            · simp [nestF, hgr, ht]
        rw [specFChildren_cons]
        simp only [List.count_cons, List.count_append, ifBeq]
        omega
    have htb : ∀ tabs : List (String × Int × List String),
        (specFTabs env fuel tabs).count x
          ≤ ((tabs.map (fun t => t.2.2)).flatten).count x
            + (specFTabs env fuel tabs).count prid := by
      intro tabs
      induction tabs with
      | nil => simp [specFTabs]
      | cons tb rest ihl =>
        obtain ⟨tab, o, ids⟩ := tb
        have h1 := hch ids
        simp only [specFTabs, List.map_cons, List.flatten_cons,
          List.count_append]
        omega
    have htg : ∀ tg : TReport, tg ∈ env →
        (tg.reportType == "TABS") = true →
        (specFTG env fuel tg).count x
          ≤ (if tg.rid = prid then 1 else 0)
            + (specFTG env fuel tg).count prid := by
      intro tg htgm ht
      have hMod : (tg.reportType == "MODAL") = false := by
        have h2 : tg.reportType = "TABS" := by simpa using ht
        simp [h2]
      have hperm := pySorted_perm (fun a b => iLt a.2.1 b.2.1) tg.tabs
      have hb := htb (pySorted (fun a b => iLt a.2.1 b.2.1) tg.tabs)
      have hpf : (((pySorted (fun a b => iLt a.2.1 b.2.1) tg.tabs).map
          (fun t => t.2.2)).flatten).count x = (childIdsU tg).count x := by
        rw [((hperm.map (fun t => t.2.2)).flatten).count_eq x]
        simp [childIdsU, hMod, ht]
      rw [hpf] at hb
      have hP := Hpar tg htgm
      simp only [specFTG]
      omega
    exact ⟨hch, htb, htg⟩

/-- The key counting bound at the root of an expansion. -/
theorem specFRoot_key (env : List TReport) (x prid : String)
    (Hpar : ∀ q ∈ env, (childIdsU q).count x
      ≤ if q.rid = prid then 1 else 0)
    (fuel : Nat) (r : TReport) (hr : r ∈ env) :
    (specFRoot env fuel r).count x
      ≤ (if r.rid = prid then 1 else 0)
        + (specFRoot env fuel r).count prid := by
  by_cases hM : (r.reportType == "MODAL") = true
  · have h1 := (specF_key env x prid Hpar fuel).1 r.reportIds
    have h2 : (childIdsU r).count x ≤ if r.rid = prid then 1 else 0 :=
      Hpar r hr
    have h3 : childIdsU r = r.reportIds := by simp [childIdsU, hM]
    rw [h3] at h2
    have hroot : specFRoot env fuel r = specFChildren env fuel r.reportIds :=
      by simp [specFRoot, hM]
    rw [hroot]
    omega
  · by_cases hT : (r.reportType == "TABS") = true
    · have hroot : specFRoot env fuel r = specFTG env fuel r := by
        simp [specFRoot, hM, hT]
      rw [hroot]
      exact (specF_key env x prid Hpar fuel).2.2 r hr hT
    · have hroot : specFRoot env fuel r = [] := by
        simp [specFRoot, hM, hT]
      simp [hroot]

/-- The key counting bound over all root expansions of one run: `x` occurs
at most once per occurrence of its parent as a root or inside a trace. -/
theorem FS_bound (env : List TReport) (fuel : Nat) (x prid : String)
    (Hpar : ∀ q ∈ env, (childIdsU q).count x
      ≤ if q.rid = prid then 1 else 0) :
    ∀ ROOTS : List TReport, (∀ r ∈ ROOTS, r ∈ env) →
      ((ROOTS.map (specFRoot env fuel)).flatten).count x
        ≤ (ROOTS.map TReport.rid).count prid
          + ((ROOTS.map (specFRoot env fuel)).flatten).count prid := by
  intro ROOTS
  induction ROOTS with
  | nil => intro _; simp
  | cons r rest ih =>
    intro hRe
    have h1 := specFRoot_key env x prid Hpar fuel r (hRe r (by simp))
    have h2 := ih (fun q hq => hRe q (by simp [hq]))
    simp only [List.map_cons, List.flatten_cons, List.count_append,
      List.count_cons, ifBeq]
    omega

/-- An id referenced by no report occurs in no root expansion of the run. -/
theorem FS_zero (env : List TReport) (fuel : Nat) (x : String)
    (H0 : ∀ q ∈ env, x ∉ childIdsU q) :
    ∀ ROOTS : List TReport, (∀ r ∈ ROOTS, r ∈ env) →
      x ∉ (ROOTS.map (specFRoot env fuel)).flatten := by
  intro ROOTS hRe hc
  obtain ⟨s, hs, hxs⟩ := List.mem_flatten.mp hc
  obtain ⟨r, hr, rfl⟩ := List.mem_map.mp hs
  exact specFRoot_nopar env x H0 fuel r (hRe r hr) hxs

/-- Each id is fetched at most once across the run's root expansions:
induction along the fetch order, stepping from an id to its unique parent,
which occurs strictly earlier by the forward-reference discipline. -/
theorem FS_count_aux (env : List TReport) (fuel : Nat)
    (H1 : (ridsOf env).Nodup) (HF : refsForward env)
    (H3 : ((env.map childIdsU).flatten).Nodup)
    (ROOTS : List TReport) (hRe : ∀ r ∈ ROOTS, r ∈ env)
    (hRnd : (ROOTS.map TReport.rid).Nodup)
    (hRF : ∀ r ∈ ROOTS, r.rid ∉ (ROOTS.map (specFRoot env fuel)).flatten) :
    ∀ n : Nat, ∀ (x : String) (pre : List TReport) (rx : TReport)
      (post : List TReport),
      env = pre ++ rx :: post → rx.rid = x → pre.length < n →
      ((ROOTS.map (specFRoot env fuel)).flatten).count x ≤ 1 := by
  intro n
  induction n with
  | zero => intro x pre rx post _ _ hlt; omega
  | succ n ihn =>
    intro x pre rx post hdec hrx hlen
    by_cases hpar : ∃ p, p ∈ env ∧ x ∈ childIdsU p
    · obtain ⟨p, hp, hxp⟩ := hpar
      have Hpar : ∀ q ∈ env, (childIdsU q).count x
          ≤ if q.rid = p.rid then 1 else 0 :=
        fun q hq => parent_unique env H3 p hp x hxp q hq
      have hb := FS_bound env fuel x p.rid Hpar ROOTS hRe
      obtain ⟨preP, postP, hdecP⟩ := List.append_of_mem hp
      have hxpost : x ∈ ridsOf postP := HF preP p postP hdecP x hxp
      obtain ⟨rx2, hrx2m, hrx2⟩ := List.mem_map.mp hxpost
      obtain ⟨a2, b2, hab2⟩ := List.append_of_mem hrx2m
      have hdec2 : env = (preP ++ p :: a2) ++ rx2 :: b2 := by
        rw [hdecP, hab2]; simp
      have e1 : ridsOf env = ridsOf pre ++ x :: ridsOf post := by
        rw [hdec]; simp [ridsOf, hrx]
      have e2 : ridsOf env
          = ridsOf (preP ++ p :: a2) ++ x :: ridsOf b2 := by
        rw [hdec2]; simp [ridsOf, hrx2]
      have e3 := nodup_pos_unique x (ridsOf pre) (ridsOf post)
        (ridsOf (preP ++ p :: a2)) (ridsOf b2) (ridsOf env) H1 e1 e2
      simp only [ridsOf, List.length_map, List.length_append,
        List.length_cons] at e3
      have hple := ihn p.rid preP p postP hdecP rfl (by omega)
      by_cases hpR : p ∈ ROOTS
      · have h0 : ((ROOTS.map (specFRoot env fuel)).flatten).count p.rid
            = 0 := List.count_eq_zero.mpr (hRF p hpR)
        have hc1 : (ROOTS.map TReport.rid).count p.rid ≤ 1 :=
          List.nodup_iff_count_le_one.mp hRnd p.rid
        omega
      · have h0 : (ROOTS.map TReport.rid).count p.rid = 0 := by
          refine List.count_eq_zero.mpr ?_
          intro hc
          obtain ⟨r2, hr2, hr2e⟩ := List.mem_map.mp hc
          exact hpR ((rid_inj env H1 r2 (hRe r2 hr2) p hp hr2e) ▸ hr2)
        omega
    · push_neg at hpar
      have h0 := FS_zero env fuel x (fun q hq => hpar q hq) ROOTS hRe
      simp [List.count_eq_zero.mpr h0]

/-- Each id is fetched at most once across the run's root expansions. -/
theorem FS_count_le_one (env : List TReport) (fuel : Nat)
    (H1 : (ridsOf env).Nodup) (HF : refsForward env)
    (H3 : ((env.map childIdsU).flatten).Nodup)
    (ROOTS : List TReport) (hRe : ∀ r ∈ ROOTS, r ∈ env)
    (hRnd : (ROOTS.map TReport.rid).Nodup)
    (hRF : ∀ r ∈ ROOTS, r.rid ∉ (ROOTS.map (specFRoot env fuel)).flatten)
    (x : String) :
    ((ROOTS.map (specFRoot env fuel)).flatten).count x ≤ 1 := by
  by_cases hx : x ∈ ridsOf env
  · obtain ⟨rx, hrxm, hrx⟩ := List.mem_map.mp hx
    obtain ⟨pre, post, hdec⟩ := List.append_of_mem hrxm
    exact FS_count_aux env fuel H1 HF H3 ROOTS hRe hRnd hRF
      (pre.length + 1) x pre rx post hdec hrx (Nat.lt_succ_self _)
  · by_cases hpar : ∃ p, p ∈ env ∧ x ∈ childIdsU p
    · exfalso
      obtain ⟨p, hp, hxp⟩ := hpar
      obtain ⟨preP, postP, hdecP⟩ := List.append_of_mem hp
      have hxpost : x ∈ ridsOf postP := HF preP p postP hdecP x hxp
      apply hx
      rw [hdecP]
      simp only [ridsOf, List.map_append, List.map_cons, List.mem_append,
        List.mem_cons]
      right; right
      simpa [ridsOf] using hxpost
    · push_neg at hpar
      simp [List.count_eq_zero.mpr
        (FS_zero env fuel x (fun q hq => hpar q hq) ROOTS hRe)]

/-- The final per-path sorting pass of `generate_tree` permutes each path's
`tab_groups` and `other` lists and so moves no id between positions. -/
theorem countTree_sortFinal (x : String) :
    ∀ t : List (String × PathTree),
      countTree x (t.map (fun pv =>
        (pv.1,
         (⟨pv.2.modals,
          pySorted (fun a b => iLt a.tabsGroup.order b.tabsGroup.order)
            pv.2.tabGroups,
          pySorted (fun a b => iLt a.order b.order) pv.2.other⟩
          : PathTree))))
        = countTree x t := by
  intro t
  induction t with
  | nil => simp [countTree]
  | cons pv rest ih =>
    simp only [List.map_cons, countTree, List.map_cons, List.sum_cons]
      at ih ⊢
    have h1 : countPath x
        (⟨pv.2.modals,
          pySorted (fun a b => iLt a.tabsGroup.order b.tabsGroup.order)
            pv.2.tabGroups,
          pySorted (fun a b => iLt a.order b.order) pv.2.other⟩
          : PathTree) = countPath x pv.2 := by
      have h2 := countTGL_perm x (pySorted_perm
        (fun a b => iLt a.tabsGroup.order b.tabsGroup.order) pv.2.tabGroups)
      have h3 := (pySorted_perm (fun a b => iLt a.order b.order)
        pv.2.other).countP_eq (fun r => r.rid == x)
      simp only [countPath]
      rw [h2, h3]
    rw [h1, ih]

/-- Soundness of the forward-reference decision procedure. -/
theorem refsForward_of_B : ∀ l : List TReport,
    refsForwardB l = true → refsForward l := by
  intro l
  induction l with
  | nil =>
    intro _ pre r post hdec y hy
    exfalso
    have := congrArg List.length hdec
    simp at this
    omega
  | cons a rest ih =>
    intro hB pre r post hdec y hy
    have hB2 : ((childIdsU a).all
          (fun z => (ridsOf rest).contains z) = true)
        ∧ refsForwardB rest = true := by
      simpa [refsForwardB, Bool.and_eq_true] using hB
    cases pre with
    | nil =>
      rw [List.nil_append] at hdec
      have ha : a = r := by injection hdec
      have hrest : rest = post := by injection hdec
      have hy2 : y ∈ childIdsU a := by rw [ha]; exact hy
      have h3 := List.all_eq_true.mp hB2.1 y hy2
      rw [← hrest]
      simpa using h3
    | cons b pre2 =>
      rw [List.cons_append] at hdec
      have hrest : rest = pre2 ++ r :: post := by injection hdec
      exact ih hB2.2 pre2 r post hrest y hy

/-- C2 (amended): when the fetched report list carries pairwise-distinct
ids, every id is referenced as a child by at most one container link in the
whole list, and every reference points strictly forward in the fetch order,
a successful `generate_tree` run places every fetched report id in exactly
one position of the built tree — in particular an id absorbed into a
tab-group or modal is never also emitted as a top-level item. -/
theorem claim_C2_exactly_once (env : List TReport) (fuel : Nat)
    (H1 : (ridsOf env).Nodup)
    (H3 : ((env.map childIdsU).flatten).Nodup)
    (HF : refsForward env)
    (t : List (String × PathTree))
    (h : generate_tree env fuel env = .ok t) :
    ∀ x ∈ ridsOf env, countTree x t = 1 := by
  intro x hx
  unfold generate_tree at h
  cases hloop : generate_tree_loop env fuel env [] [] with
  | error e =>
    rw [hloop] at h
    simp at h
  | ok pr =>
    obtain ⟨t1, seen1⟩ := pr
    rw [hloop] at h
    dsimp only at h
    have h2 : t1.map (fun pv =>
        (pv.1,
         (⟨pv.2.modals,
          pySorted (fun a b => iLt a.tabsGroup.order b.tabsGroup.order)
            pv.2.tabGroups,
          pySorted (fun a b => iLt a.order b.order) pv.2.other⟩
          : PathTree))) = t := by
      injection h
    obtain ⟨ES, ROOTS, s1, s2, s3, s4, s5, s6, s7, s8⟩ :=
      loop_spec env fuel H1 HF env (List.suffix_refl env) [] [] []
        (by simp) t1 seen1 hloop
    have hRe : ∀ r ∈ ROOTS, r ∈ env := fun r hr => s2.subset hr
    have hRnd : (ROOTS.map TReport.rid).Nodup :=
      H1.sublist (s2.map TReport.rid)
    have hRF : ∀ r ∈ ROOTS,
        r.rid ∉ (ROOTS.map (specFRoot env fuel)).flatten :=
      fun r hr => (s5 r hr).2
    have hFS1 : ((ROOTS.map (specFRoot env fuel)).flatten).count x ≤ 1 :=
      FS_count_le_one env fuel H1 HF H3 ROOTS hRe hRnd hRF x
    have hES : ES.Nodup := H1.sublist s1
    have hcnt := s4 x
    have h0 : countTree x ([] : List (String × PathTree)) = 0 := by
      simp [countTree]
    rw [← h2, countTree_sortFinal]
    rcases s7 x hx (by simp) with hxe | hxf
    · have he1 : ES.count x = 1 := List.count_eq_one_of_mem hES hxe
      have hf0 : ((ROOTS.map (specFRoot env fuel)).flatten).count x = 0 :=
        List.count_eq_zero.mpr (s6 x hxe).2
      omega
    · have hf1 : 0 < ((ROOTS.map (specFRoot env fuel)).flatten).count x :=
        List.count_pos_iff.mpr hxf
      have he0 : ES.count x = 0 :=
        List.count_eq_zero.mpr (fun hc => (s6 x hc).2 hxf)
      omega

theorem claim_C2_exactly_once_witness :
    countTree "m" [("p", ⟨[⟨rModalC2W, [], [rLeafC2W]⟩], [], []⟩)] = 1 ∧
    countTree "x" [("p", ⟨[⟨rModalC2W, [], [rLeafC2W]⟩], [], []⟩)] = 1 :=
  ⟨claim_C2_exactly_once envC2W 3 (by decide) (by decide)
      (refsForward_of_B envC2W (by decide))
      [("p", ⟨[⟨rModalC2W, [], [rLeafC2W]⟩], [], []⟩)]
      (by simp [generate_tree, generate_tree_loop, envC2W, rModalC2W,
        rLeafC2W, tree_from_modal, processModalChildren, get_report,
        seenAdd, treeUpd, emptyPathTree, pySorted, pyInsert, iLt])
      "m" (by decide),
   claim_C2_exactly_once envC2W 3 (by decide) (by decide)
      (refsForward_of_B envC2W (by decide))
      [("p", ⟨[⟨rModalC2W, [], [rLeafC2W]⟩], [], []⟩)]
      (by simp [generate_tree, generate_tree_loop, envC2W, rModalC2W,
        rLeafC2W, tree_from_modal, processModalChildren, get_report,
        seenAdd, treeUpd, emptyPathTree, pySorted, pyInsert, iLt])
      "x" (by decide)⟩

/-! ## Claim C1: the idempotent round-trip requirement -/

/-- C1: the idempotent round-trip requirement fails on the code as written:
in a workspace whose menu path holds two echarts components linked to one
dataset — which the generation pass therefore classifies as shared — with
stored custom single-row data, both component serializers return no code at
all (the shared-and-custom branch of `code_gen_from_echarts`), so the
generated program holds no creation call for either component; executing it
against an empty workspace rebuilds neither of the two components, the
rebuilt tree is not structurally equal to the original modulo identifier
renaming, and the normalized diff cannot be zero. -/
theorem claim_C1_roundtrip_code_bug :
    (sharedPass linksC1).shared = ["d1"] ∧
    blocksC1 = [[], []] ∧
    specRebuiltComponents blocksC1 = 0 ∧
    linksC1.length = 2 ∧
    specRebuiltComponents blocksC1 < linksC1.length := by
  refine ⟨rfl, rfl, rfl, rfl, ?_⟩
  decide

end Shimoku
